import Mathlib

/-!
# XDR-Agent: event queue, sender batching and JSON sanitising

A shallow embedding of the ingestion-and-delivery pipeline of the agent:

* `EventQueueManager` (PhSAgent/EventQueueManager.cpp): the bounded FIFO of
  formatted records;
* `Sender` (Sender/sender.cpp): the drain / batch / flush loop;
* `Utility::SanitizeJson` (logMonitor/Utility.cpp): the JSON escaping pass.

Conventions. A `std::wstring` is a list of characters. A `std::queue` is a
list whose head is the front. Unsigned 32-bit quantities are natural numbers,
reduced modulo `2^32` where the source narrows a wider value. An operation
whose C++ behaviour is undefined yields `none`.
-/

namespace XDRAgent

/-- A `std::wstring`: the sequence of its characters. The functions modelled
here only compare wide characters for equality, so a wide character is
rendered as a Lean character. -/
abbrev WString := List Char

/-! ## EventQueueManager -/

/-- Member `limitSize_` of `EventQueueManager` (initialised to 50000 in the
class declaration and never assigned afterwards). -/
def limitSize_ : Nat := 50000

/-- The data members of `EventQueueManager` that the operations read and
write: the queue (front first) and the current capacity. -/
structure EventQueueManager where
  queue_ : List WString
  maxSize_ : Nat
deriving DecidableEq, Repr

/-- The call `std::queue::pop`. Popping an empty queue is undefined behaviour and is
rendered as `none`. -/
def queue_pop : List WString → Option (List WString)
  | [] => none
  | _ :: rest => some rest

/-- The trimming loop of `SetMaxSize`:
`while (queue_.size() > maxSize_) queue_.pop();`.
The loop condition is false on an empty queue, so the `pop` in its body is
always defined. -/
def trimLoop (maxSize : Nat) : List WString → List WString
  | [] => []
  | x :: rest => if (x :: rest).length > maxSize then trimLoop maxSize rest else x :: rest

namespace EventQueueManager

/-- The constructor `EventQueueManager::EventQueueManager()`: an empty queue
with `maxSize_(10000)`. -/
def ctor : XDRAgent.EventQueueManager :=
  { queue_ := [], maxSize_ := 10000 }

/-- Method `EventQueueManager::SetMaxSize`: clamp to `limitSize_`, store, trim. -/
def SetMaxSize (s : XDRAgent.EventQueueManager) (newSize : Nat) : XDRAgent.EventQueueManager :=
  let newSize := if newSize > limitSize_ then limitSize_ else newSize
  { queue_ := trimLoop newSize s.queue_, maxSize_ := newSize }

/-- Method `EventQueueManager::Push`:
`if (queue_.size() >= maxSize_) queue_.pop(); queue_.push(item);`.
The `pop` is not guarded by an emptiness test. -/
def Push (s : XDRAgent.EventQueueManager) (item : WString) : Option XDRAgent.EventQueueManager :=
  if s.queue_.length ≥ s.maxSize_ then
    match queue_pop s.queue_ with
    | none => none
    | some q => some { s with queue_ := q ++ [item] }
  else
    some { s with queue_ := s.queue_ ++ [item] }

/-- Method `EventQueueManager::Pop`: `if (!queue_.empty()) queue_.pop();`. -/
def Pop (s : XDRAgent.EventQueueManager) : XDRAgent.EventQueueManager :=
  match s.queue_ with
  | [] => s
  | _ :: rest => { s with queue_ := rest }

/-- Method `EventQueueManager::Peek`: the front record, or `L""` on an empty queue. -/
def Peek (s : XDRAgent.EventQueueManager) : WString :=
  match s.queue_ with
  | [] => []
  | x :: _ => x

/-- Method `EventQueueManager::IsEmpty`: `queue_.empty()`. -/
def IsEmpty (s : XDRAgent.EventQueueManager) : Bool :=
  s.queue_.isEmpty

/-- Method `EventQueueManager::Size`: `static_cast<unsigned int>(queue_.size())`. -/
def Size (s : XDRAgent.EventQueueManager) : Nat :=
  s.queue_.length % 2 ^ 32

end EventQueueManager

/-- One call on the queue by a client. -/
inductive QueueCall where
  | Push (item : WString)
  | Pop
  | SetMaxSize (newSize : Nat)
deriving DecidableEq, Repr

/-- Performs one client call. -/
def QueueCall.run (s : EventQueueManager) : QueueCall → Option EventQueueManager
  | .Push item => s.Push item
  | .Pop => some s.Pop
  | .SetMaxSize n => some (s.SetMaxSize n)

/-- Performs a sequence of client calls, left to right. The result is `none`
as soon as one call has undefined behaviour. -/
def runCalls (s : EventQueueManager) : List QueueCall → Option EventQueueManager
  | [] => some s
  | c :: cs => (c.run s).bind fun s1 => runCalls s1 cs

/-- Pushes the records of a list in order. -/
def pushAll (s : EventQueueManager) : List WString → Option EventQueueManager
  | [] => some s
  | r :: rs => (s.Push r).bind fun s1 => pushAll s1 rs

/-- The consumer idiom `Peek` immediately followed by `Pop`, repeated `n`
times; returns the peeked records in the order seen and the final queue. -/
def peekPop : Nat → EventQueueManager → List WString × EventQueueManager
  | 0, s => ([], s)
  | n + 1, s =>
    let item := s.Peek
    let r := peekPop n s.Pop
    (item :: r.1, r.2)

/-! ## Sender -/

/-- The data members of `Sender` that `Run` reads and writes. -/
structure Sender where
  m_eventQueueManager : EventQueueManager
  jsonArray_ : WString
  url_ : WString
  path_ : WString
  interval_ : Nat
  max_event_ : Nat
  running_ : Bool
deriving DecidableEq, Repr

/-- A call from `Sender::Run` to one of the two sinks of the class, with the
arguments passed and the value the call returned. -/
inductive SinkCall where
  | write2file_ (folderPath jsonData : WString) (result : Bool)
  | send_ (logname data : WString) (result : Bool)
deriving DecidableEq, Repr

/-- Method `Sender::AppendJsonToArray`, as a function of the member `jsonArray_`:
the returned flag and the new value of the member.
`std::wstring::insert(pos, str)` throws `std::out_of_range` when
`pos > size()`; with an empty `jsonArray_` the position `size() - 1` wraps
to the largest `size_t`, the handler catches the exception, the member is
unchanged and the function returns `false`. -/
def AppendJsonToArray (jsonArray_ newElement : WString) : Bool × WString :=
  if jsonArray_ = ['[', ']'] then
    (true, ['['] ++ newElement ++ [']'])
  else if jsonArray_.length = 0 then
    (false, jsonArray_)
  else
    (true, jsonArray_.take (jsonArray_.length - 1) ++ ([','] ++ newElement)
            ++ jsonArray_.drop (jsonArray_.length - 1))

/-- Number of bytes of the UTF-8 encoding produced by `wstringToUtf8`
(`0` for the empty string). -/
def utf8Length (w : WString) : Nat :=
  (w.map Char.utf8Size).sum

/-- Method `Sender::write2file_`, up to the file system. A payload whose UTF-8
encoding is shorter than 3 bytes is refused before any file is opened;
otherwise the result is `fileOk`, the conjunction of the outcomes of
`_wfopen_s`, `fwrite` (all bytes written) and `fclose`, which the
environment decides. -/
def write2file_ (fileOk : Bool) (_folderPath jsonData : WString) : Bool :=
  if utf8Length jsonData < 3 then false else fileOk

namespace Sender

/-- The drain loop of `Sender::Run`:
`while (current_count < pop_count && !IsEmpty()) { item = Peek();
if (AppendJsonToArray(item)) { Pop(); current_count++; } }`.
One unit of fuel is spent per evaluation of the loop condition; `none` means
the fuel ran out before the condition became false. -/
def drainLoop : Nat → Sender → Nat → Nat → Option Sender
  | 0, _, _, _ => none
  | fuel + 1, s, current_count, pop_count =>
    if current_count < pop_count ∧ ¬ s.m_eventQueueManager.IsEmpty then
      let item := s.m_eventQueueManager.Peek
      let r := AppendJsonToArray s.jsonArray_ item
      if r.1 then
        drainLoop fuel
          { s with jsonArray_ := r.2, m_eventQueueManager := s.m_eventQueueManager.Pop }
          (current_count + 1) pop_count
      else
        drainLoop fuel { s with jsonArray_ := r.2 } current_count pop_count
    else
      some s

/-- One iteration of the `while (running_)` loop of `Sender::Run`, from the
computation of `pop_count` to the point where the thread starts waiting on
the stop event. Returns the new state and the sink calls made, in order.
The value returned by `write2file_` is not inspected by `Run`; it is kept in
the call record. `Run` contains no call to `send_`. -/
def RunIteration (fuel : Nat) (fileOk : Bool) (s : Sender) : Option (Sender × List SinkCall) :=
  let pop_count := s.m_eventQueueManager.Size
  let pop_count := if pop_count > s.max_event_ then s.max_event_ else pop_count
  match drainLoop fuel s 0 pop_count with
  | none => none
  | some s1 =>
    if s1.url_.length ≤ 0 then
      let result := write2file_ fileOk s1.path_ s1.jsonArray_
      some ({ s1 with jsonArray_ := ['[', ']'] },
            [SinkCall.write2file_ s1.path_ s1.jsonArray_ result])
    else
      some (s1, [])

end Sender

/-- The records `r1, .., rn` separated by commas: `r1 + "," + r2 + .. + "," + rn`. -/
def commaJoin : List WString → WString
  | [] => []
  | [r] => r
  | r :: r2 :: rs => r ++ ',' :: commaJoin (r2 :: rs)

/-- The text `[` + `r1,..,rn` + `]`. -/
def batchOf (rs : List WString) : WString :=
  '[' :: commaJoin rs ++ [']']

/-- Appends the records of a list to a batch with `AppendJsonToArray`, in order. -/
def appendAll (jsonArray_ : WString) : List WString → WString
  | [] => jsonArray_
  | r :: rs => appendAll (AppendJsonToArray jsonArray_ r).2 rs

/-! ## JSON texts (RFC 8259) -/

/-- Syntax tree of a JSON text (RFC 8259). Numbers keep their lexeme and
strings the raw text between their quotes. -/
inductive Json where
  | null
  | true
  | false
  | num (lexeme : WString)
  | str (body : WString)
  | arr (items : List Json)
  | obj (members : List (WString × Json))

def isWs (c : Char) : Bool :=
  c = ' ' || c = '\t' || c = '\n' || c = '\r'

def skipWs : WString → WString
  | [] => []
  | c :: t => if isWs c then skipWs t else c :: t

def isHexDigit (c : Char) : Bool :=
  ('0' ≤ c && c ≤ '9') || ('a' ≤ c && c ≤ 'f') || ('A' ≤ c && c ≤ 'F')

def isSimpleEscape (c : Char) : Bool :=
  c = '"' || c = '\\' || c = '/' || c = 'b' || c = 'f' || c = 'n' || c = 'r' || c = 't'

def scanString : WString → Option (WString × WString)
  | [] => none
  | c :: t =>
    if c = '"' then some ([], t)
    else if c = '\\' then
      match t with
      | [] => none
      | e :: t2 =>
        if isSimpleEscape e then
          (scanString t2).map fun r => (c :: e :: r.1, r.2)
        else if e = 'u' then
          match t2 with
          | h1 :: h2 :: h3 :: h4 :: t3 =>
            if isHexDigit h1 && isHexDigit h2 && isHexDigit h3 && isHexDigit h4 then
              (scanString t3).map fun r => (c :: e :: h1 :: h2 :: h3 :: h4 :: r.1, r.2)
            else none
          | _ => none
        else none
    else if c.toNat < 0x20 then none
    else (scanString t).map fun r => (c :: r.1, r.2)

def isNumChar (c : Char) : Bool :=
  c.isDigit || c = '-' || c = '+' || c = '.' || c = 'e' || c = 'E'

/-- The digits at the start of a text and what follows them. -/
def spanDigits : WString → WString × WString
  | [] => ([], [])
  | c :: t => if c.isDigit then ((spanDigits t).1.cons c, (spanDigits t).2) else ([], c :: t)

/-- The number grammar of RFC 8259:
`-? (0 | [1-9][0-9]*) (. [0-9]+)? ([eE] [+-]? [0-9]+)?`. -/
def isJsonNumber (w : WString) : Bool :=
  let w1 := match w with
    | '-' :: t => t
    | _ => w
  let ip := (spanDigits w1).1
  let r1 := (spanDigits w1).2
  let intOk := match ip with
    | [] => false
    | d :: ds => d ≠ '0' || ds.isEmpty
  let fracOk := match r1 with
    | '.' :: t => !(spanDigits t).1.isEmpty
    | _ => Bool.true
  let r2 := match r1 with
    | '.' :: t => (spanDigits t).2
    | _ => r1
  let expOk := match r2 with
    | [] => Bool.true
    | e :: t =>
      (e = 'e' || e = 'E') &&
        (let t1 := match t with
          | '+' :: u => u
          | '-' :: u => u
          | _ => t
         !t1.isEmpty && (spanDigits t1).2.isEmpty)
  intOk && fracOk && expOk

/-- The elements of a non-empty array after the opening bracket, up to and
including the closing bracket; `pv` reads one value. The text starts at the
first element. -/
def parseElements (pv : WString → Option (Json × WString)) :
    Nat → WString → Option (List Json × WString)
  | 0, _ => none
  | fuel + 1, s =>
    match pv s with
    | none => none
    | some (v, r) =>
      match skipWs r with
      | [] => none
      | d :: u =>
        if d = ',' then (parseElements pv fuel (skipWs u)).map fun x => (v :: x.1, x.2)
        else if d = ']' then some ([v], u)
        else none

/-- The members of a non-empty object after the opening brace, up to and
including the closing brace; `pv` reads one value. The text starts at the
first member name. -/
def parseMembers (pv : WString → Option (Json × WString)) :
    Nat → WString → Option (List (WString × Json) × WString)
  | 0, _ => none
  | fuel + 1, s =>
    match s with
    | [] => none
    | q :: t =>
      if q = '"' then
        match scanString t with
        | none => none
        | some (key, r) =>
          match skipWs r with
          | [] => none
          | colon :: u =>
            if colon = ':' then
              match pv (skipWs u) with
              | none => none
              | some (v, r2) =>
                match skipWs r2 with
                | [] => none
                | d :: w =>
                  if d = ',' then
                    (parseMembers pv fuel (skipWs w)).map fun x => ((key, v) :: x.1, x.2)
                  else if d = '}' then some ([(key, v)], w)
                  else none
            else none
      else none

/-- Reads one JSON value at the start of a text (no leading white space) and
returns it with the rest of the text. The fuel bounds the nesting depth and
the number of elements; `none` is a syntax error or exhausted fuel. -/
def parseValue : Nat → WString → Option (Json × WString)
  | 0, _ => none
  | fuel + 1, s =>
    match s with
    | [] => none
    | c :: t =>
      if c = '[' then
        match skipWs t with
        | [] => none
        | d :: u =>
          if d = ']' then some (Json.arr [], u)
          else (parseElements (parseValue fuel) fuel (d :: u)).map fun x => (Json.arr x.1, x.2)
      else if c = '{' then
        match skipWs t with
        | [] => none
        | d :: u =>
          if d = '}' then some (Json.obj [], u)
          else (parseMembers (parseValue fuel) fuel (d :: u)).map fun x => (Json.obj x.1, x.2)
      else if c = '"' then
        (scanString t).map fun x => (Json.str x.1, x.2)
      else if c = 't' then
        if t.take 3 = ['r', 'u', 'e'] then some (Json.true, t.drop 3) else none
      else if c = 'f' then
        if t.take 4 = ['a', 'l', 's', 'e'] then some (Json.false, t.drop 4) else none
      else if c = 'n' then
        if t.take 3 = ['u', 'l', 'l'] then some (Json.null, t.drop 3) else none
      else if isJsonNumber (s.takeWhile isNumChar) then
        some (Json.num (s.takeWhile isNumChar), s.dropWhile isNumChar)
      else none

/-- Reads a complete JSON text: white space, one value, white space, end. -/
def parseJson (fuel : Nat) (s : WString) : Option Json :=
  match parseValue fuel (skipWs s) with
  | none => none
  | some (v, r) => if skipWs r = [] then some v else none

/-- The text `s` is a JSON text whose syntax tree is `v`: the reader returns
`v` on `s` for every sufficient amount of fuel. -/
def IsJson (s : WString) (v : Json) : Prop :=
  ∃ F, ∀ f, F ≤ f → parseJson f s = some v

/-- What follows the first record in a batch text: `,r` for each further
record, then the closing bracket. -/
def tailText : List WString → WString
  | [] => [']']
  | r :: rs => ',' :: (r ++ tailText rs)

/-- The text does not start with a character that could continue a number. -/
def Stop (t : WString) : Prop := ∀ c, t.head? = some c → isNumChar c = false

/-! ## SanitizeJson -/

/-- The conversion `static_cast<int>` applied to a `size_t`: the value modulo
`2^32`, read as a 32-bit two's complement number. -/
def toInt32 (n : Nat) : Int :=
  if n % 2 ^ 32 < 2 ^ 31 then ((n % 2 ^ 32 : Nat) : Int) else ((n % 2 ^ 32 : Nat) : Int) - 2 ^ 32

/-- The loop of `IsEscaped`,
`for (int i = ..; i >= 0 && str[i] == L'\\'; --i) backslashCount++;`,
as a function of `i + 1`: the number of consecutive backslashes at the
indices `i, i - 1, ..`. -/
def countBack (str : WString) : Nat → Nat
  | 0 => 0
  | i + 1 => if str[i]? = some '\\' then countBack str i + 1 else 0

/-- The helper `IsEscaped(str, pos)`: whether an odd number of backslashes
precedes position `pos`. The loop index starts at
`static_cast<int>(pos) - 1`. -/
def IsEscaped (str : WString) (pos : Nat) : Bool :=
  countBack str (toInt32 pos).toNat % 2 == 1

/-- The call `str.replace(pos, len, s2)` for `pos + len <= str.size()`. -/
def wreplace (str : WString) (pos len : Nat) (s2 : WString) : WString :=
  str.take pos ++ s2 ++ str.drop (pos + len)

namespace Utility

/-- The loop of `Utility::SanitizeJson` on the string `str` at index `i`.
One unit of fuel is spent per evaluation of the loop condition; `none` means
the fuel ran out before the loop ended. -/
def SanitizeJson.loop : Nat → WString → Nat → Option WString
  | 0, _, _ => none
  | fuel + 1, str, i =>
    if i < str.length then
      let sub := (str.drop i).take 1
      if sub = ['"'] then
        if !IsEscaped str i then loop fuel (wreplace str i 1 ['\\', '"']) (i + 1 + 1)
        else loop fuel str (i + 1)
      else if sub = ['\\'] then
        if i = str.length - 1 || str[i + 1]? != some '\\' then
          loop fuel (wreplace str i 1 ['\\', '\\']) (i + 1 + 1)
        else loop fuel str (i + 2)
      else if sub = ['\n'] then
        if !IsEscaped str i then loop fuel (wreplace str i 1 ['\\', 'n']) (i + 1 + 1)
        else loop fuel str (i + 1)
      else if sub = ['\r'] then
        if !IsEscaped str i then loop fuel (wreplace str i 1 ['\\', 'r']) (i + 1 + 1)
        else loop fuel str (i + 1)
      else if sub = ['\t'] then
        if !IsEscaped str i then loop fuel (wreplace str i 1 ['\\', 't']) (i + 1 + 1)
        else loop fuel str (i + 1)
      else loop fuel str (i + 1)
    else some str

/-- Function `Utility::SanitizeJson`: the value of the in-out parameter on return. -/
def SanitizeJson (fuel : Nat) (str : WString) : Option WString :=
  SanitizeJson.loop fuel str 0

end Utility

/-- Number of backslashes at the end of a string. -/
def trail (done : WString) : Nat := countBack done done.length

/-- A string made of complete tokens of a JSON string body: scanning a
string literal runs over it and goes on with what follows. -/
def Complete (done : WString) : Prop :=
  ∀ tail, scanString (done ++ tail) = (scanString tail).map fun r => (done ++ r.1, r.2)

/-- The only characters below U+0020 in the text are CR, LF and TAB. -/
def OnlyCrLfTab (msg : WString) : Prop :=
  ∀ c ∈ msg, c.toNat < 0x20 → c = '\r' ∨ c = '\n' ∨ c = '\t'

/-! ## Invariants and example inputs -/

/-- The capacity bound and its positivity: the invariant that every call
preserves as long as no call sets the capacity to zero. -/
def EventQueueManager.Bounded (s : EventQueueManager) : Prop :=
  s.queue_.length ≤ s.maxSize_ ∧ 0 < s.maxSize_

/-- A call that does not set the capacity to zero. -/
def QueueCall.KeepsRoom : QueueCall → Prop
  | .SetMaxSize n => 0 < n
  | _ => True

/-- A sender with the local-file sink: queue A, B, C, empty batch, at most
2 records per cycle. -/
def senderABC : Sender :=
  { m_eventQueueManager := ⟨[['A'], ['B'], ['C']], 3⟩, jsonArray_ := ['[', ']'], url_ := [],
    path_ := ['C', ':'], interval_ := 5, max_event_ := 2, running_ := true }

/-- A sender with the local-file sink: queue B, C, D, empty batch, at most
500 records per cycle. -/
def senderBCD : Sender :=
  { m_eventQueueManager := ⟨[['B'], ['C'], ['D']], 3⟩, jsonArray_ := ['[', ']'], url_ := [],
    path_ := ['C', ':'], interval_ := 5, max_event_ := 500, running_ := true }

/-- The record `{"a":1}`. -/
def recordA : WString := ['{', '"', 'a', '"', ':', '1', '}']

/-- The record `[true]` preceded by a blank. -/
def recordB : WString := [' ', '[', 't', 'r', 'u', 'e', ']']

/-- A message with a quote, a backslash, a line feed and a tab: `a"\` LF TAB. -/
def messageQ : WString := ['a', '"', '\\', '\n', '\t']

/-- A sender with a remote URL configured: queue A, empty batch. -/
def senderRemote : Sender :=
  { m_eventQueueManager := ⟨[['A']], 3⟩, jsonArray_ := ['[', ']'], url_ := ['h', ':'],
    path_ := ['C', ':'], interval_ := 5, max_event_ := 500, running_ := true }

/-! ## Sender: file creation and wait timeout -/

/-- Whether a call of `write2file_` creates a file. The function returns
before `_wfopen_s` when the UTF-8 payload is shorter than 3 bytes; otherwise
the file is created (mode `wb`) exactly when `_wfopen_s` succeeds, which is
`openOk`. -/
def write2file_.createsFile (openOk : Bool) (jsonData : WString) : Bool :=
  if utf8Length jsonData < 3 then false else openOk

/-- The timeout that `Sender::Run` passes to `WaitForSingleObject` on the
stop event: `interval_ * 60000`, a product in `unsigned int`, hence modulo
`2^32`. -/
def Sender.waitTimeout (s : Sender) : Nat :=
  (s.interval_ * 60000) % 2 ^ 32

/-! ## MainService: construction of the monitors -/

/-- How a constructor call ends: normally, with a thrown `std::exception`,
or with a thrown value of another type. -/
inductive CtorOutcome where
  | constructed
  | throwsStdException
  | throwsOther
deriving DecidableEq, Repr

/-- The two handlers of `MainService::CreateEventMonitor`, each of which
writes one error line to the log. -/
inductive CatchLog where
  | stdException
  | unknownError
deriving DecidableEq, Repr

/-- The part of `MainService` that `CreateEventMonitor` can affect: whether
`g_eventMon` and `g_endpointMon` hold a monitor (whose constructor also
starts its thread), whether the sender started earlier is still running, and
the error lines logged. -/
structure MainService where
  g_eventMon : Bool
  g_endpointMon : Bool
  senderRunning : Bool
  errorLog : List CatchLog
deriving DecidableEq, Repr

/-- Method `MainService::CreateEventMonitor`. One `try` block holds both
assignments, `g_eventMon = std::make_unique<EventMonitor>(..)` followed by
`g_endpointMon = std::make_unique<EndpointMonitor>(..)`; the two handlers
log and return. The arguments say how each constructor ends when it is
called. -/
def MainService.CreateEventMonitor (eventMon endpointMon : CtorOutcome) (s : MainService) :
    MainService :=
  match eventMon with
  | .throwsStdException => { s with errorLog := s.errorLog ++ [CatchLog.stdException] }
  | .throwsOther => { s with errorLog := s.errorLog ++ [CatchLog.unknownError] }
  | .constructed =>
    let s1 := { s with g_eventMon := true }
    match endpointMon with
    | .throwsStdException => { s1 with errorLog := s1.errorLog ++ [CatchLog.stdException] }
    | .throwsOther => { s1 with errorLog := s1.errorLog ++ [CatchLog.unknownError] }
    | .constructed => { s1 with g_endpointMon := true }

/-- The supervisor after `ServiceWorkerThread` has started the sender and
before `CreateEventMonitor` runs: no monitor yet, nothing logged. -/
def serviceStarted : MainService :=
  { g_eventMon := false, g_endpointMon := false, senderRunning := true, errorLog := [] }

/-- A sender with the local-file sink, an empty queue and the empty batch. -/
def senderIdle : Sender :=
  { m_eventQueueManager := ⟨[], 3⟩, jsonArray_ := ['[', ']'], url_ := [],
    path_ := ['C', ':'], interval_ := 5, max_event_ := 500, running_ := true }

/-! ## Sender: the destination folder -/

/-- Offset of the first occurrence of `needle` in a text, if any. -/
def findAt (needle : WString) : WString → Option Nat
  | [] => if needle = [] then some 0 else none
  | c :: t => if needle.isPrefixOf (c :: t) then some 0 else (findAt needle t).map (· + 1)

/-- The call `str.find(needle, pos)`; `none` stands for `npos`. -/
def wfind (str needle : WString) (pos : Nat) : Option Nat :=
  if pos ≤ str.length then (findAt needle (str.drop pos)).map (· + pos) else none

/-- The directory part of the path of the executable in `sanitizeFolderPath`:
`wcsrchr(exePath, L'\\')` and truncation at the backslash found; unchanged
when there is no backslash. -/
def exeDirectory (exePath : WString) : WString :=
  match exePath.reverse.dropWhile (· != '\\') with
  | [] => exePath
  | _ :: before => before.reverse

/-- Whether a string is non-empty and its last character is a backslash or
a forward slash. -/
def endsWithSeparator (w : WString) : Bool :=
  decide (w.length > 0) && (w[w.length - 1]? == some '\\' || w[w.length - 1]? == some '/')

/-- The last step of `sanitizeFolderPath`:
`if (len > 0 && (p[len - 1] == L'\\' || p[len - 1] == L'/')) p.erase(len - 1);`. -/
def trimTrailingSeparator (sanitizedPath : WString) : WString :=
  if endsWithSeparator sanitizedPath then sanitizedPath.take (sanitizedPath.length - 1)
  else sanitizedPath

/-- The path that `sanitizeFolderPath` settles on before trimming: the
configured path, or the directory of the executable when the configured path
holds `..\` or `../`, is empty, or does not exist. `pathExists p` is the
answer of `GetFileAttributesW(p) != INVALID_FILE_ATTRIBUTES` and `exePath`
the string that `GetModuleFileNameW` stores. -/
def Sender.chosenFolder (pathExists : WString → Bool) (exePath path : WString) : WString :=
  let sanitizedPath :=
    if (wfind path ['.', '.', '\\'] 0).isSome || (wfind path ['.', '.', '/'] 0).isSome then []
    else path
  if sanitizedPath.isEmpty || !pathExists sanitizedPath then exeDirectory exePath
  else sanitizedPath

/-- Method `Sender::sanitizeFolderPath`. -/
def Sender.sanitizeFolderPath (pathExists : WString → Bool) (exePath path : WString) : WString :=
  trimTrailingSeparator (Sender.chosenFolder pathExists exePath path)

/-- The path `C:\x\agent.exe` of an executable. -/
def exePathSample : WString :=
  ['C', ':', '\\', 'x', '\\', 'a', 'g', 'e', 'n', 't', '.', 'e', 'x', 'e']

/-! ## Decoding the body of a JSON string -/

/-- Value of a hexadecimal digit. -/
def hexVal (c : Char) : Nat :=
  if '0' ≤ c ∧ c ≤ '9' then c.toNat - 48
  else if 'a' ≤ c ∧ c ≤ 'f' then c.toNat - 87
  else c.toNat - 55

/-- Value of four hexadecimal digits. -/
def hex4 (h1 h2 h3 h4 : Char) : Nat :=
  ((hexVal h1 * 16 + hexVal h2) * 16 + hexVal h3) * 16 + hexVal h4

/-- The character that a simple escape `\e` of a JSON string stands for. -/
def unescapeSimple (e : Char) : Char :=
  if e = 'b' then Char.ofNat 8
  else if e = 'f' then Char.ofNat 12
  else if e = 'n' then '\n'
  else if e = 'r' then '\r'
  else if e = 't' then '\t'
  else e

/-- The text that the body of a JSON string literal (the characters between
its quotes) denotes, by RFC 8259: escapes are replaced by the characters they
stand for, a `\uXXXX` pair of surrogates by the character it encodes. `none`
when the body is not well formed (unescaped quote, raw control character,
unknown escape, lone surrogate). -/
def decodeBody : WString → Option WString
  | [] => some []
  | c :: t =>
    if c = '"' then none
    else if c = '\\' then
      match t with
      | [] => none
      | e :: t2 =>
        if isSimpleEscape e then (decodeBody t2).map fun r => unescapeSimple e :: r
        else if e = 'u' then
          match t2 with
          | h1 :: h2 :: h3 :: h4 :: t3 =>
            if isHexDigit h1 && isHexDigit h2 && isHexDigit h3 && isHexDigit h4 then
              if hex4 h1 h2 h3 h4 < 0xD800 ∨ 0xDFFF < hex4 h1 h2 h3 h4 then
                (decodeBody t3).map fun r => Char.ofNat (hex4 h1 h2 h3 h4) :: r
              else
                match t3 with
                | b :: u :: l1 :: l2 :: l3 :: l4 :: t4 =>
                  if b = '\\' ∧ u = 'u' ∧ hex4 h1 h2 h3 h4 < 0xDC00
                      ∧ isHexDigit l1 ∧ isHexDigit l2 ∧ isHexDigit l3 ∧ isHexDigit l4
                      ∧ 0xDC00 ≤ hex4 l1 l2 l3 l4 ∧ hex4 l1 l2 l3 l4 ≤ 0xDFFF then
                    (decodeBody t4).map fun r =>
                      Char.ofNat (0x10000 + (hex4 h1 h2 h3 h4 - 0xD800) * 0x400
                        + (hex4 l1 l2 l3 l4 - 0xDC00)) :: r
                  else none
                | _ => none
            else none
          | _ => none
        else none
    else if c.toNat < 0x20 then none
    else (decodeBody t).map fun r => c :: r

/-- What `SanitizeJson` is documented to put in place of a character:
backslash-quote for a double quote, two backslashes for a backslash, `\n`,
`\r`, `\t` for LF, CR, TAB, and the character itself otherwise. -/
def escapeChar (c : Char) : WString :=
  if c = '"' then ['\\', '"']
  else if c = '\\' then ['\\', '\\']
  else if c = '\n' then ['\\', 'n']
  else if c = '\r' then ['\\', 'r']
  else if c = '\t' then ['\\', 't']
  else [c]

/-- No backslash of the text is immediately followed by another backslash. -/
def NoBackslashPair : WString → Prop
  | a :: b :: t => ¬ (a = '\\' ∧ b = '\\') ∧ NoBackslashPair (b :: t)
  | _ => True

/-! ## Utility: custom log line templates -/

/-- The library function `towupper` in the "C" locale, the locale of a
program that never calls `setlocale`: the letters `a` to `z` are mapped to
`A` to `Z`, every other character to itself. -/
def towupper (c : Char) : Char :=
  if 'a' ≤ c ∧ c ≤ 'z' then Char.ofNat (c.toNat - 32) else c

/-- The call `str.find_last_of(c)` for a single character; `none` stands for
`npos`. -/
def find_last_of : WString → Char → Option Nat
  | [], _ => none
  | x :: t, c =>
    match find_last_of t c with
    | some p => some (p + 1)
    | none => if x = c then some 0 else none

/-- The fields of `EventLogEntry` (EndpointMonitor.h); `eventId` is a
`UINT16`. -/
structure EventLogEntry where
  source : WString
  eventSource : WString
  eventTime : WString
  eventChannel : WString
  eventLevel : WString
  eventId : Nat
  eventMessage : WString
deriving DecidableEq, Repr

namespace Utility

/-- Function `Utility::CompareWStrings`: equal sizes and `std::equal` under
`towupper`. -/
def CompareWStrings (stringA stringB : WString) : Bool :=
  stringA.length == stringB.length &&
    (List.zipWith (fun l1 r1 => towupper l1 == towupper r1) stringA stringB).all id

/-- The loop of `Utility::ReplaceAll`:
`while ((start_pos = Str.find(From, start_pos)) != npos) {
Str.replace(start_pos, From.length(), To); start_pos += To.length(); }`.
One unit of fuel is spent per call of `find`; `none` means the fuel ran out. -/
def ReplaceAll.loop : Nat → WString → WString → WString → Nat → Option WString
  | 0, _, _, _, _ => none
  | fuel + 1, Str, From, To, start_pos =>
    match wfind Str From start_pos with
    | none => some Str
    | some p => loop fuel (wreplace Str p From.length To) From To (p + To.length)

/-- Function `Utility::ReplaceAll`. -/
def ReplaceAll (fuel : Nat) (Str From To : WString) : Option WString :=
  ReplaceAll.loop fuel Str From To 0

/-- Function `Utility::IsCustomJsonFormat`: the returned flag and the new
value of the in-out parameter `customLogFormat`. -/
def IsCustomJsonFormat (fuel : Nat) (customLogFormat : WString) : Option (Bool × WString) :=
  match find_last_of customLogFormat '|' with
  | none => some (false, customLogFormat)
  | some npos =>
    let substr := (customLogFormat.drop (npos + 1)).filter (· != ' ')
    if !substr.isEmpty && CompareWStrings substr ['J', 'S', 'O', 'N'] then
      match ReplaceAll fuel customLogFormat ['\''] ['~', '"'] with
      | none => none
      | some replaced =>
        match find_last_of replaced '|' with
        | none => some (true, replaced)
        | some cut => some (true, replaced.take cut)
    else
      some (false, customLogFormat.take npos)

/-- The scanning loop of `Utility::FormatEventLineLog` on the template
`customLogFormat` with the indices `i` and `j`; `fieldValueOf` gives the
value substituted for a field name. `j - i` is a difference of `size_t`
values with `i < j` throughout. One unit of fuel is spent per evaluation of
the loop condition; `none` means the fuel ran out. -/
def FormatEventLineLog.loop (fieldValueOf : WString → WString) :
    Nat → WString → Nat → Nat → Option WString
  | 0, _, _, _ => none
  | fuel + 1, customLogFormat, i, j =>
    if i < customLogFormat.length then
      let sub := (customLogFormat.drop i).take (j - i)
      let sub_length := sub.length
      let startsWithPercent := sub[0]? == some '%'
      let endsWithPercent := sub[sub_length - 1]? == some '%'
      if !startsWithPercent && !endsWithPercent then
        loop fieldValueOf fuel customLogFormat (i + 1) (j + 1)
      else if startsWithPercent && endsWithPercent && decide (sub_length > 1) then
        let fieldName := (sub.drop 1).take (sub_length - 2)
        let fieldValue := fieldValueOf fieldName
        loop fieldValueOf fuel (wreplace customLogFormat i sub_length fieldValue)
          (i + fieldValue.length) (i + fieldValue.length + 1)
      else
        loop fieldValueOf fuel customLogFormat i (j + 1)
    else
      some customLogFormat

/-- The value that `FormatEventLineLog` substitutes for a field name: the
result of `EventMonitor::EventFieldsMapping(fieldName, pLogEntry)` for the
source type `EventLog`, the empty string for every other source type. The
class `EventMonitor` is not part of the sources at hand, so its mapping is
the parameter `EventFieldsMapping`. -/
def FormatEventLineLog.fieldValue (EventFieldsMapping : WString → WString)
    (sourceType fieldName : WString) : WString :=
  if sourceType = ['E', 'T', 'W'] then []
  else if sourceType = ['E', 'v', 'e', 'n', 't', 'L', 'o', 'g'] then EventFieldsMapping fieldName
  else []

/-- Function `Utility::FormatEventLineLog`. The same fuel bounds each of its
three loops. -/
def FormatEventLineLog (fuel : Nat) (EventFieldsMapping : WString → WString)
    (customLogFormat sourceType : WString) : Option WString :=
  match IsCustomJsonFormat fuel customLogFormat with
  | none => none
  | some (customJsonFormat, customLogFormat) =>
    match FormatEventLineLog.loop (FormatEventLineLog.fieldValue EventFieldsMapping sourceType)
        fuel customLogFormat 0 1 with
    | none => none
    | some expanded => if customJsonFormat then SanitizeJson fuel expanded else some expanded

end Utility

/-- The text that `operator<<` of a stream writes for an unsigned number:
its decimal digits. -/
def decimal (n : Nat) : WString :=
  Nat.toDigits 10 n

/-- Method `EndpointMonitor::EventFieldsMapping`: the text written to the
stream by the six `if` statements, in their order. -/
def EndpointMonitor.EventFieldsMapping (eventField : WString) (pLogEntry : EventLogEntry) :
    WString :=
  (if Utility.CompareWStrings eventField ['T', 'i', 'm', 'e', 'S', 't', 'a', 'm', 'p']
    then pLogEntry.eventTime else [])
  ++ (if Utility.CompareWStrings eventField ['S', 'e', 'v', 'e', 'r', 'i', 't', 'y']
    then pLogEntry.eventLevel else [])
  ++ (if Utility.CompareWStrings eventField ['S', 'o', 'u', 'r', 'c', 'e']
    then pLogEntry.source else [])
  ++ (if Utility.CompareWStrings eventField
      ['E', 'v', 'e', 'n', 't', 'S', 'o', 'u', 'r', 'c', 'e']
    then pLogEntry.eventSource else [])
  ++ (if Utility.CompareWStrings eventField ['E', 'v', 'e', 'n', 't', 'I', 'D']
    then decimal pLogEntry.eventId else [])
  ++ (if Utility.CompareWStrings eventField ['M', 'e', 's', 's', 'a', 'g', 'e']
    then pLogEntry.eventMessage else [])

/-- The template `L0 %F1% L1 .. %Fn% Ln`, given `L0` and the pairs
`(Fi, Li)`. -/
def templateOf (L0 : WString) (tokens : List (WString × WString)) : WString :=
  L0 ++ tokens.flatMap fun t => '%' :: (t.1 ++ '%' :: t.2)

/-- The text `L0 v1 L1 .. vn Ln` where `vi` is the value of the field `Fi`. -/
def expansionOf (fieldValueOf : WString → WString) (L0 : WString)
    (tokens : List (WString × WString)) : WString :=
  L0 ++ tokens.flatMap fun t => fieldValueOf t.1 ++ t.2

/-- An event record for the examples: error 4625 of the provider `Sec`. -/
def entrySample : EventLogEntry :=
  { source := ['E', 'v', 'e', 'n', 't', 'L', 'o', 'g'], eventSource := ['S', 'e', 'c'],
    eventTime := ['1', '2', ':', '0', '0'], eventChannel := ['A', 'p', 'p'],
    eventLevel := ['E', 'r', 'r', 'o', 'r'], eventId := 4625,
    eventMessage := ['h', 'i', '"'] }

/-- The text in which every single quote is replaced by a tilde followed by
a double quote. -/
def quoteReplaced (B : WString) : WString :=
  B.flatMap fun c => if c = '\'' then ['~', '"'] else [c]

/-- An event record whose message holds a percent sign. -/
def entryPercent : EventLogEntry :=
  { entrySample with eventMessage := ['5', '0', '%'] }

/-! ## PrintEvent: the line of one event -/

/-- The characters that a C function reads from `w.c_str()`: those before
the first NUL. -/
def c_str (w : WString) : WString :=
  w.takeWhile (· != Char.ofNat 0)

/-- An argument of the variable argument list of `FormatString`. -/
inductive FormatArg where
  | str (w : WString)
  | uint (n : Nat)

namespace Utility

/-- Function `Utility::FormatString`: the text that `vswprintf_s` composes
from the format and the arguments. The conversions are `%s`, which copies a
wide string up to its first NUL, and `%u`, which writes an `unsigned int` in
decimal; `none` stands for any other directive and for an argument that does
not match its directive. -/
def FormatString : WString → List FormatArg → Option WString
  | [], _ => some []
  | c :: fmt, args =>
    if c = '%' then
      match fmt, args with
      | 's' :: fmt2, FormatArg.str w :: args2 =>
        (FormatString fmt2 args2).map fun r => c_str w ++ r
      | 'u' :: fmt2, FormatArg.uint n :: args2 =>
        (FormatString fmt2 args2).map fun r => decimal (n % 2 ^ 32) ++ r
      | _, _ => none
    else (FormatString fmt args).map fun r => c :: r

end Utility

namespace EndpointMonitor

/-- The table `c_LevelToString` of `PrintEvent`. -/
def c_LevelToString : List WString :=
  [['U', 'n', 'k', 'n', 'o', 'w', 'n'],
   ['C', 'r', 'i', 't', 'i', 'c', 'a', 'l'],
   ['E', 'r', 'r', 'o', 'r'],
   ['W', 'a', 'r', 'n', 'i', 'n', 'g'],
   ['I', 'n', 'f', 'o', 'r', 'm', 'a', 't', 'i', 'o', 'n'],
   ['V', 'e', 'r', 'b', 'o', 's', 'e']]

/-- The format of the XML line in `PrintEvent`. -/
def xmlLogFmt : WString :=
    ['<', 'L', 'o', 'g', '>', '<', 'S', 'o', 'u', 'r', 'c', 'e', '>', '%', 's', '<', '/', 'S',
     'o', 'u', 'r', 'c', 'e', '>', '<', 'L', 'o', 'g', 'E', 'n', 't', 'r', 'y', '>', '<', 'E',
     'v', 'e', 'n', 't', 'S', 'o', 'u', 'r', 'c', 'e', '>', '%', 's', '<', '/', 'E', 'v', 'e',
     'n', 't', 'S', 'o', 'u', 'r', 'c', 'e', '>', '<', 'T', 'i', 'm', 'e', '>', '%', 's', '<',
     '/', 'T', 'i', 'm', 'e', '>', '<', 'C', 'h', 'a', 'n', 'n', 'e', 'l', '>', '%', 's', '<',
     '/', 'C', 'h', 'a', 'n', 'n', 'e', 'l', '>', '<', 'L', 'e', 'v', 'e', 'l', '>', '%', 's',
     '<', '/', 'L', 'e', 'v', 'e', 'l', '>', '<', 'E', 'v', 'e', 'n', 't', 'I', 'd', '>', '%',
     'u', '<', '/', 'E', 'v', 'e', 'n', 't', 'I', 'd', '>', '<', 'M', 'e', 's', 's', 'a', 'g',
     'e', '>', '%', 's', '<', '/', 'M', 'e', 's', 's', 'a', 'g', 'e', '>', '<', '/', 'L', 'o',
     'g', 'E', 'n', 't', 'r', 'y', '>', '<', '/', 'L', 'o', 'g', '>']

/-- The format of the JSON line in `PrintEvent`. -/
def jsonLogFmt : WString :=
    ['{', '"', 'S', 'o', 'u', 'r', 'c', 'e', '"', ':', ' ', '"', '%', 's', '"', ',', '"', 'L',
     'o', 'g', 'E', 'n', 't', 'r', 'y', '"', ':', ' ', '{', '"', 'E', 'v', 'e', 'n', 't', 'S',
     'o', 'u', 'r', 'c', 'e', '"', ':', ' ', '"', '%', 's', '"', ',', '"', 'T', 'i', 'm', 'e',
     '"', ':', ' ', '"', '%', 's', '"', ',', '"', 'C', 'h', 'a', 'n', 'n', 'e', 'l', '"', ':',
     ' ', '"', '%', 's', '"', ',', '"', 'L', 'e', 'v', 'e', 'l', '"', ':', ' ', '"', '%', 's',
     '"', ',', '"', 'E', 'v', 'e', 'n', 't', 'I', 'd', '"', ':', ' ', '%', 'u', ',', '"', 'M',
     'e', 's', 's', 'a', 'g', 'e', '"', ':', ' ', '"', '%', 's', '"', '}', '}']

/-- The arguments that `PrintEvent` passes to `FormatString` after the format. -/
def formatArgs (pLogEntry : EventLogEntry) : List FormatArg :=
  [FormatArg.str pLogEntry.source, FormatArg.str pLogEntry.eventSource,
   FormatArg.str pLogEntry.eventTime, FormatArg.str pLogEntry.eventChannel,
   FormatArg.str pLogEntry.eventLevel, FormatArg.uint pLogEntry.eventId,
   FormatArg.str pLogEntry.eventMessage]

/-- The value of `formattedEvent` in `EndpointMonitor::PrintEvent`, from the
values rendered for the event (provider name, channel, event id, level and
the time as `FileTimeToString` writes it) and the content of
`m_eventMessageBuffer`. The field mapping called by `FormatEventLineLog` is a
parameter. `none` is undefined behaviour (a level outside the table, a
message buffer without a NUL read as a C string) or exhausted fuel. -/
def PrintEvent.formattedEvent (fuel : Nat) (m_logFormat m_customLogFormat : WString)
    (EventFieldsMapping : WString → EventLogEntry → WString)
    (providerName channelName eventTime : WString) (eventId level : Nat)
    (m_eventMessageBuffer : WString) : Option WString :=
  match c_LevelToString[level % 2 ^ 8]? with
  | none => none
  | some eventLevel =>
    if Char.ofNat 0 ∈ m_eventMessageBuffer then
      let pLogEntry : EventLogEntry :=
        { source := ['E', 'v', 'e', 'n', 't', 'L', 'o', 'g'], eventSource := providerName,
          eventTime := eventTime, eventChannel := channelName, eventLevel := eventLevel,
          eventId := eventId % 2 ^ 16, eventMessage := c_str m_eventMessageBuffer }
      if Utility.CompareWStrings m_logFormat ['C', 'u', 's', 't', 'o', 'm'] then
        Utility.FormatEventLineLog fuel (fun name => EventFieldsMapping name pLogEntry)
          m_customLogFormat pLogEntry.source
      else if Utility.CompareWStrings m_logFormat ['X', 'M', 'L'] then
        Utility.FormatString xmlLogFmt (formatArgs pLogEntry)
      else
        match Utility.SanitizeJson fuel m_eventMessageBuffer with
        | none => none
        | some msg =>
          Utility.FormatString jsonLogFmt (formatArgs { pLogEntry with eventMessage := msg })
    else none

end EndpointMonitor

/-- A text without double quote, backslash and character below U+0020. -/
def PlainText (w : WString) : Prop :=
  ∀ c ∈ w, c ≠ '"' ∧ c ≠ '\\' ∧ ¬ c.toNat < 0x20

/-- One step of the loop of `SanitizeJson` at a character `c` followed by
`rest`: the characters that the step leaves behind the index and the part of
`rest` still to visit. The flag is the value of `IsEscaped` at `c`. -/
def sanitizeStep (escaped : Bool) (c : Char) (rest : WString) : WString × WString :=
  if c = '"' then (if !escaped then ['\\', '"'] else [c], rest)
  else if c = '\\' then (['\\', '\\'], if rest.head? ≠ some '\\' then rest else rest.tail)
  else if c = '\n' then (if !escaped then ['\\', 'n'] else [c], rest)
  else if c = '\r' then (if !escaped then ['\\', 'r'] else [c], rest)
  else if c = '\t' then (if !escaped then ['\\', 't'] else [c], rest)
  else ([c], rest)

/-- The text of the JSON line of `PrintEvent` once the seven values are
substituted in the format. -/
def jsonLineOf (source eventSource eventTime eventChannel eventLevel eventId
    eventMessage : WString) : WString :=
  ['{', '"', 'S', 'o', 'u', 'r', 'c', 'e', '"', ':', ' ', '"'] ++ (source ++ (['"', ',', '"',
    'L', 'o', 'g', 'E', 'n', 't', 'r', 'y', '"', ':', ' ', '{', '"', 'E', 'v', 'e', 'n', 't',
    'S', 'o', 'u', 'r', 'c', 'e', '"', ':', ' ', '"'] ++ (eventSource ++ (['"', ',', '"', 'T',
    'i', 'm', 'e', '"', ':', ' ', '"'] ++ (eventTime ++ (['"', ',', '"', 'C', 'h', 'a', 'n', 'n',
    'e', 'l', '"', ':', ' ', '"'] ++ (eventChannel ++ (['"', ',', '"', 'L', 'e', 'v', 'e', 'l',
    '"', ':', ' ', '"'] ++ (eventLevel ++ (['"', ',', '"', 'E', 'v', 'e', 'n', 't', 'I', 'd',
    '"', ':', ' '] ++ (eventId ++ ([',', '"', 'M', 'e', 's', 's', 'a', 'g', 'e', '"', ':', ' ',
    '"'] ++ (eventMessage ++ (['"', '}', '}']))))))))))))))

/-- The syntax tree of the JSON line of `PrintEvent`: an object with the
members `Source` and `LogEntry`, the latter an object with the six other
members. -/
def jsonTreeOf (source eventSource eventTime eventChannel eventLevel eventId
    eventMessage : WString) : Json :=
  Json.obj
    [(['S', 'o', 'u', 'r', 'c', 'e'], Json.str source),
     (['L', 'o', 'g', 'E', 'n', 't', 'r', 'y'], Json.obj
       [(['E', 'v', 'e', 'n', 't', 'S', 'o', 'u', 'r', 'c', 'e'], Json.str eventSource),
        (['T', 'i', 'm', 'e'], Json.str eventTime),
        (['C', 'h', 'a', 'n', 'n', 'e', 'l'], Json.str eventChannel),
        (['L', 'e', 'v', 'e', 'l'], Json.str eventLevel),
        (['E', 'v', 'e', 'n', 't', 'I', 'd'], Json.num eventId),
        (['M', 'e', 's', 's', 'a', 'g', 'e'], Json.str eventMessage)])]

/-! ## MainService: the stop path -/

/-- What `MainService::OnStop` does, in the order of its statements. -/
inductive StopAction where
  | WriteEventLogEntry
  | SenderStop
  | SetStoppingEvent
  | WaitStoppedEvent
  | ThrowLastError
deriving DecidableEq, Repr

/-- Method `MainService::OnStop`: the state on return (or when it throws) and
the actions performed. `g_sender->Stop()` sets the stop event of the sender
and clears `running_`; the wait on `m_hStoppedEvent` ends with
`WAIT_OBJECT_0` (`waitOk`) or else the method throws. No statement of the
method touches `g_eventMon` or `g_endpointMon`. -/
def MainService.OnStop (waitOk : Bool) (s : MainService) : MainService × List StopAction :=
  ({ s with senderRunning := false },
   [StopAction.WriteEventLogEntry, StopAction.SenderStop, StopAction.SetStoppingEvent,
    StopAction.WaitStoppedEvent] ++ if waitOk then [] else [StopAction.ThrowLastError])

/-- The supervisor once `CreateEventMonitor` has constructed both monitors. -/
def serviceMonitoring : MainService :=
  MainService.CreateEventMonitor .constructed .constructed serviceStarted

/-! ## EndpointMonitor: construction and teardown -/

/-- The members of `EndpointMonitor` that the constructor and the destructor
use: two `HANDLE` values, `0` standing for `NULL`. -/
structure EndpointMonitor where
  m_stopEvent : Nat
  m_eventMonitorThread : Nat
deriving DecidableEq, Repr

/-- The value returned by `WaitForSingleObject`. -/
inductive WaitResult where
  | WAIT_OBJECT_0
  | WAIT_ABANDONED
  | WAIT_TIMEOUT
  | WAIT_FAILED
deriving DecidableEq, Repr

/-- A system call or log line issued by the destructor of `EndpointMonitor`. -/
inductive TeardownAction where
  | SetEvent (h : Nat)
  | LogError
  | WaitForSingleObject (h : Nat)
  | CloseHandle (h : Nat)
deriving DecidableEq, Repr

/-- The constructor of `EndpointMonitor`, given what `CreateEvent` and
`CreateThread` return: it throws `std::system_error` (`none`) when either
returns `NULL`. `CreateThread` is called only after `CreateEvent` succeeded. -/
def EndpointMonitor.ctor (createEvent createThread : Nat) : Option EndpointMonitor :=
  if createEvent = 0 then none
  else if createThread = 0 then none
  else some { m_stopEvent := createEvent, m_eventMonitorThread := createThread }

/-- The destructor of `EndpointMonitor`: the calls it makes, in order, given
the outcome of `SetEvent` and the result of the wait. The value `hr`
computed when the wait does not return `WAIT_OBJECT_0` is not used. Each
`CloseHandle` stands under `if (!handle)`. -/
def EndpointMonitor.dtor (m : EndpointMonitor) (setEventOk : Bool) (waitResult : WaitResult) :
    List TeardownAction :=
  [TeardownAction.SetEvent m.m_stopEvent]
  ++ (if !setEventOk then [TeardownAction.LogError]
      else
        TeardownAction.WaitForSingleObject m.m_eventMonitorThread ::
          (match waitResult with
           | .WAIT_OBJECT_0 => []
           | _ => []))
  ++ (if m.m_eventMonitorThread = 0 then [TeardownAction.CloseHandle m.m_eventMonitorThread]
      else [])
  ++ (if m.m_stopEvent = 0 then [TeardownAction.CloseHandle m.m_stopEvent] else [])

/-- The handles passed to `CloseHandle` in a sequence of calls. -/
def closedHandles : List TeardownAction → List Nat
  | [] => []
  | TeardownAction.CloseHandle h :: rest => h :: closedHandles rest
  | _ :: rest => closedHandles rest

/-! ## Queue: Peek as a call -/

/-- The call `Peek()` in state-passing form: the record returned and the
members after the call. The body of the method assigns to no member. -/
def EventQueueManager.PeekCall (s : EventQueueManager) : WString × EventQueueManager :=
  if s.queue_.isEmpty then ([], s)
  else (s.queue_.headD [], s)

/-! ## Templates: the suffix after the last bar -/

/-- The test of `IsCustomJsonFormat` on the text after the last `|`: with
its spaces removed it is not empty and equals `JSON` ignoring case. -/
def isJsonMarker (S : WString) : Bool :=
  !(S.filter (· != ' ')).isEmpty &&
    Utility.CompareWStrings (S.filter (· != ' ')) ['J', 'S', 'O', 'N']

/-- A sender whose queue holds one record, the empty string. -/
def senderEmptyRecord : Sender :=
  { senderIdle with m_eventQueueManager := ⟨[[]], 3⟩ }

/-! ## Queue: supporting lemmas -/

theorem trimLoop_eq_drop (m : Nat) (q : List WString) :
    trimLoop m q = q.drop (q.length - m) := by
  induction q with
  | nil => simp [trimLoop]
  | cons x rest ih =>
    unfold trimLoop
    by_cases h : (x :: rest).length > m
    · rw [if_pos h, ih]
      have h1 : (x :: rest).length - m = (rest.length - m) + 1 := by
        simp only [List.length_cons] at h ⊢
        omega
      rw [h1, List.drop_succ_cons]
    · rw [if_neg h]
      have h1 : (x :: rest).length - m = 0 := by omega
      rw [h1, List.drop_zero]

theorem trimLoop_length_le (m : Nat) (q : List WString) :
    (trimLoop m q).length ≤ m := by
  rw [trimLoop_eq_drop, List.length_drop]
  omega

/-- On a queue of positive capacity that respects its capacity, `Push` is
defined and keeps the last `maxSize_` records of the extended sequence. -/
theorem Push_eq_drop (s : EventQueueManager) (item : WString)
    (hpos : 0 < s.maxSize_) (hle : s.queue_.length ≤ s.maxSize_) :
    s.Push item = some { s with
      queue_ := (s.queue_ ++ [item]).drop ((s.queue_ ++ [item]).length - s.maxSize_) } := by
  unfold EventQueueManager.Push
  by_cases h : s.queue_.length ≥ s.maxSize_
  · rw [if_pos h]
    cases hq : s.queue_ with
    | nil => rw [hq] at h; simp at h; omega
    | cons x rest =>
      have h1 : (x :: rest ++ [item]).length - s.maxSize_ = 1 := by
        rw [hq] at h hle
        simp only [List.length_cons, List.length_append, List.length_nil] at h hle ⊢
        omega
      simp only [queue_pop]
      rw [h1]
      rfl
  · rw [if_neg h]
    have h1 : (s.queue_ ++ [item]).length - s.maxSize_ = 0 := by
      simp only [List.length_append, List.length_cons, List.length_nil]
      omega
    rw [h1, List.drop_zero]

theorem drop_length_sub_le (c : Nat) (l : List WString) :
    (l.drop (l.length - c)).length ≤ c := by
  rw [List.length_drop]
  omega

theorem drop_sub_append (c : Nat) (l rs : List WString) :
    (l.drop (l.length - c) ++ rs).drop ((l.drop (l.length - c) ++ rs).length - c)
      = (l ++ rs).drop ((l ++ rs).length - c) := by
  by_cases h : l.length ≤ c
  · have h0 : l.length - c = 0 := by omega
    rw [h0, List.drop_zero]
  · have hlen : (l.drop (l.length - c)).length = c := by
      rw [List.length_drop]
      omega
    have e1 : (l.drop (l.length - c) ++ rs).length - c = rs.length := by
      rw [List.length_append, hlen]
      omega
    have e2 : (l ++ rs).length - c = (l.length - c) + rs.length := by
      rw [List.length_append]
      omega
    have e3 : (l ++ rs).drop (l.length - c) = l.drop (l.length - c) ++ rs :=
      List.drop_append_of_le_length (by omega)
    rw [e1, e2, ← List.drop_drop, e3]

/-- Pushing a list of records into a queue of positive capacity is defined
and leaves the last `maxSize_` records of everything the queue has seen. -/
theorem pushAll_eq_drop (rs : List WString) :
    ∀ s : EventQueueManager, 0 < s.maxSize_ → s.queue_.length ≤ s.maxSize_ →
      pushAll s rs = some { s with
        queue_ := (s.queue_ ++ rs).drop ((s.queue_ ++ rs).length - s.maxSize_) } := by
  induction rs with
  | nil =>
    intro s _ hle
    have h0 : (s.queue_ ++ []).length - s.maxSize_ = 0 := by
      simp only [List.append_nil]
      omega
    rw [h0]
    simp [pushAll]
  | cons r rs ih =>
    intro s hpos hle
    unfold pushAll
    rw [Push_eq_drop s r hpos hle]
    simp only [Option.some_bind]
    have hstep := ih ⟨(s.queue_ ++ [r]).drop ((s.queue_ ++ [r]).length - s.maxSize_), s.maxSize_⟩
      hpos (drop_length_sub_le _ _)
    rw [hstep]
    simp only [drop_sub_append, List.append_assoc, List.singleton_append]

theorem peekPop_all (c : Nat) (rs : List WString) :
    peekPop rs.length ⟨rs, c⟩ = (rs, ⟨[], c⟩) := by
  induction rs with
  | nil => rfl
  | cons r rs ih =>
    simp only [List.length_cons, peekPop, EventQueueManager.Peek, EventQueueManager.Pop, ih]

theorem QueueCall.run_bounded (s : EventQueueManager) (c : QueueCall)
    (hs : s.Bounded) (hc : c.KeepsRoom) :
    ∃ s1, c.run s = some s1 ∧ s1.Bounded := by
  obtain ⟨hle, hpos⟩ := hs
  cases c with
  | Push item =>
    refine ⟨_, Push_eq_drop s item hpos hle, ?_, hpos⟩
    exact drop_length_sub_le _ _
  | Pop =>
    refine ⟨_, rfl, ?_, ?_⟩
    · unfold EventQueueManager.Pop
      cases hq : s.queue_ with
      | nil => simp [hq]
      | cons x rest =>
        rw [hq] at hle
        simp only [List.length_cons] at hle ⊢
        omega
    · unfold EventQueueManager.Pop
      cases hq : s.queue_ <;> exact hpos
  | SetMaxSize n =>
    refine ⟨_, rfl, ?_, ?_⟩
    · exact trimLoop_length_le _ _
    · simp only [QueueCall.KeepsRoom] at hc
      simp only [EventQueueManager.SetMaxSize, limitSize_]
      split <;> omega

/-- From a bounded queue of positive capacity, every
sequence of calls none of which sets the capacity to zero is defined and ends
in a bounded queue. -/
theorem runCalls_bounded (cs : List QueueCall) :
    ∀ s : EventQueueManager, s.Bounded → (∀ c ∈ cs, c.KeepsRoom) →
      ∃ s1, runCalls s cs = some s1 ∧ s1.Bounded := by
  induction cs with
  | nil => intro s hs _; exact ⟨s, rfl, hs⟩
  | cons c cs ih =>
    intro s hs hcs
    obtain ⟨s1, h1, hb1⟩ := QueueCall.run_bounded s c hs (hcs c (List.mem_cons_self _ _))
    obtain ⟨s2, h2, hb2⟩ := ih s1 hb1 (fun d hd => hcs d (List.mem_cons_of_mem _ hd))
    exact ⟨s2, by simp [runCalls, h1, h2], hb2⟩

/-- Every call that is defined keeps the queue within its capacity and the
capacity within the hard limit, whatever the capacity (zero included). -/
theorem QueueCall.run_within_limit (s s1 : EventQueueManager) (c : QueueCall)
    (hs : s.queue_.length ≤ s.maxSize_ ∧ s.maxSize_ ≤ limitSize_) (h : c.run s = some s1) :
    s1.queue_.length ≤ s1.maxSize_ ∧ s1.maxSize_ ≤ limitSize_ := by
  obtain ⟨hle, hlim⟩ := hs
  cases c with
  | Push item =>
    simp only [QueueCall.run, EventQueueManager.Push] at h
    by_cases hfull : s.queue_.length ≥ s.maxSize_
    · rw [if_pos hfull] at h
      cases hq : s.queue_ with
      | nil => rw [hq] at h; simp [queue_pop] at h
      | cons x rest =>
        rw [hq] at h hle
        simp only [queue_pop, Option.some.injEq] at h
        subst h
        simp only [List.length_cons, List.length_append, List.length_nil] at hle ⊢
        exact ⟨by omega, hlim⟩
    · rw [if_neg hfull] at h
      simp only [Option.some.injEq] at h
      subst h
      simp only [List.length_append, List.length_cons, List.length_nil]
      exact ⟨by omega, hlim⟩
  | Pop =>
    simp only [QueueCall.run, Option.some.injEq] at h
    subst h
    unfold EventQueueManager.Pop
    cases hq : s.queue_ with
    | nil => simp only [hq]; exact ⟨by simp, hlim⟩
    | cons x rest =>
      rw [hq] at hle
      simp only [List.length_cons] at hle ⊢
      exact ⟨by omega, hlim⟩
  | SetMaxSize n =>
    simp only [QueueCall.run, Option.some.injEq] at h
    subst h
    refine ⟨trimLoop_length_le _ _, ?_⟩
    simp only [EventQueueManager.SetMaxSize]
    split
    · exact Nat.le_refl _
    · omega

/-- Every state that a sequence of calls reaches from a newly constructed
queue holds at most `maxSize_` records, and `maxSize_` is at most the hard
limit 50000. -/
theorem runCalls_within_limit (cs : List QueueCall) :
    ∀ s s1 : EventQueueManager, s.queue_.length ≤ s.maxSize_ ∧ s.maxSize_ ≤ limitSize_ →
      runCalls s cs = some s1 →
      s1.queue_.length ≤ s1.maxSize_ ∧ s1.maxSize_ ≤ limitSize_ := by
  induction cs with
  | nil =>
    intro s s1 hs h
    simp only [runCalls, Option.some.injEq] at h
    subst h
    exact hs
  | cons c cs ih =>
    intro s s1 hs h
    simp only [runCalls] at h
    cases hc : c.run s with
    | none => rw [hc] at h; simp at h
    | some s2 =>
      rw [hc] at h
      simp only [Option.some_bind] at h
      exact ih s2 s1 (QueueCall.run_within_limit s s2 c hs hc) h

theorem ctor_within_limit :
    EventQueueManager.ctor.queue_.length ≤ EventQueueManager.ctor.maxSize_
      ∧ EventQueueManager.ctor.maxSize_ ≤ limitSize_ := by
  decide

/-! ## Sender: supporting lemmas -/

theorem AppendJsonToArray_fst (a r : WString) (ha : a ≠ []) :
    (AppendJsonToArray a r).1 = true := by
  unfold AppendJsonToArray
  have hlen : a.length ≠ 0 := fun h => ha (List.length_eq_zero.mp h)
  split_ifs with h1
  · rfl
  · rfl

theorem AppendJsonToArray_snd_ne_nil (a r : WString) (ha : a ≠ []) :
    (AppendJsonToArray a r).2 ≠ [] := by
  unfold AppendJsonToArray
  have hlen : a.length ≠ 0 := fun h => ha (List.length_eq_zero.mp h)
  split_ifs with h1
  · simp
  · simp

theorem appendAll_ne_nil (rs : List WString) :
    ∀ a : WString, a ≠ [] → appendAll a rs ≠ [] := by
  induction rs with
  | nil => intro a ha; exact ha
  | cons r rs ih => intro a ha; exact ih _ (AppendJsonToArray_snd_ne_nil a r ha)

/-- The drain loop never empties the batch text. -/
theorem Sender.drainLoop_jsonArray_ne_nil (fuel : Nat) :
    ∀ (s s1 : Sender) (current_count pop_count : Nat), s.jsonArray_ ≠ [] →
      Sender.drainLoop fuel s current_count pop_count = some s1 → s1.jsonArray_ ≠ [] := by
  induction fuel with
  | zero => intro s s1 _ _ _ h; simp [Sender.drainLoop] at h
  | succ fuel ih =>
    intro s s1 cur pop hj h
    rw [Sender.drainLoop] at h
    split at h
    · simp only [AppendJsonToArray_fst _ _ hj, if_true] at h
      exact ih _ s1 _ _ (AppendJsonToArray_snd_ne_nil _ _ hj) h
    · simp only [Option.some.injEq] at h
      subst h
      exact hj

/-- An iteration of `Run` that starts with a non-empty batch text ends with
a non-empty batch text: the member `jsonArray_`, initialised to `[]`, is
never the empty string. -/
theorem Sender.RunIteration_jsonArray_ne_nil (fuel : Nat) (fileOk : Bool) (s s1 : Sender)
    (calls : List SinkCall) (hj : s.jsonArray_ ≠ [])
    (h : s.RunIteration fuel fileOk = some (s1, calls)) : s1.jsonArray_ ≠ [] := by
  unfold Sender.RunIteration at h
  simp only at h
  split at h
  · simp at h
  · rename_i s2 hs2
    have h2 := Sender.drainLoop_jsonArray_ne_nil fuel s s2 _ _ hj hs2
    split at h
    · simp only [Option.some.injEq, Prod.mk.injEq] at h
      rw [← h.1]
      simp
    · simp only [Option.some.injEq, Prod.mk.injEq] at h
      rw [← h.1]
      exact h2

/-- The drain loop, started with a non-empty batch text and `k` records
still to take, all of them present in the queue, ends after `k` rounds: the
first `k` records have left the queue and have been appended to the batch. -/
theorem Sender.drainLoop_eq (k : Nat) :
    ∀ (fuel : Nat) (s : Sender) (current_count pop_count : Nat),
      s.jsonArray_ ≠ [] → k ≤ s.m_eventQueueManager.queue_.length →
      current_count + k = pop_count → k < fuel →
      Sender.drainLoop fuel s current_count pop_count = some { s with
        jsonArray_ := appendAll s.jsonArray_ (s.m_eventQueueManager.queue_.take k),
        m_eventQueueManager := { s.m_eventQueueManager with
          queue_ := s.m_eventQueueManager.queue_.drop k } } := by
  induction k with
  | zero =>
    intro fuel s cur pop _ _ hcp hf
    obtain ⟨f, rfl⟩ : ∃ f, fuel = f + 1 := ⟨fuel - 1, by omega⟩
    have hlt : ¬ cur < pop := by omega
    simp [Sender.drainLoop, hlt, appendAll]
  | succ k ih =>
    intro fuel s cur pop hj hk hcp hf
    obtain ⟨f, rfl⟩ : ∃ f, fuel = f + 1 := ⟨fuel - 1, by omega⟩
    have hlt : cur < pop := by omega
    rcases hqm : s.m_eventQueueManager with ⟨q, cap⟩
    cases q with
    | nil => rw [hqm] at hk; simp at hk
    | cons x rest =>
      rw [hqm] at hk
      simp only [List.length_cons] at hk
      have hstep := ih f
        { s with jsonArray_ := (AppendJsonToArray s.jsonArray_ x).2,
                 m_eventQueueManager := ⟨rest, cap⟩ }
        (cur + 1) pop (AppendJsonToArray_snd_ne_nil _ _ hj) (by simpa using hk)
        (by omega) (by omega)
      simp only [Sender.drainLoop, hlt, hqm, EventQueueManager.IsEmpty, EventQueueManager.Peek,
        EventQueueManager.Pop, AppendJsonToArray_fst _ x hj, List.isEmpty_cons]
      simp only [hstep, List.take_succ_cons, List.drop_succ_cons, appendAll]
      simp

/-- One iteration of `Run` from a state whose batch text is non-empty and
whose queue length fits 32 bits: the result of the drain loop. -/
theorem Sender.drain_of_RunIteration (fuel : Nat) (s : Sender)
    (hq : s.m_eventQueueManager.queue_.length < 2 ^ 32) (hj : s.jsonArray_ ≠ [])
    (hfuel : min s.m_eventQueueManager.queue_.length s.max_event_ < fuel) :
    Sender.drainLoop fuel s 0
        (if s.m_eventQueueManager.Size > s.max_event_ then s.max_event_
          else s.m_eventQueueManager.Size)
      = some { s with
        jsonArray_ := appendAll s.jsonArray_
          (s.m_eventQueueManager.queue_.take (min s.m_eventQueueManager.queue_.length s.max_event_)),
        m_eventQueueManager := { s.m_eventQueueManager with
          queue_ := s.m_eventQueueManager.queue_.drop
            (min s.m_eventQueueManager.queue_.length s.max_event_) } } := by
  have hsize : s.m_eventQueueManager.Size = s.m_eventQueueManager.queue_.length := by
    unfold EventQueueManager.Size
    exact Nat.mod_eq_of_lt hq
  have hpop : (if s.m_eventQueueManager.Size > s.max_event_ then s.max_event_
      else s.m_eventQueueManager.Size)
      = min s.m_eventQueueManager.queue_.length s.max_event_ := by
    rw [hsize]
    split <;> omega
  rw [hpop]
  exact Sender.drainLoop_eq _ fuel s 0 _ hj (Nat.min_le_left _ _) (by omega) hfuel

theorem commaJoin_append_singleton (old : List WString) (r : WString) (hne : old ≠ []) :
    commaJoin (old ++ [r]) = commaJoin old ++ ',' :: r := by
  induction old with
  | nil => exact absurd rfl hne
  | cons x rest ih =>
    cases rest with
    | nil => simp [commaJoin]
    | cons y rest2 =>
      have h := ih (by simp)
      simp only [List.cons_append] at h ⊢
      simp only [commaJoin, h, List.append_assoc, List.cons_append]

theorem commaJoin_ne_nil (old : List WString) (hne : old ≠ [])
    (hall : ∀ x ∈ old, x ≠ []) : commaJoin old ≠ [] := by
  cases old with
  | nil => exact absurd rfl hne
  | cons x rest =>
    have hx : x ≠ [] := hall x (List.mem_cons_self _ _)
    cases rest with
    | nil => simpa [commaJoin] using hx
    | cons y rest2 => simp [commaJoin, hx]

/-- Appending a non-empty record to the batch text of non-empty records
gives the batch text of the extended list. -/
theorem AppendJsonToArray_batchOf (old : List WString) (r : WString)
    (hall : ∀ x ∈ old, x ≠ []) :
    AppendJsonToArray (batchOf old) r = (true, batchOf (old ++ [r])) := by
  cases hold : old with
  | nil => simp [AppendJsonToArray, batchOf, commaJoin]
  | cons x rest =>
    have hne : old ≠ [] := by rw [hold]; simp
    rw [← hold]
    have hbody : commaJoin old ≠ [] := commaJoin_ne_nil old hne hall
    have h1 : batchOf old ≠ ['[', ']'] := by
      unfold batchOf
      intro h
      cases hc : commaJoin old with
      | nil => exact hbody hc
      | cons c cs =>
        rw [hc] at h
        cases cs <;> simp at h
    have h2 : (batchOf old).length ≠ 0 := by simp [batchOf]
    have h3 : (batchOf old).length - 1 = ('[' :: commaJoin old).length := by simp [batchOf]
    unfold AppendJsonToArray
    rw [if_neg h1, if_neg h2, h3]
    have h4 : batchOf old = ('[' :: commaJoin old) ++ [']'] := rfl
    rw [h4, List.take_left, List.drop_left]
    simp [batchOf, commaJoin_append_singleton old r hne]

theorem appendAll_batchOf (rs : List WString) :
    ∀ old : List WString, (∀ x ∈ old, x ≠ []) → (∀ x ∈ rs, x ≠ []) →
      appendAll (batchOf old) rs = batchOf (old ++ rs) := by
  induction rs with
  | nil => intro old _ _; simp [appendAll]
  | cons r rs ih =>
    intro old hold hrs
    have hr : r ≠ [] := hrs r (List.mem_cons_self _ _)
    have hold2 : ∀ x ∈ old ++ [r], x ≠ [] := by
      intro x hx
      rcases List.mem_append.mp hx with h | h
      · exact hold x h
      · rw [List.mem_singleton.mp h]; exact hr
    unfold appendAll
    rw [AppendJsonToArray_batchOf old r hold]
    have h := ih (old ++ [r]) hold2 (fun x hx => hrs x (List.mem_cons_of_mem _ hx))
    simpa using h

/-! ## JSON reader: supporting lemmas -/

theorem skipWs_append_of_cons (r t : WString) (d : Char) (u : WString)
    (h : skipWs r = d :: u) : skipWs (r ++ t) = d :: (u ++ t) := by
  induction r with
  | nil => simp [skipWs] at h
  | cons c r ih =>
    simp only [skipWs, List.cons_append] at h ⊢
    by_cases hc : isWs c = true
    · rw [if_pos hc] at h ⊢
      exact ih h
    · rw [if_neg hc] at h ⊢
      simp only [List.cons.injEq] at h
      obtain ⟨rfl, rfl⟩ := h
      rfl

theorem skipWs_append_of_nil (r t : WString) (h : skipWs r = [])
    (ht : ∀ c, t.head? = some c → isWs c = false) : skipWs (r ++ t) = t := by
  induction r with
  | nil =>
    cases t with
    | nil => rfl
    | cons c t => simp [skipWs, ht c rfl]
  | cons c r ih =>
    simp only [skipWs, List.cons_append] at h ⊢
    by_cases hc : isWs c = true
    · rw [if_pos hc] at h ⊢
      exact ih h
    · rw [if_neg hc] at h
      exact absurd h (by simp)

theorem takeWhile_append_stop (s t : WString) (ht : Stop t) :
    (s ++ t).takeWhile isNumChar = s.takeWhile isNumChar := by
  induction s with
  | nil =>
    cases t with
    | nil => rfl
    | cons c t => simp [List.takeWhile, ht c rfl]
  | cons c s ih =>
    simp only [List.cons_append, List.takeWhile_cons, ih]

theorem dropWhile_append_stop (s t : WString) (ht : Stop t) :
    (s ++ t).dropWhile isNumChar = s.dropWhile isNumChar ++ t := by
  induction s with
  | nil =>
    cases t with
    | nil => rfl
    | cons c t => simp [List.dropWhile, ht c rfl]
  | cons c s ih =>
    simp only [List.cons_append, List.dropWhile_cons, ih]
    split <;> rfl

theorem take_append_of_take_eq (n : Nat) (s t w : WString) (h : s.take n = w)
    (hw : w.length = n) : (s ++ t).take n = w ∧ (s ++ t).drop n = s.drop n ++ t := by
  have hlen : n ≤ s.length := by
    have := congrArg List.length h
    rw [List.length_take, hw] at this
    omega
  exact ⟨by rw [List.take_append_of_le_length hlen, h], List.drop_append_of_le_length hlen⟩

theorem scanString_append (t : WString) :
    ∀ (n : Nat) (s b r : WString), s.length ≤ n → scanString s = some (b, r) →
      scanString (s ++ t) = some (b, r ++ t) := by
  intro n
  induction n with
  | zero =>
    intro s b r hn h
    have : s = [] := List.length_eq_zero.mp (by omega)
    subst this
    simp [scanString] at h
  | succ n ih =>
    intro s b r hn h
    cases s with
    | nil => simp [scanString] at h
    | cons c s1 =>
      simp only [List.length_cons] at hn
      rw [List.cons_append, scanString.eq_def]
      rw [scanString.eq_def] at h
      simp only at h ⊢
      by_cases h1 : c = '"'
      · rw [if_pos h1] at h ⊢
        simp only [Option.some.injEq, Prod.mk.injEq] at h
        rw [← h.1, ← h.2]
      · rw [if_neg h1] at h ⊢
        by_cases h2 : c = '\\'
        · rw [if_pos h2] at h ⊢
          cases s1 with
          | nil => simp at h
          | cons e s2 =>
            simp only [List.length_cons] at hn
            simp only [List.cons_append] at h ⊢
            by_cases h3 : isSimpleEscape e = true
            · rw [if_pos h3] at h ⊢
              cases hrec : scanString s2 with
              | none => rw [hrec] at h; simp at h
              | some x =>
                rw [hrec] at h
                simp only [Option.map_some', Option.some.injEq, Prod.mk.injEq] at h
                rw [ih s2 x.1 x.2 (by omega) hrec]
                simp only [Option.map_some', Option.some.injEq, Prod.mk.injEq]
                exact ⟨h.1, by rw [h.2]⟩
            · rw [if_neg h3] at h ⊢
              by_cases h4 : e = 'u'
              · rw [if_pos h4] at h ⊢
                rcases s2 with _ | ⟨a1, _ | ⟨a2, _ | ⟨a3, _ | ⟨a4, s3⟩⟩⟩⟩
                · simp at h
                · simp at h
                · simp at h
                · simp at h
                · simp only [List.length_cons] at hn
                  simp only [List.cons_append] at h ⊢
                  split at h
                  · rename_i hh
                    rw [if_pos hh]
                    cases hrec : scanString s3 with
                    | none => rw [hrec] at h; simp at h
                    | some x =>
                      rw [hrec] at h
                      simp only [Option.map_some', Option.some.injEq, Prod.mk.injEq] at h
                      rw [ih s3 x.1 x.2 (by omega) hrec]
                      simp only [Option.map_some', Option.some.injEq, Prod.mk.injEq]
                      exact ⟨h.1, by rw [h.2]⟩
                  · simp at h
              · rw [if_neg h4] at h
                simp at h
        · rw [if_neg h2] at h ⊢
          by_cases h5 : c.toNat < 0x20
          · rw [if_pos h5] at h
            simp at h
          · rw [if_neg h5] at h ⊢
            cases hrec : scanString s1 with
            | none => rw [hrec] at h; simp at h
            | some x =>
              rw [hrec] at h
              simp only [Option.map_some', Option.some.injEq, Prod.mk.injEq] at h
              rw [ih s1 x.1 x.2 (by omega) hrec]
              simp only [Option.map_some', Option.some.injEq, Prod.mk.injEq]
              exact ⟨h.1, by rw [h.2]⟩

theorem Stop_nil : Stop [] := by
  intro c h
  simp at h

theorem parseElements_append (pv pv2 : WString → Option (Json × WString)) (t : WString)
    (hnil : pv [] = none)
    (hpv : ∀ s v r, pv s = some (v, r) → pv2 (s ++ t) = some (v, r ++ t)) :
    ∀ (k k2 : Nat) (s : WString) (vs : List Json) (r : WString), k ≤ k2 →
      parseElements pv k s = some (vs, r) →
      parseElements pv2 k2 (s ++ t) = some (vs, r ++ t) := by
  intro k
  induction k with
  | zero => intro k2 s vs r _ h; simp [parseElements] at h
  | succ k ih =>
    intro k2 s vs r hk h
    obtain ⟨j, rfl⟩ : ∃ j, k2 = j + 1 := ⟨k2 - 1, by omega⟩
    rw [parseElements] at h ⊢
    cases hv : pv s with
    | none => rw [hv] at h; simp at h
    | some x =>
      obtain ⟨v, r1⟩ := x
      rw [hv] at h
      rw [hpv s v r1 hv]
      simp only at h ⊢
      cases hs : skipWs r1 with
      | nil => rw [hs] at h; simp at h
      | cons d u =>
        rw [hs] at h
        rw [skipWs_append_of_cons r1 t d u hs]
        simp only at h ⊢
        by_cases hd : d = ','
        · rw [if_pos hd] at h ⊢
          cases hrec : parseElements pv k (skipWs u) with
          | none => rw [hrec] at h; simp at h
          | some y =>
            rw [hrec] at h
            simp only [Option.map_some', Option.some.injEq, Prod.mk.injEq] at h
            cases hu : skipWs u with
            | nil =>
              rw [hu] at hrec
              cases k with
              | zero => simp [parseElements] at hrec
              | succ k0 =>
                rw [parseElements, hnil] at hrec
                simp at hrec
            | cons e w =>
              rw [skipWs_append_of_cons u t e w hu, ← List.cons_append, ← hu]
              rw [ih j (skipWs u) y.1 y.2 (by omega) hrec]
              simp only [Option.map_some', Option.some.injEq, Prod.mk.injEq]
              exact ⟨h.1, by rw [h.2]⟩
        · rw [if_neg hd] at h ⊢
          by_cases hd2 : d = ']'
          · rw [if_pos hd2] at h ⊢
            simp only [Option.some.injEq, Prod.mk.injEq] at h
            rw [← h.1, ← h.2]
          · rw [if_neg hd2] at h
            simp at h

theorem parseMembers_append (pv pv2 : WString → Option (Json × WString)) (t : WString)
    (hnil : pv [] = none)
    (hpv : ∀ s v r, pv s = some (v, r) → pv2 (s ++ t) = some (v, r ++ t)) :
    ∀ (k k2 : Nat) (s : WString) (ms : List (WString × Json)) (r : WString), k ≤ k2 →
      parseMembers pv k s = some (ms, r) →
      parseMembers pv2 k2 (s ++ t) = some (ms, r ++ t) := by
  intro k
  induction k with
  | zero => intro k2 s ms r _ h; simp [parseMembers] at h
  | succ k ih =>
    intro k2 s ms r hk h
    obtain ⟨j, rfl⟩ : ∃ j, k2 = j + 1 := ⟨k2 - 1, by omega⟩
    cases s with
    | nil => simp [parseMembers] at h
    | cons q s1 =>
      rw [List.cons_append, parseMembers]
      rw [parseMembers] at h
      by_cases hq : q = '"'
      · rw [if_pos hq] at h ⊢
        cases hk1 : scanString s1 with
        | none => rw [hk1] at h; simp at h
        | some x =>
          obtain ⟨key, r0⟩ := x
          rw [hk1] at h
          rw [scanString_append t s1.length s1 key r0 (Nat.le_refl _) hk1]
          simp only at h ⊢
          cases hs0 : skipWs r0 with
          | nil => rw [hs0] at h; simp at h
          | cons colon u =>
            rw [hs0] at h
            rw [skipWs_append_of_cons r0 t colon u hs0]
            simp only at h ⊢
            by_cases hcol : colon = ':'
            · rw [if_pos hcol] at h ⊢
              cases hu : skipWs u with
              | nil => rw [hu, hnil] at h; simp at h
              | cons e w =>
                rw [skipWs_append_of_cons u t e w hu, ← List.cons_append, ← hu]
                cases hv : pv (skipWs u) with
                | none => rw [hv] at h; simp at h
                | some x =>
                  obtain ⟨v, r1⟩ := x
                  rw [hv] at h
                  rw [hpv _ v r1 hv]
                  simp only at h ⊢
                  cases hs : skipWs r1 with
                  | nil => rw [hs] at h; simp at h
                  | cons d u2 =>
                    rw [hs] at h
                    rw [skipWs_append_of_cons r1 t d u2 hs]
                    simp only at h ⊢
                    by_cases hd : d = ','
                    · rw [if_pos hd] at h ⊢
                      cases hrec : parseMembers pv k (skipWs u2) with
                      | none => rw [hrec] at h; simp at h
                      | some y =>
                        rw [hrec] at h
                        simp only [Option.map_some', Option.some.injEq, Prod.mk.injEq] at h
                        cases hu2 : skipWs u2 with
                        | nil =>
                          rw [hu2] at hrec
                          cases k with
                          | zero => simp [parseMembers] at hrec
                          | succ k0 => simp [parseMembers] at hrec
                        | cons e2 w2 =>
                          rw [skipWs_append_of_cons u2 t e2 w2 hu2, ← List.cons_append, ← hu2]
                          rw [ih j (skipWs u2) y.1 y.2 (by omega) hrec]
                          simp only [Option.map_some', Option.some.injEq, Prod.mk.injEq]
                          exact ⟨h.1, by rw [h.2]⟩
                    · rw [if_neg hd] at h ⊢
                      by_cases hd2 : d = '}'
                      · rw [if_pos hd2] at h ⊢
                        simp only [Option.some.injEq, Prod.mk.injEq] at h
                        rw [← h.1, ← h.2]
                      · rw [if_neg hd2] at h
                        simp at h
            · rw [if_neg hcol] at h
              simp at h
      · rw [if_neg hq] at h
        simp at h

theorem parseValue_nil (f : Nat) : parseValue f [] = none := by
  cases f <;> simp [parseValue]

/-- A value read from a text is read in the same way, with at least as much
fuel, when the text is followed by something that cannot continue a number. -/
theorem parseValue_append (t : WString) (ht : Stop t) :
    ∀ (f f2 : Nat) (s : WString) (v : Json) (r : WString), f ≤ f2 →
      parseValue f s = some (v, r) → parseValue f2 (s ++ t) = some (v, r ++ t) := by
  intro f
  induction f with
  | zero => intro f2 s v r _ h; simp [parseValue] at h
  | succ f ih =>
    intro f2 s v r hf h
    obtain ⟨g, rfl⟩ : ∃ g, f2 = g + 1 := ⟨f2 - 1, by omega⟩
    have hfg : f ≤ g := by omega
    cases s with
    | nil => simp [parseValue] at h
    | cons c s1 =>
      rw [List.cons_append, parseValue]
      rw [parseValue] at h
      by_cases h1 : c = '['
      · rw [if_pos h1] at h ⊢
        cases hs : skipWs s1 with
        | nil => rw [hs] at h; simp at h
        | cons d u =>
          rw [hs] at h
          rw [skipWs_append_of_cons s1 t d u hs]
          simp only at h ⊢
          by_cases hd : d = ']'
          · rw [if_pos hd] at h ⊢
            simp only [Option.some.injEq, Prod.mk.injEq] at h
            rw [← h.1, ← h.2]
          · rw [if_neg hd] at h ⊢
            cases hrec : parseElements (parseValue f) f (d :: u) with
            | none => rw [hrec] at h; simp at h
            | some y =>
              rw [hrec] at h
              simp only [Option.map_some', Option.some.injEq, Prod.mk.injEq] at h
              have := parseElements_append (parseValue f) (parseValue g) t (parseValue_nil f)
                (fun s v r hv => ih g s v r hfg hv) f g (d :: u) y.1 y.2 hfg hrec
              rw [← List.cons_append, this]
              simp only [Option.map_some', Option.some.injEq, Prod.mk.injEq]
              exact ⟨h.1, by rw [h.2]⟩
      · rw [if_neg h1] at h ⊢
        by_cases h2 : c = '{'
        · rw [if_pos h2] at h ⊢
          cases hs : skipWs s1 with
          | nil => rw [hs] at h; simp at h
          | cons d u =>
            rw [hs] at h
            rw [skipWs_append_of_cons s1 t d u hs]
            simp only at h ⊢
            by_cases hd : d = '}'
            · rw [if_pos hd] at h ⊢
              simp only [Option.some.injEq, Prod.mk.injEq] at h
              rw [← h.1, ← h.2]
            · rw [if_neg hd] at h ⊢
              cases hrec : parseMembers (parseValue f) f (d :: u) with
              | none => rw [hrec] at h; simp at h
              | some y =>
                rw [hrec] at h
                simp only [Option.map_some', Option.some.injEq, Prod.mk.injEq] at h
                have := parseMembers_append (parseValue f) (parseValue g) t (parseValue_nil f)
                  (fun s v r hv => ih g s v r hfg hv) f g (d :: u) y.1 y.2 hfg hrec
                rw [← List.cons_append, this]
                simp only [Option.map_some', Option.some.injEq, Prod.mk.injEq]
                exact ⟨h.1, by rw [h.2]⟩
        · rw [if_neg h2] at h ⊢
          by_cases h3 : c = '"'
          · rw [if_pos h3] at h ⊢
            cases hrec : scanString s1 with
            | none => rw [hrec] at h; simp at h
            | some y =>
              rw [hrec] at h
              simp only [Option.map_some', Option.some.injEq, Prod.mk.injEq] at h
              rw [scanString_append t s1.length s1 y.1 y.2 (Nat.le_refl _) hrec]
              simp only [Option.map_some', Option.some.injEq, Prod.mk.injEq]
              exact ⟨h.1, by rw [h.2]⟩
          · rw [if_neg h3] at h ⊢
            by_cases h4 : c = 't'
            · rw [if_pos h4] at h ⊢
              split at h
              · rename_i hw
                obtain ⟨e1, e2⟩ := take_append_of_take_eq 3 s1 t _ hw (by rfl)
                simp only [Option.some.injEq, Prod.mk.injEq] at h
                rw [if_pos e1, e2, ← h.1, ← h.2]
              · simp at h
            · rw [if_neg h4] at h ⊢
              by_cases h5 : c = 'f'
              · rw [if_pos h5] at h ⊢
                split at h
                · rename_i hw
                  obtain ⟨e1, e2⟩ := take_append_of_take_eq 4 s1 t _ hw (by rfl)
                  simp only [Option.some.injEq, Prod.mk.injEq] at h
                  rw [if_pos e1, e2, ← h.1, ← h.2]
                · simp at h
              · rw [if_neg h5] at h ⊢
                by_cases h6 : c = 'n'
                · rw [if_pos h6] at h ⊢
                  split at h
                  · rename_i hw
                    obtain ⟨e1, e2⟩ := take_append_of_take_eq 3 s1 t _ hw (by rfl)
                    simp only [Option.some.injEq, Prod.mk.injEq] at h
                    rw [if_pos e1, e2, ← h.1, ← h.2]
                  · simp at h
                · rw [if_neg h6] at h ⊢
                  rw [← List.cons_append, takeWhile_append_stop _ t ht,
                    dropWhile_append_stop _ t ht]
                  split at h
                  · rename_i hw
                    simp only [Option.some.injEq, Prod.mk.injEq] at h
                    rw [if_pos hw, ← h.1, ← h.2]
                  · simp at h

/-! ## SanitizeJson: lemmas -/

theorem toInt32_of_lt (n : Nat) (h : n < 2 ^ 31) : toInt32 n = (n : Int) := by
  unfold toInt32
  have h1 : n % 2 ^ 32 = n := Nat.mod_eq_of_lt (by omega)
  rw [h1, if_pos h]

theorem countBack_append (done rest : WString) :
    ∀ pos, pos ≤ done.length → countBack (done ++ rest) pos = countBack done pos := by
  intro pos
  induction pos with
  | zero => intro _; rfl
  | succ i ih =>
    intro h
    have hi : i < done.length := by omega
    simp only [countBack, List.getElem?_append_left hi, ih (by omega)]

theorem trail_snoc (done : WString) (c : Char) :
    trail (done ++ [c]) = if c = '\\' then trail done + 1 else 0 := by
  unfold trail
  have h1 : (done ++ [c]).length = done.length + 1 := by simp
  have h2 : (done ++ [c])[done.length]? = some c := by simp
  rw [h1, countBack, h2, countBack_append done [c] done.length (Nat.le_refl _)]
  simp

theorem IsEscaped_eq_false (done rest : WString) (hlen : done.length < 2 ^ 31)
    (heven : trail done % 2 = 0) : IsEscaped (done ++ rest) done.length = false := by
  unfold IsEscaped
  rw [toInt32_of_lt _ hlen, Int.toNat_ofNat, countBack_append done rest _ (Nat.le_refl _)]
  unfold trail at heven
  simp [heven]

theorem Complete_nil : Complete [] := by
  intro tail
  rw [List.nil_append]
  cases scanString tail <;> rfl

theorem Complete_append (a b : WString) (ha : Complete a) (hb : Complete b) :
    Complete (a ++ b) := by
  intro tail
  rw [List.append_assoc, ha, hb]
  cases scanString tail <;> simp

theorem Complete_char (c : Char) (h1 : c ≠ '"') (h2 : c ≠ '\\') (h3 : ¬ c.toNat < 0x20) :
    Complete [c] := by
  intro tail
  rw [List.singleton_append, scanString.eq_def]
  simp only [if_neg h1, if_neg h2, if_neg h3]
  cases scanString tail <;> simp

theorem Complete_escape (e : Char) (he : isSimpleEscape e = true) :
    Complete ['\\', e] := by
  intro tail
  have h1 : ('\\' : Char) ≠ '"' := by decide
  rw [show ['\\', e] ++ tail = '\\' :: e :: tail from rfl, scanString.eq_def]
  simp only [if_neg h1, if_true, if_pos he]
  cases scanString tail <;> simp

theorem loop_at (fuel : Nat) (done : WString) (c : Char) (rest : WString) :
    Utility.SanitizeJson.loop (fuel + 1) (done ++ c :: rest) done.length =
      if c = '"' then
        if !IsEscaped (done ++ c :: rest) done.length then
          Utility.SanitizeJson.loop fuel ((done ++ ['\\', '"']) ++ rest) (done.length + 1 + 1)
        else Utility.SanitizeJson.loop fuel (done ++ c :: rest) (done.length + 1)
      else if c = '\\' then
        if rest.head? ≠ some '\\' then
          Utility.SanitizeJson.loop fuel ((done ++ ['\\', '\\']) ++ rest) (done.length + 1 + 1)
        else Utility.SanitizeJson.loop fuel (done ++ c :: rest) (done.length + 2)
      else if c = '\n' then
        if !IsEscaped (done ++ c :: rest) done.length then
          Utility.SanitizeJson.loop fuel ((done ++ ['\\', 'n']) ++ rest) (done.length + 1 + 1)
        else Utility.SanitizeJson.loop fuel (done ++ c :: rest) (done.length + 1)
      else if c = '\r' then
        if !IsEscaped (done ++ c :: rest) done.length then
          Utility.SanitizeJson.loop fuel ((done ++ ['\\', 'r']) ++ rest) (done.length + 1 + 1)
        else Utility.SanitizeJson.loop fuel (done ++ c :: rest) (done.length + 1)
      else if c = '\t' then
        if !IsEscaped (done ++ c :: rest) done.length then
          Utility.SanitizeJson.loop fuel ((done ++ ['\\', 't']) ++ rest) (done.length + 1 + 1)
        else Utility.SanitizeJson.loop fuel (done ++ c :: rest) (done.length + 1)
      else Utility.SanitizeJson.loop fuel (done ++ c :: rest) (done.length + 1) := by
  have h_lt : done.length < (done ++ c :: rest).length := by simp
  have h_sub : ((done ++ c :: rest).drop done.length).take 1 = [c] := by
    rw [List.drop_left]; rfl
  have h_rep : ∀ tok : WString,
      wreplace (done ++ c :: rest) done.length 1 tok = (done ++ tok) ++ rest := by
    intro tok
    unfold wreplace
    rw [List.take_left]
    have : (done ++ c :: rest).drop (done.length + 1) = rest := by
      rw [show done ++ c :: rest = (done ++ [c]) ++ rest by simp]
      rw [show done.length + 1 = (done ++ [c]).length by simp]
      exact List.drop_left _ _
    rw [this]
  have h_next : (done ++ c :: rest)[done.length + 1]? = rest.head? := by
    rw [show done ++ c :: rest = (done ++ [c]) ++ rest by simp]
    rw [show done.length + 1 = (done ++ [c]).length by simp]
    rw [List.getElem?_append_right (Nat.le_refl _)]
    cases rest <;> simp
  have h_last : (done.length = (done ++ c :: rest).length - 1) ↔ rest = [] := by
    simp only [List.length_append, List.length_cons]
    constructor
    · intro h
      exact List.length_eq_zero.mp (by omega)
    · intro h
      subst h
      simp
  rw [Utility.SanitizeJson.loop]
  simp only [h_lt, if_true, h_sub, h_rep, h_next, List.cons.injEq, and_true]
  by_cases hc : c = '\\'
  · subst hc
    have hq : ('\\' : Char) ≠ '"' := by decide
    simp only [if_neg hq, if_true]
    cases rest with
    | nil => simp
    | cons d rest2 =>
      by_cases hd : d = '\\'
      · simp [hd]
      · simp [hd]
  · simp only [if_neg hc]

theorem trail_escape (done : WString) (x : Char) (h : trail done % 2 = 0) :
    trail (done ++ ['\\', x]) % 2 = 0 := by
  rw [show done ++ ['\\', x] = (done ++ ['\\']) ++ [x] by simp, trail_snoc, trail_snoc]
  simp only [if_true]
  split <;> omega

theorem trail_char (done : WString) (c : Char) (hc : c ≠ '\\') :
    trail (done ++ [c]) % 2 = 0 := by
  rw [trail_snoc, if_neg hc]

/-- The loop of `SanitizeJson`, entered at the end of a processed part made
of complete tokens with an even number of trailing backslashes, ends within
`rest.length + 1` evaluations of its condition, and its result is made of
complete tokens. -/
theorem loop_complete :
    ∀ (n fuel : Nat) (done rest : WString), rest.length ≤ n → n < fuel →
      Complete done → trail done % 2 = 0 → done.length + 2 * rest.length < 2 ^ 31 →
      OnlyCrLfTab rest →
      ∃ out, Utility.SanitizeJson.loop fuel (done ++ rest) done.length = some out
        ∧ Complete out := by
  intro n
  induction n with
  | zero =>
    intro fuel done rest hn hf hdone _ _ _
    have hr : rest = [] := List.length_eq_zero.mp (by omega)
    subst hr
    obtain ⟨g, rfl⟩ : ∃ g, fuel = g + 1 := ⟨fuel - 1, by omega⟩
    refine ⟨done, ?_, hdone⟩
    rw [Utility.SanitizeJson.loop]
    simp
  | succ n ih =>
    intro fuel done rest hn hf hdone heven hbound hctl
    obtain ⟨g, rfl⟩ : ∃ g, fuel = g + 1 := ⟨fuel - 1, by omega⟩
    cases rest with
    | nil =>
      refine ⟨done, ?_, hdone⟩
      rw [Utility.SanitizeJson.loop]
      simp
    | cons c rest1 =>
      simp only [List.length_cons] at hn hbound
      have hctl1 : OnlyCrLfTab rest1 := fun x hx => hctl x (List.mem_cons_of_mem _ hx)
      have hesc : IsEscaped (done ++ c :: rest1) done.length = false :=
        IsEscaped_eq_false done _ (by omega) heven
      -- a two-character escape replaces `c`
      have two : ∀ x : Char, isSimpleEscape x = true →
          ∃ out, Utility.SanitizeJson.loop g ((done ++ ['\\', x]) ++ rest1)
            (done.length + 1 + 1) = some out ∧ Complete out := by
        intro x hx
        have h := ih g (done ++ ['\\', x]) rest1 (by omega) (by omega)
          (Complete_append _ _ hdone (Complete_escape x hx)) (trail_escape done x heven)
          (by simp only [List.length_append, List.length_cons, List.length_nil]; omega) hctl1
        simpa using h
      rw [loop_at]
      simp only [hesc, Bool.not_false, if_true]
      by_cases h1 : c = '"'
      · rw [if_pos h1]
        exact two '"' (by decide)
      · rw [if_neg h1]
        by_cases h2 : c = '\\'
        · rw [if_pos h2]
          by_cases h3 : rest1.head? ≠ some '\\'
          · rw [if_pos h3]
            exact two '\\' (by decide)
          · rw [if_neg h3]
            cases rest1 with
            | nil => simp at h3
            | cons d rest2 =>
              have hd : d = '\\' := by simpa using h3
              subst hd
              subst h2
              simp only [List.length_cons] at hn hbound
              have h := ih g (done ++ ['\\', '\\']) rest2 (by omega) (by omega)
                (Complete_append _ _ hdone (Complete_escape '\\' (by decide)))
                (trail_escape done '\\' heven)
                (by simp only [List.length_append, List.length_cons, List.length_nil]; omega)
                (fun x hx => hctl1 x (List.mem_cons_of_mem _ hx))
              simpa using h
        · rw [if_neg h2]
          by_cases h4 : c = '\n'
          · rw [if_pos h4]
            exact two 'n' (by decide)
          · rw [if_neg h4]
            by_cases h5 : c = '\r'
            · rw [if_pos h5]
              exact two 'r' (by decide)
            · rw [if_neg h5]
              by_cases h6 : c = '\t'
              · rw [if_pos h6]
                exact two 't' (by decide)
              · rw [if_neg h6]
                have hc : ¬ c.toNat < 0x20 := by
                  intro hlt
                  rcases hctl c (List.mem_cons_self _ _) hlt with h | h | h
                  · exact h5 h
                  · exact h4 h
                  · exact h6 h
                have h := ih g (done ++ [c]) rest1 (by omega) (by omega)
                  (Complete_append _ _ hdone (Complete_char c h1 h2 hc)) (trail_char done c h2)
                  (by simp only [List.length_append, List.length_cons, List.length_nil]; omega)
                  hctl1
                simpa using h

theorem parseJson_string (out : WString) (h : scanString (out ++ ['"']) = some (out, []))
    (f : Nat) (hf : 1 ≤ f) : parseJson f ('"' :: (out ++ ['"'])) = some (Json.str out) := by
  obtain ⟨g, rfl⟩ : ∃ g, f = g + 1 := ⟨f - 1, by omega⟩
  have hq : isWs '"' = false := by decide
  simp [parseJson, skipWs, hq, parseValue, h]


/-! ## Batches as JSON arrays: supporting lemmas -/

theorem parseValue_mono (f f2 : Nat) (s : WString) (x : Json × WString) (hf : f ≤ f2)
    (h : parseValue f s = some x) : parseValue f2 s = some x := by
  have := parseValue_append [] Stop_nil f f2 s x.1 x.2 hf h
  simpa using this

theorem parseJson_mono (f f2 : Nat) (s : WString) (v : Json) (hf : f ≤ f2)
    (h : parseJson f s = some v) : parseJson f2 s = some v := by
  unfold parseJson at h ⊢
  cases hv : parseValue f (skipWs s) with
  | none => rw [hv] at h; simp at h
  | some x =>
    rw [hv] at h
    rw [parseValue_mono f f2 _ x hf hv]
    exact h

theorem IsJson_of_parseJson (f : Nat) (s : WString) (v : Json) (h : parseJson f s = some v) :
    IsJson s v :=
  ⟨f, fun f2 hf => parseJson_mono f f2 s v hf h⟩

/-- A text has at most one syntax tree. -/
theorem IsJson_unique (s : WString) (v w : Json) (hv : IsJson s v) (hw : IsJson s w) :
    v = w := by
  obtain ⟨F, hF⟩ := hv
  obtain ⟨G, hG⟩ := hw
  have h1 := hF (max F G) (Nat.le_max_left _ _)
  have h2 := hG (max F G) (Nat.le_max_right _ _)
  rw [h1] at h2
  exact Option.some.inj h2

theorem parseJson_some (f : Nat) (s : WString) (v : Json) (h : parseJson f s = some v) :
    ∃ rr, parseValue f (skipWs s) = some (v, rr) ∧ skipWs rr = [] := by
  unfold parseJson at h
  cases hv : parseValue f (skipWs s) with
  | none => rw [hv] at h; simp at h
  | some x =>
    obtain ⟨v1, rr⟩ := x
    rw [hv] at h
    simp only at h
    split at h
    · rename_i hws
      simp only [Option.some.injEq] at h
      exact ⟨rr, by rw [h], hws⟩
    · simp at h

theorem parseValue_closing (f : Nat) (u : WString) : parseValue f (']' :: u) = none := by
  cases f with
  | zero => rfl
  | succ f =>
    have h1 : (']' : Char) ≠ '[' := by decide
    have h2 : (']' : Char) ≠ '{' := by decide
    have h3 : (']' : Char) ≠ '"' := by decide
    have h4 : (']' : Char) ≠ 't' := by decide
    have h5 : (']' : Char) ≠ 'f' := by decide
    have h6 : (']' : Char) ≠ 'n' := by decide
    have h7 : isNumChar ']' = false := by decide
    have h8 : isJsonNumber [] = false := by decide
    rw [parseValue]
    simp only [if_neg h1, if_neg h2, if_neg h3, if_neg h4, if_neg h5, if_neg h6]
    simp [List.takeWhile, h7, h8]

theorem tailText_head (rs : List WString) :
    ∃ d u, tailText rs = d :: u ∧ (d = ',' ∨ d = ']') := by
  cases rs with
  | nil => exact ⟨']', [], rfl, Or.inr rfl⟩
  | cons r rs => exact ⟨',', r ++ tailText rs, rfl, Or.inl rfl⟩

theorem tailText_Stop (rs : List WString) : Stop (tailText rs) := by
  obtain ⟨d, u, h, hd⟩ := tailText_head rs
  intro c hc
  rw [h] at hc
  simp only [List.head?_cons, Option.some.injEq] at hc
  subst hc
  rcases hd with rfl | rfl <;> decide

theorem tailText_not_ws (rs : List WString) :
    ∀ c, (tailText rs).head? = some c → isWs c = false := by
  obtain ⟨d, u, h, hd⟩ := tailText_head rs
  intro c hc
  rw [h] at hc
  simp only [List.head?_cons, Option.some.injEq] at hc
  subst hc
  rcases hd with rfl | rfl <;> decide

theorem batchOf_cons (r : WString) (rs : List WString) :
    batchOf (r :: rs) = '[' :: (r ++ tailText rs) := by
  have key : ∀ (rs : List WString) (r : WString),
      commaJoin (r :: rs) ++ [']'] = r ++ tailText rs := by
    intro rs
    induction rs with
    | nil => intro r; rfl
    | cons r2 rs ih =>
      intro r
      simp only [commaJoin, tailText, List.append_assoc, List.cons_append]
      rw [ih r2]
  show '[' :: (commaJoin (r :: rs) ++ [']']) = _
  rw [key]

/-- The elements of a batch text: each record is read with its own syntax
tree, up to the closing bracket. -/
theorem parseElements_records (F g : Nat) (hg : F ≤ g) :
    ∀ (rs : List WString) (vs : List Json) (r : WString) (v : Json) (k : Nat),
      rs.length + 1 ≤ k → parseJson F r = some v →
      List.Forall₂ (fun r v => parseJson F r = some v) rs vs →
      parseElements (parseValue g) k (skipWs r ++ tailText rs) = some (v :: vs, []) := by
  intro rs
  induction rs with
  | nil =>
    intro vs r v k hk hr hall
    cases hall
    obtain ⟨j, rfl⟩ : ∃ j, k = j + 1 := ⟨k - 1, by omega⟩
    obtain ⟨rr, hv, hws⟩ := parseJson_some F r v hr
    have h1 := parseValue_append (tailText []) (tailText_Stop []) F g _ v rr hg hv
    have h2 := skipWs_append_of_nil rr (tailText []) hws (tailText_not_ws [])
    rw [parseElements, h1]
    simp only [h2]
    simp [tailText]
  | cons r2 rs ih =>
    intro vs r v k hk hr hall
    cases hall with
    | cons hr2 hrest =>
      rename_i v2 vs2
      simp only [List.length_cons] at hk
      obtain ⟨j, rfl⟩ : ∃ j, k = j + 1 := ⟨k - 1, by omega⟩
      obtain ⟨rr, hv, hws⟩ := parseJson_some F r v hr
      have h1 := parseValue_append (tailText (r2 :: rs)) (tailText_Stop _) F g _ v rr hg hv
      have h2 := skipWs_append_of_nil rr (tailText (r2 :: rs)) hws (tailText_not_ws _)
      obtain ⟨rr2, hv2, _⟩ := parseJson_some F r2 v2 hr2
      have hne2 : ∃ e w, skipWs r2 = e :: w := by
        cases hs : skipWs r2 with
        | nil => rw [hs, parseValue_nil] at hv2; simp at hv2
        | cons e w => exact ⟨e, w, rfl⟩
      obtain ⟨e, w, hew⟩ := hne2
      have h3 : skipWs (r2 ++ tailText rs) = skipWs r2 ++ tailText rs := by
        rw [skipWs_append_of_cons r2 _ e w hew, hew]
        rfl
      have h4 := ih vs2 r2 v2 j (by omega) hr2 hrest
      rw [parseElements, h1]
      simp only [h2]
      simp only [tailText, if_true, h3, h4]
      rfl

theorem parseJson_nil (F : Nat) : parseJson F [] = none := by
  simp [parseJson, skipWs, parseValue_nil]

theorem records_ne_nil (F : Nat) (rs : List WString) (vs : List Json)
    (hall : List.Forall₂ (fun r v => parseJson F r = some v) rs vs) :
    ∀ x ∈ rs, x ≠ [] := by
  induction hall with
  | nil => intro x hx; simp at hx
  | cons h _ ih =>
    intro x hx
    rcases List.mem_cons.mp hx with rfl | hx
    · intro hnil
      rw [hnil, parseJson_nil] at h
      simp at h
    · exact ih x hx

theorem common_fuel (rs : List WString) (vs : List Json) (h : List.Forall₂ IsJson rs vs) :
    ∃ F, List.Forall₂ (fun r v => parseJson F r = some v) rs vs := by
  induction h with
  | nil => exact ⟨0, List.Forall₂.nil⟩
  | cons h1 _ ih =>
    obtain ⟨F1, hF1⟩ := h1
    obtain ⟨F2, hF2⟩ := ih
    refine ⟨max F1 F2, List.Forall₂.cons (hF1 _ (Nat.le_max_left _ _)) ?_⟩
    exact hF2.imp fun _ _ hp => parseJson_mono F2 _ _ _ (Nat.le_max_right _ _) hp

/-- Records that are JSON texts, appended to the empty batch, give a text
that reads as the array of their syntax trees, for every fuel from
`F + rs.length + 1` on, where `F` is enough fuel for each record. -/
theorem parseJson_appendAll (F : Nat) (rs : List WString) (vs : List Json)
    (hall : List.Forall₂ (fun r v => parseJson F r = some v) rs vs) :
    ∀ f, F + rs.length + 1 ≤ f →
      parseJson f (appendAll ['[', ']'] rs) = some (Json.arr vs) := by
  intro f hf
  obtain ⟨g, rfl⟩ : ∃ g, f = g + 1 := ⟨f - 1, by omega⟩
  have hne := records_ne_nil F rs vs hall
  have hb : appendAll ['[', ']'] rs = batchOf rs := by
    have := appendAll_batchOf rs [] (by simp) hne
    simpa [batchOf, commaJoin] using this
  rw [hb]
  have hws : isWs '[' = false := by decide
  cases hall with
  | nil => rfl
  | cons hr hrest =>
    rename_i r v rs1 vs1
    simp only [List.length_cons] at hf
    obtain ⟨rr, hv, _⟩ := parseJson_some F r v hr
    have hcons : ∃ e w, skipWs r = e :: w ∧ e ≠ ']' := by
      cases hs : skipWs r with
      | nil => rw [hs, parseValue_nil] at hv; simp at hv
      | cons e w =>
        refine ⟨e, w, rfl, ?_⟩
        intro he
        rw [hs, he, parseValue_closing] at hv
        simp at hv
    obtain ⟨e, w, hew, he⟩ := hcons
    have h1 := parseElements_records F g (by omega) rs1 vs1 r v g (by omega) hr hrest
    rw [hew] at h1
    have h2 : skipWs (r ++ tailText rs1) = e :: (w ++ tailText rs1) :=
      skipWs_append_of_cons r _ e w hew
    have h3 : skipWs ('[' :: (r ++ tailText rs1)) = '[' :: (r ++ tailText rs1) := by
      rw [skipWs, hws]
      rfl
    rw [batchOf_cons]
    unfold parseJson
    rw [h3, parseValue, if_pos rfl, h2]
    simp only [if_neg he]
    rw [← List.cons_append, h1]
    rfl

/-! ## Claims C1 to C4: the queue -/

/-- The capacity invariant for positive capacities: once `SetMaxSize(n)` has
been called with `n > 0`, after every call of a sequence of `Push`, `Pop` and
`SetMaxSize` calls, none of which sets the capacity to zero, the call is
defined and `Size() <= capacity`. -/
theorem capacity_invariant_positive (s0 : EventQueueManager) (n : Nat) (cs : List QueueCall)
    (hn : 0 < n) (hcs : ∀ c ∈ cs, c.KeepsRoom) (k : Nat) :
    ∃ s1, runCalls (s0.SetMaxSize n) (cs.take k) = some s1 ∧ s1.Size ≤ s1.maxSize_ := by
  have h0 : (s0.SetMaxSize n).Bounded := by
    refine ⟨trimLoop_length_le _ _, ?_⟩
    simp only [EventQueueManager.SetMaxSize, limitSize_]
    split <;> omega
  obtain ⟨s1, h1, hb⟩ := runCalls_bounded (cs.take k) _ h0
    (fun c hc => hcs c (List.mem_of_mem_take hc))
  refine ⟨s1, h1, ?_⟩
  exact Nat.le_trans (Nat.mod_le _ _) hb.1

/-- C1. Capacity invariant: for every capacity `n` given to `SetMaxSize`
(zero included) and every sequence of `Push`, `Pop` and `SetMaxSize` calls
that follows, `Size() <= capacity` holds after each call that returns, the
call of `SetMaxSize(n)` itself being the case `k = 0`; and when `n` is
positive and no later call sets the capacity to zero, every call does
return. -/
theorem capacity_invariant (s0 : EventQueueManager) (n : Nat) (cs : List QueueCall) (k : Nat) :
    (∀ s1, runCalls (s0.SetMaxSize n) (cs.take k) = some s1 → s1.Size ≤ s1.maxSize_)
    ∧ (0 < n → (∀ c ∈ cs, c.KeepsRoom) →
        ∃ s1, runCalls (s0.SetMaxSize n) (cs.take k) = some s1 ∧ s1.Size ≤ s1.maxSize_) := by
  have hlim : (s0.SetMaxSize n).maxSize_ ≤ limitSize_ := by
    simp only [EventQueueManager.SetMaxSize]
    split <;> omega
  have hlen : (s0.SetMaxSize n).queue_.length ≤ (s0.SetMaxSize n).maxSize_ :=
    trimLoop_length_le _ _
  have hall : ∀ s1, runCalls (s0.SetMaxSize n) (cs.take k) = some s1 →
      s1.Size ≤ s1.maxSize_ := by
    intro s1 h
    have hw := runCalls_within_limit (cs.take k) (s0.SetMaxSize n) s1 ⟨hlen, hlim⟩ h
    exact Nat.le_trans (Nat.mod_le _ _) hw.1
  refine ⟨hall, fun hn hcs => ?_⟩
  have hpos : 0 < (s0.SetMaxSize n).maxSize_ := by
    simp only [EventQueueManager.SetMaxSize, limitSize_]
    split <;> omega
  obtain ⟨s1, h1, _⟩ := runCalls_bounded (cs.take k) _ ⟨hlen, hpos⟩
    (fun c hc => hcs c (List.mem_of_mem_take hc))
  exact ⟨s1, h1, hall s1 h1⟩

/-- Witness of C1: after `SetMaxSize(2)` on a new queue, the calls `Push A`,
`Push B`, `Push C`, `SetMaxSize(0)`, `Pop` all return, the last one with an
empty queue of capacity 0. -/
theorem capacity_invariant_witness :
    runCalls (EventQueueManager.ctor.SetMaxSize 2)
        ([QueueCall.Push ['A'], QueueCall.Push ['B'], QueueCall.Push ['C'],
          QueueCall.SetMaxSize 0, QueueCall.Pop].take 5) = some ⟨[], 0⟩
    ∧ (⟨[], 0⟩ : EventQueueManager).Size ≤ (⟨[], 0⟩ : EventQueueManager).maxSize_ :=
  ⟨by decide,
    (capacity_invariant EventQueueManager.ctor 2
      [QueueCall.Push ['A'], QueueCall.Push ['B'], QueueCall.Push ['C'],
        QueueCall.SetMaxSize 0, QueueCall.Pop] 5).1 ⟨[], 0⟩ (by decide)⟩

/-- Drop-oldest overflow for positive capacities: for a capacity `c > 0`,
pushing `c + k` records into an empty queue leaves the last `c` of them, in
push order. -/
theorem drop_oldest_positive (c k : Nat) (rs : List WString) (hc : 0 < c)
    (hlen : rs.length = c + k) :
    pushAll ⟨[], c⟩ rs = some ⟨rs.drop k, c⟩ := by
  have h := pushAll_eq_drop rs ⟨[], c⟩ hc (by simp)
  have hk : rs.length - c = k := by omega
  simpa [hk] using h

/-- C2, evaluated at the failing input. Drop-oldest overflow says that
pushing `c + k` records into an empty queue of capacity `c` leaves the last
`c` records. For `c = 0` and `k = 1` the queue should stay empty, but `Push`
pops the empty queue (undefined behaviour): no state results, and none in
which the queue is empty. -/
theorem drop_oldest_fails_at_capacity_zero :
    ¬ ∃ s1, pushAll ⟨[], 0⟩ [['A']] = some s1 ∧ s1.queue_ = [] := by
  have h : pushAll ⟨[], 0⟩ [['A']] = none := by decide
  rw [h]
  simp

/-- C3. FIFO order: records `r1..rn` pushed into an empty queue whose
capacity is at least `n` are all accepted, and `n` repetitions of `Peek`
followed by `Pop` return `r1, .., rn` in that order and leave the queue
empty. -/
theorem fifo_order (c : Nat) (rs : List WString) (h : rs.length ≤ c) :
    ∃ s1, pushAll ⟨[], c⟩ rs = some s1 ∧ peekPop rs.length s1 = (rs, ⟨[], c⟩) := by
  rcases Nat.eq_zero_or_pos c with hc | hc
  · have hrs : rs = [] := List.length_eq_zero.mp (by omega)
    subst hrs
    exact ⟨⟨[], c⟩, rfl, rfl⟩
  · refine ⟨⟨rs, c⟩, ?_, peekPop_all c rs⟩
    have h1 := pushAll_eq_drop rs ⟨[], c⟩ hc (by simp)
    have h0 : rs.length - c = 0 := by omega
    simpa [h0] using h1

/-- Witness of C3: capacity 3, records A, B. -/
theorem fifo_order_witness :
    [['A'], ['B']].length ≤ 3 ∧
    ∃ s1, pushAll ⟨[], 3⟩ [['A'], ['B']] = some s1
      ∧ peekPop [['A'], ['B']].length s1 = ([['A'], ['B']], ⟨[], 3⟩) :=
  ⟨by decide, fifo_order 3 [['A'], ['B']] (by decide)⟩

/-- C4. Resize eviction: on a queue holding `k` records (`k` or `m` not above
the hard limit), `SetMaxSize(m)` with `m < k` leaves exactly the last `m`
records, the most recently pushed, in their order; with `m >= k` the contents
are unchanged. -/
theorem resize_eviction (s : EventQueueManager) (m : Nat)
    (h : m ≤ limitSize_ ∨ s.queue_.length ≤ limitSize_) :
    (s.SetMaxSize m).queue_ =
        (if m < s.queue_.length then s.queue_.drop (s.queue_.length - m) else s.queue_)
      ∧ (m < s.queue_.length → (s.SetMaxSize m).queue_.length = m) := by
  have key : (s.SetMaxSize m).queue_ =
      (if m < s.queue_.length then s.queue_.drop (s.queue_.length - m) else s.queue_) := by
    simp only [EventQueueManager.SetMaxSize, trimLoop_eq_drop]
    by_cases hm : m > limitSize_
    · have hk : s.queue_.length ≤ limitSize_ := by
        rcases h with h | h
        · omega
        · exact h
      have h0 : s.queue_.length - limitSize_ = 0 := by omega
      have h1 : ¬ m < s.queue_.length := by omega
      rw [if_pos hm, if_neg h1, h0, List.drop_zero]
    · rw [if_neg hm]
      by_cases h1 : m < s.queue_.length
      · rw [if_pos h1]
      · have h0 : s.queue_.length - m = 0 := by omega
        rw [if_neg h1, h0, List.drop_zero]
  refine ⟨key, fun hlt => ?_⟩
  rw [key, if_pos hlt, List.length_drop]
  omega

/-- Witness of C4: the queue A, B, C resized to 2 keeps B, C. -/
theorem resize_eviction_witness :
    (2 ≤ limitSize_ ∨ [['A'], ['B'], ['C']].length ≤ limitSize_) ∧
    (EventQueueManager.SetMaxSize ⟨[['A'], ['B'], ['C']], 3⟩ 2).queue_ = [['B'], ['C']] :=
  ⟨Or.inl (by decide), (resize_eviction ⟨[['A'], ['B'], ['C']], 3⟩ 2 (Or.inl (by decide))).1⟩

/-! ## Claims C5 to C8: the sender -/

/-- C5. Sender drain step: with no concurrent producer, one iteration of the
`Run` loop body terminates and removes exactly the first
`n = min(|q|, max_event_)` records from the queue, leaving the other
`|q| - n` records in their order. -/
theorem sender_drain_step (fuel : Nat) (fileOk : Bool) (s : Sender)
    (hq : s.m_eventQueueManager.queue_.length < 2 ^ 32) (hj : s.jsonArray_ ≠ [])
    (hfuel : min s.m_eventQueueManager.queue_.length s.max_event_ < fuel) :
    ∃ s1 calls, s.RunIteration fuel fileOk = some (s1, calls)
      ∧ s1.m_eventQueueManager.queue_ = s.m_eventQueueManager.queue_.drop
          (min s.m_eventQueueManager.queue_.length s.max_event_)
      ∧ s1.m_eventQueueManager.maxSize_ = s.m_eventQueueManager.maxSize_ := by
  unfold Sender.RunIteration
  simp only [Sender.drain_of_RunIteration fuel s hq hj hfuel]
  split
  · exact ⟨_, _, rfl, rfl, rfl⟩
  · exact ⟨_, _, rfl, rfl, rfl⟩

/-- Witness of C5: at most 2 per cycle, queue A, B, C leaves C. -/
theorem sender_drain_step_witness :
    senderABC.m_eventQueueManager.queue_.length < 2 ^ 32 ∧ senderABC.jsonArray_ ≠ [] ∧
    min senderABC.m_eventQueueManager.queue_.length senderABC.max_event_ < 3 ∧
    ∃ s1 calls, senderABC.RunIteration 3 true = some (s1, calls)
      ∧ s1.m_eventQueueManager.queue_ = [['C']]
      ∧ s1.m_eventQueueManager.maxSize_ = 3 :=
  ⟨by decide, by decide, by decide,
    sender_drain_step 3 true senderABC (by decide) (by decide) (by decide)⟩

/-- C6. Batch content: starting from the empty batch `[]` with the file sink,
when one flush cycle drains the non-empty records `r1..rn` in queue order,
the payload passed to `write2file_` is `[` + `r1,r2,..,rn` + `]`. -/
theorem batch_content (fuel : Nat) (fileOk : Bool) (s : Sender)
    (hq : s.m_eventQueueManager.queue_.length < 2 ^ 32)
    (hj : s.jsonArray_ = ['[', ']']) (hurl : s.url_ = [])
    (hne : ∀ r ∈ s.m_eventQueueManager.queue_.take
      (min s.m_eventQueueManager.queue_.length s.max_event_), r ≠ [])
    (hfuel : min s.m_eventQueueManager.queue_.length s.max_event_ < fuel) :
    ∃ s1 result, s.RunIteration fuel fileOk = some (s1,
      [SinkCall.write2file_ s.path_
        (batchOf (s.m_eventQueueManager.queue_.take
          (min s.m_eventQueueManager.queue_.length s.max_event_))) result]) := by
  have hj2 : s.jsonArray_ ≠ [] := by rw [hj]; simp
  have hb : s.jsonArray_ = batchOf [] := by rw [hj]; rfl
  have happ := appendAll_batchOf _ [] (by simp) hne
  unfold Sender.RunIteration
  simp only [Sender.drain_of_RunIteration fuel s hq hj2 hfuel, hurl, hb, happ]
  simp

/-- Witness of C6: the drained records B, C, D give the payload `[B,C,D]`. -/
theorem batch_content_witness :
    senderBCD.m_eventQueueManager.queue_.length < 2 ^ 32 ∧
    senderBCD.jsonArray_ = ['[', ']'] ∧ senderBCD.url_ = [] ∧
    (∀ r ∈ senderBCD.m_eventQueueManager.queue_.take
      (min senderBCD.m_eventQueueManager.queue_.length senderBCD.max_event_), r ≠ []) ∧
    min senderBCD.m_eventQueueManager.queue_.length senderBCD.max_event_ < 4 ∧
    ∃ s1 result, senderBCD.RunIteration 4 true = some (s1,
      [SinkCall.write2file_ ['C', ':'] ['[', 'B', ',', 'C', ',', 'D', ']'] result]) :=
  ⟨by decide, rfl, rfl, by decide, by decide,
    batch_content 4 true senderBCD (by decide) rfl rfl (by decide) (by decide)⟩

/-- C7, evaluated at the failing input. The claim says that a failed
`write2file_` leaves the batch in memory for the next cycle. With the file
sink, queue A and a failing file write, the iteration passes `[A]` to
`write2file_`, which returns `false`, and still resets the batch to `[]`:
record A is then neither in the queue nor in the batch, and the payload of
the next cycle is `[]`. -/
theorem batch_cleared_after_failed_write :
    Sender.RunIteration 2 false { senderBCD with m_eventQueueManager := ⟨[['A']], 3⟩ }
      = some ({ senderBCD with m_eventQueueManager := ⟨[], 3⟩ },
          [SinkCall.write2file_ ['C', ':'] ['[', 'A', ']'] false])
    ∧ Sender.RunIteration 2 false { senderBCD with m_eventQueueManager := ⟨[], 3⟩ }
      = some ({ senderBCD with m_eventQueueManager := ⟨[], 3⟩ },
          [SinkCall.write2file_ ['C', ':'] ['[', ']'] false]) := by
  decide

/-- C8, counterexample. With a non-empty URL and queue A, one flush cycle
makes no sink call at all (nothing is delivered to the remote endpoint) and
the batch is `[A]` afterwards, not `[]`; a second cycle that drains B ends
with the batch `[A,B]`, in which A appears again. -/
theorem remote_sink_counterexample :
    Sender.RunIteration 2 true senderRemote
      = some ({ senderRemote with
          m_eventQueueManager := ⟨[], 3⟩, jsonArray_ := ['[', 'A', ']'] }, [])
    ∧ Sender.RunIteration 2 true { senderRemote with
          m_eventQueueManager := ⟨[['B']], 3⟩, jsonArray_ := ['[', 'A', ']'] }
      = some ({ senderRemote with
          m_eventQueueManager := ⟨[], 3⟩, jsonArray_ := ['[', 'A', ',', 'B', ']'] }, []) := by
  decide

/-- C8, amended. With a non-empty URL, one flush cycle makes no sink call,
neither to the file sink nor to the remote endpoint, and does not reset the
batch: the drained records are appended to the batch, which is carried into
the next cycle; a batch `[o1,..,ok]` of non-empty records becomes
`[o1,..,ok,r1,..,rn]` for the non-empty drained records `r1..rn`. -/
theorem remote_url_batch_accumulates (fuel : Nat) (fileOk : Bool) (s : Sender)
    (hurl : s.url_ ≠ [])
    (hq : s.m_eventQueueManager.queue_.length < 2 ^ 32) (hj : s.jsonArray_ ≠ [])
    (hfuel : min s.m_eventQueueManager.queue_.length s.max_event_ < fuel) :
    ∃ s1, s.RunIteration fuel fileOk = some (s1, [])
      ∧ s1.m_eventQueueManager.queue_ = s.m_eventQueueManager.queue_.drop
          (min s.m_eventQueueManager.queue_.length s.max_event_)
      ∧ s1.jsonArray_ = appendAll s.jsonArray_ (s.m_eventQueueManager.queue_.take
          (min s.m_eventQueueManager.queue_.length s.max_event_))
      ∧ s1.jsonArray_ ≠ []
      ∧ ∀ old : List WString, s.jsonArray_ = batchOf old → (∀ x ∈ old, x ≠ []) →
          (∀ r ∈ s.m_eventQueueManager.queue_.take
            (min s.m_eventQueueManager.queue_.length s.max_event_), r ≠ []) →
          s1.jsonArray_ = batchOf (old ++ s.m_eventQueueManager.queue_.take
            (min s.m_eventQueueManager.queue_.length s.max_event_)) := by
  have hlen : ¬ s.url_.length ≤ 0 := by
    intro h
    exact hurl (List.length_eq_zero.mp (by omega))
  unfold Sender.RunIteration
  simp only [Sender.drain_of_RunIteration fuel s hq hj hfuel, hlen, if_false]
  refine ⟨_, rfl, rfl, rfl, appendAll_ne_nil _ _ hj, ?_⟩
  intro old hold hall hne
  simp only [hold]
  exact appendAll_batchOf _ old hall hne

/-- Witness of C8 as amended: URL set, queue A, batch `[]`. -/
theorem remote_url_batch_accumulates_witness :
    senderRemote.url_ ≠ [] ∧ senderRemote.m_eventQueueManager.queue_.length < 2 ^ 32 ∧
    senderRemote.jsonArray_ ≠ [] ∧
    min senderRemote.m_eventQueueManager.queue_.length senderRemote.max_event_ < 2 ∧
    ∃ s1, senderRemote.RunIteration 2 true = some (s1, []) ∧ s1.jsonArray_ ≠ [] :=
  ⟨by decide, by decide, by decide, by decide,
    (remote_url_batch_accumulates 2 true senderRemote (by decide) (by decide) (by decide)
      (by decide)).imp fun _ h => ⟨h.1, h.2.2.2.1⟩⟩

/-! ## Claims C9 and C10: JSON validity of batches and sanitised messages -/

/-- C9. Batch round trip: when `N` records, each a JSON text on its own, are
appended in order with `AppendJsonToArray` to the empty batch `[]`, the
resulting text is a JSON text, its syntax tree is an array, and the elements
of the array are the `N` syntax trees of the records, in the same order. -/
theorem batch_round_trip (rs : List WString) (vs : List Json)
    (hvalid : List.Forall₂ IsJson rs vs) :
    IsJson (appendAll ['[', ']'] rs) (Json.arr vs) ∧ vs.length = rs.length := by
  obtain ⟨F, hF⟩ := common_fuel rs vs hvalid
  exact ⟨⟨F + rs.length + 1, parseJson_appendAll F rs vs hF⟩, hvalid.length_eq.symm⟩

/-- Witness of C9: the records `{"a":1}` and ` [true]`. -/
theorem batch_round_trip_witness :
    List.Forall₂ IsJson [recordA, recordB]
      [Json.obj [(['a'], Json.num ['1'])], Json.arr [Json.true]] ∧
    IsJson (appendAll ['[', ']'] [recordA, recordB])
      (Json.arr [Json.obj [(['a'], Json.num ['1'])], Json.arr [Json.true]]) ∧
    [Json.obj [(['a'], Json.num ['1'])], Json.arr [Json.true]].length
      = [recordA, recordB].length :=
  (fun h => ⟨h, batch_round_trip _ _ h⟩)
    (List.Forall₂.cons
      (IsJson_of_parseJson 3 recordA (Json.obj [(['a'], Json.num ['1'])]) rfl)
      (List.Forall₂.cons (IsJson_of_parseJson 3 recordB (Json.arr [Json.true]) rfl)
        List.Forall₂.nil))

/-- C10. Sanitizer validity: for a message whose only control characters are
CR, LF and TAB (double quotes and backslashes may occur anywhere; the length
is below `2^30`, the range in which `IsEscaped` converts positions to `int`
exactly), `SanitizeJson` terminates, and its output placed between two double
quotes is a JSON string literal: scanning from the opening quote accepts
every character and escape of the output and stops at the added closing
quote, so the output has no unescaped double quote, no raw control character
and no backslash that does not start an escape. -/
theorem sanitize_valid (fuel : Nat) (msg : WString) (hctl : OnlyCrLfTab msg)
    (hlen : msg.length < 2 ^ 30) (hfuel : msg.length < fuel) :
    ∃ out, Utility.SanitizeJson fuel msg = some out
      ∧ scanString (out ++ ['"']) = some (out, [])
      ∧ ∀ f, 1 ≤ f → parseJson f ('"' :: (out ++ ['"'])) = some (Json.str out) := by
  have h0 : trail [] % 2 = 0 := by decide
  obtain ⟨out, h1, h2⟩ := loop_complete msg.length fuel [] msg (Nat.le_refl _) hfuel
    Complete_nil h0 (by simp only [List.length_nil]; omega) hctl
  have h3 : scanString (out ++ ['"']) = some (out, []) := by
    rw [h2]
    simp [scanString]
  exact ⟨out, h1, h3, fun f hf => parseJson_string out h3 f hf⟩

/-- Witness of C10: the message `a"\` LF TAB becomes `a\"\\\n\t`. -/
theorem sanitize_valid_witness :
    OnlyCrLfTab messageQ ∧ messageQ.length < 2 ^ 30 ∧ messageQ.length < 6 ∧
    ∃ out, Utility.SanitizeJson 6 messageQ = some out
      ∧ scanString (out ++ ['"']) = some (out, [])
      ∧ ∀ f, 1 ≤ f → parseJson f ('"' :: (out ++ ['"'])) = some (Json.str out) :=
  ⟨by unfold OnlyCrLfTab; decide, by decide, by decide,
    sanitize_valid 6 messageQ (by unfold OnlyCrLfTab; decide) (by decide) (by decide)⟩

/-! ## Claims C18 to C20: empty flush, wait timeout, monitor construction -/

/-- C18, counterexample. With the file sink, an empty queue, the batch `[]`
and a file system on which every call would succeed, one flush cycle calls
`write2file_` with the payload `[]`, the call returns `false`, and no file is
created: the payload has 2 bytes and `write2file_` refuses fewer than 3. -/
theorem empty_flush_counterexample :
    Sender.RunIteration 1 true senderIdle
      = some (senderIdle, [SinkCall.write2file_ ['C', ':'] ['[', ']'] false])
    ∧ write2file_.createsFile true ['[', ']'] = false := by
  decide

/-- C18, amended. In a flush cycle with the local-file sink in which nothing
is drained and the batch is `[]`, `Run` still calls `write2file_` with the
payload `[]`, but the call returns `false` whatever the file system does and
creates no file; the batch is `[]` afterwards. -/
theorem empty_flush_writes_no_file (fuel : Nat) (fileOk : Bool) (s : Sender)
    (hurl : s.url_ = []) (hj : s.jsonArray_ = ['[', ']'])
    (hq : s.m_eventQueueManager.queue_.length < 2 ^ 32)
    (hnone : min s.m_eventQueueManager.queue_.length s.max_event_ = 0) (hfuel : 0 < fuel) :
    s.RunIteration fuel fileOk = some (s, [SinkCall.write2file_ s.path_ ['[', ']'] false])
      ∧ ∀ openOk, write2file_.createsFile openOk ['[', ']'] = false := by
  have hj2 : s.jsonArray_ ≠ [] := by rw [hj]; simp
  have hd := Sender.drain_of_RunIteration fuel s hq hj2 (by omega)
  rw [hnone] at hd
  constructor
  · unfold Sender.RunIteration
    simp only [hd, hurl, List.take_zero, List.drop_zero, appendAll, hj]
    have hw : write2file_ fileOk s.path_ ['[', ']'] = false := by
      unfold write2file_
      rw [if_pos (by decide)]
    obtain ⟨q, j, u, p, iv, m, r⟩ := s
    simp only at hj hurl
    subst hj
    subst hurl
    simp [hw]
  · intro openOk
    unfold write2file_.createsFile
    rw [if_pos (by decide)]

/-- Witness of C18 as amended: the idle sender. -/
theorem empty_flush_writes_no_file_witness :
    senderIdle.url_ = [] ∧ senderIdle.jsonArray_ = ['[', ']'] ∧
    senderIdle.m_eventQueueManager.queue_.length < 2 ^ 32 ∧
    min senderIdle.m_eventQueueManager.queue_.length senderIdle.max_event_ = 0 ∧ 0 < 1 ∧
    (senderIdle.RunIteration 1 true
        = some (senderIdle, [SinkCall.write2file_ senderIdle.path_ ['[', ']'] false])
      ∧ ∀ openOk, write2file_.createsFile openOk ['[', ']'] = false) :=
  ⟨rfl, rfl, by decide, by decide, by decide,
    empty_flush_writes_no_file 1 true senderIdle rfl rfl (by decide) (by decide) (by decide)⟩

/-- The wait timeout is `interval_ * 60000` milliseconds for every interval
of at most 71582 minutes. -/
theorem Sender.waitTimeout_of_le (s : Sender) (h : s.interval_ ≤ 71582) :
    s.waitTimeout = s.interval_ * 60000 := by
  unfold Sender.waitTimeout
  exact Nat.mod_eq_of_lt (by omega)

/-- C19, evaluated at the failing input. The claim says that the timeout of
the wait equals `i * 60000` milliseconds for every 32-bit interval `i`. For
`i = 71583` minutes the product `4294980000` does not fit 32 bits: the
timeout passed to the wait is `12704` milliseconds. -/
theorem wait_timeout_wraps_at_71583 :
    Sender.waitTimeout { senderIdle with interval_ := 71583 } = 12704
    ∧ Sender.waitTimeout { senderIdle with interval_ := 71583 } ≠ 71583 * 60000 := by
  decide

/-- C20, counterexample. When the `EventMonitor` constructor throws and the
`EndpointMonitor` constructor would succeed, `CreateEventMonitor` logs the
failure and returns, the sender keeps running, but `g_endpointMon` stays
empty: the `EndpointMonitor` is not constructed. -/
theorem monitor_isolation_counterexample :
    MainService.CreateEventMonitor .throwsStdException .constructed serviceStarted
      = { g_eventMon := false, g_endpointMon := false, senderRunning := true,
          errorLog := [CatchLog.stdException] } := by
  decide

/-- C20, amended. If the `EventMonitor` constructor throws (a
`std::exception` or anything else), `CreateEventMonitor` logs one error line
and returns normally; the sender started earlier keeps running; the
`EndpointMonitor` constructor, which follows in the same `try` block, is not
reached, so `g_endpointMon` and `g_eventMon` are left as they were, however
the `EndpointMonitor` constructor would have ended. -/
theorem monitor_failure_skips_endpoint (s : MainService) (endpointMon : CtorOutcome) :
    MainService.CreateEventMonitor .throwsStdException endpointMon s
      = { s with errorLog := s.errorLog ++ [CatchLog.stdException] }
    ∧ MainService.CreateEventMonitor .throwsOther endpointMon s
      = { s with errorLog := s.errorLog ++ [CatchLog.unknownError] } :=
  ⟨rfl, rfl⟩

/-! ## Claims C16 and C17: the destination folder -/

theorem findAt_isSome_iff (needle : WString) :
    ∀ s : WString, (findAt needle s).isSome = true ↔ needle <:+: s := by
  intro s
  induction s with
  | nil =>
    simp only [findAt, List.infix_nil]
    by_cases h : needle = [] <;> simp [h]
  | cons c t ih =>
    simp only [findAt, List.infix_cons_iff]
    by_cases h : needle.isPrefixOf (c :: t) = true
    · rw [if_pos h]
      simp [List.isPrefixOf_iff_prefix.mp h]
    · rw [if_neg h]
      have h2 : ¬ needle <+: c :: t := fun hp => h (List.isPrefixOf_iff_prefix.mpr hp)
      simp only [Option.isSome_map', ih, h2, false_or]

theorem wfind_zero_isSome_iff (str needle : WString) :
    (wfind str needle 0).isSome = true ↔ needle <:+: str := by
  unfold wfind
  simp [findAt_isSome_iff]

/-- C17, counterexample. For the existing folder `C:\logs\\`, which ends
with two backslashes, `sanitizeFolderPath` returns `C:\logs\`, which ends
with a backslash. -/
theorem trailing_separator_counterexample :
    Sender.sanitizeFolderPath (fun _ => true) exePathSample
        ['C', ':', '\\', 'l', 'o', 'g', 's', '\\', '\\']
      = ['C', ':', '\\', 'l', 'o', 'g', 's', '\\']
    ∧ endsWithSeparator (Sender.sanitizeFolderPath (fun _ => true) exePathSample
        ['C', ':', '\\', 'l', 'o', 'g', 's', '\\', '\\']) = true := by
  decide

theorem endsWithSeparator_snoc (q : WString) (c : Char) :
    endsWithSeparator (q ++ [c]) = (c == '\\' || c == '/') := by
  unfold endsWithSeparator
  have hl : (q ++ [c]).length - 1 = q.length := by simp
  have hg : (q ++ [c])[q.length]? = some c := by simp
  rw [hl, hg]
  simp

theorem trimTrailingSeparator_snoc (q : WString) (c : Char) :
    trimTrailingSeparator (q ++ [c]) = if c = '\\' ∨ c = '/' then q else q ++ [c] := by
  unfold trimTrailingSeparator
  rw [endsWithSeparator_snoc]
  have hl : (q ++ [c]).length - 1 = q.length := by simp
  by_cases h : c = '\\' ∨ c = '/'
  · rw [if_pos h, if_pos (by simpa using h), hl, List.take_left]
  · rw [if_neg h, if_neg (by simpa using h)]

/-- The path that `sanitizeFolderPath` settles on, in terms of its inputs. -/
theorem chosenFolder_eq (pathExists : WString → Bool) (exePath path : WString) :
    Sender.chosenFolder pathExists exePath path
      = if ['.', '.', '\\'] <:+: path ∨ ['.', '.', '/'] <:+: path ∨ path = []
            ∨ pathExists path = false
        then exeDirectory exePath else path := by
  unfold Sender.chosenFolder
  by_cases h1 : ['.', '.', '\\'] <:+: path
  · have hf : (wfind path ['.', '.', '\\'] 0).isSome = true :=
      (wfind_zero_isSome_iff _ _).mpr h1
    simp [hf, h1]
  · have hf1 : (wfind path ['.', '.', '\\'] 0).isSome = false := by
      cases hb : (wfind path ['.', '.', '\\'] 0).isSome with
      | false => rfl
      | true => exact absurd ((wfind_zero_isSome_iff _ _).mp hb) h1
    by_cases h2 : ['.', '.', '/'] <:+: path
    · have hf : (wfind path ['.', '.', '/'] 0).isSome = true :=
        (wfind_zero_isSome_iff _ _).mpr h2
      simp [hf, h2]
    · have hf2 : (wfind path ['.', '.', '/'] 0).isSome = false := by
        cases hb : (wfind path ['.', '.', '/'] 0).isSome with
        | false => rfl
        | true => exact absurd ((wfind_zero_isSome_iff _ _).mp hb) h2
      simp only [hf1, hf2, Bool.or_false, Bool.false_eq_true, if_false, h1, h2, false_or]
      by_cases h3 : path = []
      · simp [h3]
      · have he : path.isEmpty = false := by
          cases path with
          | nil => exact absurd rfl h3
          | cons a t => rfl
        cases hp : pathExists path <;> simp [he, hp, h3]

/-- C17, amended. `sanitizeFolderPath` settles on a path (the directory of
the executable when the configured path holds `..\` or `../`, is empty or
does not exist, the configured path otherwise) and removes one trailing
backslash or forward slash from it: when the settled path ends with a
separator the result is the settled path without its last character,
otherwise the result is the settled path itself; so the returned string ends
with a separator only when the settled path ends with two separators. -/
theorem one_trailing_separator_trimmed (pathExists : WString → Bool) (exePath path : WString) :
    ∃ settled : WString,
      (settled = if ['.', '.', '\\'] <:+: path ∨ ['.', '.', '/'] <:+: path ∨ path = []
            ∨ pathExists path = false
          then exeDirectory exePath else path)
      ∧ (∀ q c, settled = q ++ [c] → c = '\\' ∨ c = '/' →
          Sender.sanitizeFolderPath pathExists exePath path = q)
      ∧ ((∀ q c, settled = q ++ [c] → c ≠ '\\' ∧ c ≠ '/') →
          Sender.sanitizeFolderPath pathExists exePath path = settled)
      ∧ (∀ q c, Sender.sanitizeFolderPath pathExists exePath path = q ++ [c] →
          c = '\\' ∨ c = '/' → ∃ d, (d = '\\' ∨ d = '/') ∧ settled = q ++ [c, d]) := by
  refine ⟨Sender.chosenFolder pathExists exePath path, chosenFolder_eq _ _ _, ?_, ?_, ?_⟩
  · intro q c hs hc
    unfold Sender.sanitizeFolderPath
    rw [hs, trimTrailingSeparator_snoc, if_pos hc]
  · intro hno
    unfold Sender.sanitizeFolderPath
    rcases List.eq_nil_or_concat (Sender.chosenFolder pathExists exePath path) with h | ⟨q, c, h⟩
    · rw [h]
      rfl
    · rw [List.concat_eq_append] at h
      have hc := hno q c h
      rw [h, trimTrailingSeparator_snoc, if_neg (by simp [hc.1, hc.2])]
  · intro q c hres hc
    unfold Sender.sanitizeFolderPath at hres
    rcases List.eq_nil_or_concat (Sender.chosenFolder pathExists exePath path) with h | ⟨q2, d, h⟩
    · rw [h] at hres
      exact absurd hres.symm (by simp [trimTrailingSeparator, endsWithSeparator])
    · rw [List.concat_eq_append] at h
      rw [h, trimTrailingSeparator_snoc] at hres
      by_cases hd : d = '\\' ∨ d = '/'
      · rw [if_pos hd] at hres
        exact ⟨d, hd, by rw [h, hres]; simp⟩
      · rw [if_neg hd] at hres
        have := List.append_inj' hres rfl
        have hcd : d = c := by simpa using this.2
        exact absurd (hcd ▸ hc) hd

/-- Witness of C17 as amended: the existing folder `C:\logs\` gives `C:\logs`. -/
theorem one_trailing_separator_trimmed_witness :
    Sender.sanitizeFolderPath (fun _ => true) exePathSample
        ['C', ':', '\\', 'l', 'o', 'g', 's', '\\'] = ['C', ':', '\\', 'l', 'o', 'g', 's'] := by
  obtain ⟨settled, hs, h1, _, _⟩ := one_trailing_separator_trimmed (fun _ => true)
    exePathSample ['C', ':', '\\', 'l', 'o', 'g', 's', '\\']
  have hs2 : settled = ['C', ':', '\\', 'l', 'o', 'g', 's'] ++ ['\\'] := by
    rw [hs]
    decide
  exact h1 _ _ hs2 (Or.inl rfl)

/-! ## Claim C11: decoding the sanitised message -/

theorem NoBackslashPair_tail (c : Char) (rest : WString) (h : NoBackslashPair (c :: rest)) :
    NoBackslashPair rest := by
  cases rest with
  | nil => simp [NoBackslashPair]
  | cons d rest2 =>
    simp only [NoBackslashPair] at h
    exact h.2

/-- On a text without two adjacent backslashes, the loop of `SanitizeJson`
replaces every character by its documented escape. -/
theorem loop_escapes :
    ∀ (n fuel : Nat) (done rest : WString), rest.length ≤ n → n < fuel →
      trail done % 2 = 0 → done.length + 2 * rest.length < 2 ^ 31 →
      NoBackslashPair rest →
      Utility.SanitizeJson.loop fuel (done ++ rest) done.length
        = some (done ++ rest.flatMap escapeChar) := by
  intro n
  induction n with
  | zero =>
    intro fuel done rest hn hf _ _ _
    have hr : rest = [] := List.length_eq_zero.mp (by omega)
    subst hr
    obtain ⟨g, rfl⟩ : ∃ g, fuel = g + 1 := ⟨fuel - 1, by omega⟩
    rw [Utility.SanitizeJson.loop]
    simp
  | succ n ih =>
    intro fuel done rest hn hf heven hbound hpair
    obtain ⟨g, rfl⟩ : ∃ g, fuel = g + 1 := ⟨fuel - 1, by omega⟩
    cases rest with
    | nil =>
      rw [Utility.SanitizeJson.loop]
      simp
    | cons c rest1 =>
      simp only [List.length_cons] at hn hbound
      have hpair1 : NoBackslashPair rest1 := NoBackslashPair_tail c rest1 hpair
      have hesc : IsEscaped (done ++ c :: rest1) done.length = false :=
        IsEscaped_eq_false done _ (by omega) heven
      have two : ∀ x : Char,
          Utility.SanitizeJson.loop g ((done ++ ['\\', x]) ++ rest1) (done.length + 1 + 1)
            = some (done ++ (['\\', x] ++ rest1.flatMap escapeChar)) := by
        intro x
        have h := ih g (done ++ ['\\', x]) rest1 (by omega) (by omega)
          (trail_escape done x heven)
          (by simp only [List.length_append, List.length_cons, List.length_nil]; omega) hpair1
        simpa using h
      rw [loop_at]
      simp only [hesc, Bool.not_false, if_true, List.flatMap_cons]
      by_cases h1 : c = '"'
      · rw [if_pos h1, two '"']
        simp [escapeChar, h1]
      · rw [if_neg h1]
        by_cases h2 : c = '\\'
        · rw [if_pos h2]
          have h3 : rest1.head? ≠ some '\\' := by
            cases rest1 with
            | nil => simp
            | cons d rest2 =>
              have hd : ¬ (c = '\\' ∧ d = '\\') := by
                simp only [NoBackslashPair] at hpair
                exact hpair.1
              simp only [List.head?_cons, ne_eq, Option.some.injEq]
              intro hd2
              exact hd ⟨h2, hd2⟩
          rw [if_pos h3, two '\\']
          simp [escapeChar, h2]
        · rw [if_neg h2]
          by_cases h4 : c = '\n'
          · rw [if_pos h4, two 'n']
            simp [escapeChar, h4]
          · rw [if_neg h4]
            by_cases h5 : c = '\r'
            · rw [if_pos h5, two 'r']
              simp [escapeChar, h5]
            · rw [if_neg h5]
              by_cases h6 : c = '\t'
              · rw [if_pos h6, two 't']
                simp [escapeChar, h6]
              · rw [if_neg h6]
                have h := ih g (done ++ [c]) rest1 (by omega) (by omega)
                  (trail_char done c h2)
                  (by simp only [List.length_append, List.length_cons, List.length_nil]; omega)
                  hpair1
                have he : escapeChar c = [c] := by
                  simp [escapeChar, h1, h2, h4, h5, h6]
                rw [he]
                simpa using h

set_option maxHeartbeats 4000000 in
theorem decodeBody_simple_escape (e : Char) (rest : WString) (he : isSimpleEscape e = true) :
    decodeBody ('\\' :: e :: rest) = (decodeBody rest).map fun r => unescapeSimple e :: r := by
  have hq : ('\\' : Char) ≠ '"' := by decide
  rw [decodeBody.eq_def]
  simp only [if_neg hq, if_true, if_pos he]

set_option maxHeartbeats 4000000 in
theorem decodeBody_plain (c : Char) (rest : WString) (h1 : c ≠ '"') (h2 : c ≠ '\\')
    (h3 : ¬ c.toNat < 0x20) :
    decodeBody (c :: rest) = (decodeBody rest).map fun r => c :: r := by
  rw [decodeBody.eq_def]
  simp only [if_neg h1, if_neg h2, if_neg h3]

/-- Decoding the documented escapes of a text whose only control characters
are CR, LF and TAB gives the text back. -/
theorem decodeBody_escapes (msg : WString) (hctl : OnlyCrLfTab msg) :
    decodeBody (msg.flatMap escapeChar) = some msg := by
  induction msg with
  | nil => rfl
  | cons c rest ih =>
    have hrest := ih (fun x hx => hctl x (List.mem_cons_of_mem _ hx))
    have two : ∀ e : Char, isSimpleEscape e = true → unescapeSimple e = c →
        decodeBody ('\\' :: e :: rest.flatMap escapeChar) = some (c :: rest) := by
      intro e he hc
      rw [decodeBody_simple_escape e _ he, hrest, Option.map_some', hc]
    rw [List.flatMap_cons]
    by_cases h1 : c = '"'
    · subst h1
      have he : escapeChar '"' = ['\\', '"'] := by decide
      rw [he]
      exact two '"' (by decide) (by decide)
    · by_cases h2 : c = '\\'
      · subst h2
        have he : escapeChar '\\' = ['\\', '\\'] := by decide
        rw [he]
        exact two '\\' (by decide) (by decide)
      · by_cases h4 : c = '\n'
        · subst h4
          have he : escapeChar '\n' = ['\\', 'n'] := by decide
          rw [he]
          exact two 'n' (by decide) (by decide)
        · by_cases h5 : c = '\r'
          · subst h5
            have he : escapeChar '\r' = ['\\', 'r'] := by decide
            rw [he]
            exact two 'r' (by decide) (by decide)
          · by_cases h6 : c = '\t'
            · subst h6
              have he : escapeChar '\t' = ['\\', 't'] := by decide
              rw [he]
              exact two 't' (by decide) (by decide)
            · have hc : ¬ c.toNat < 0x20 := by
                intro hlt
                rcases hctl c (List.mem_cons_self _ _) hlt with h | h | h
                · exact h5 h
                · exact h4 h
                · exact h6 h
              have he : escapeChar c = [c] := by
                simp [escapeChar, h1, h2, h4, h5, h6]
              rw [he, List.singleton_append, decodeBody_plain c _ h1 h2 hc, hrest,
                Option.map_some']

/-- C11, counterexample. For the message made of two backslashes,
`SanitizeJson` returns the two backslashes unchanged, and decoding them as
the body of a JSON string gives a single backslash, not the message. -/
theorem sanitizer_round_trip_counterexample :
    Utility.SanitizeJson 3 ['\\', '\\'] = some ['\\', '\\']
    ∧ decodeBody ['\\', '\\'] = some ['\\'] := by
  decide

/-- C11, amended. Sanitizer round trip: for every message in which no
backslash is immediately followed by another backslash (and whose only
control characters are CR, LF and TAB, below `2^30` characters),
`SanitizeJson` replaces each double quote by backslash-quote, each backslash
by two backslashes, CR by `\r`, LF by `\n`, TAB by `\t` and keeps every other
character, and JSON-decoding the output as the body of a JSON string
recovers the message exactly. -/
theorem sanitizer_round_trip (fuel : Nat) (msg : WString) (hpair : NoBackslashPair msg)
    (hctl : OnlyCrLfTab msg) (hlen : msg.length < 2 ^ 30) (hfuel : msg.length < fuel) :
    Utility.SanitizeJson fuel msg = some (msg.flatMap escapeChar)
      ∧ decodeBody (msg.flatMap escapeChar) = some msg := by
  have h0 : trail [] % 2 = 0 := by decide
  have h := loop_escapes msg.length fuel [] msg (Nat.le_refl _) hfuel h0
    (by simp only [List.length_nil]; omega) hpair
  exact ⟨by simpa [Utility.SanitizeJson] using h, decodeBody_escapes msg hctl⟩

/-- Witness of C11 as amended: the message `a"\` LF TAB. -/
theorem sanitizer_round_trip_witness :
    NoBackslashPair messageQ ∧ OnlyCrLfTab messageQ ∧ messageQ.length < 2 ^ 30 ∧
    messageQ.length < 6 ∧
    (Utility.SanitizeJson 6 messageQ = some (messageQ.flatMap escapeChar)
      ∧ decodeBody (messageQ.flatMap escapeChar) = some messageQ) :=
  ⟨by simp [NoBackslashPair, messageQ], by unfold OnlyCrLfTab; decide, by decide, by decide,
    sanitizer_round_trip 6 messageQ (by simp [NoBackslashPair, messageQ])
      (by unfold OnlyCrLfTab; decide) (by decide) (by decide)⟩

/-! ## Custom templates: supporting lemmas -/

theorem FormatLoop_end (f : WString → WString) (fuel : Nat) (done : WString) (j : Nat) :
    Utility.FormatEventLineLog.loop f (fuel + 1) done done.length j = some done := by
  rw [Utility.FormatEventLineLog.loop]
  simp

theorem FormatLoop_literal (f : WString → WString) (fuel : Nat) (done : WString) (c : Char)
    (rest : WString) (hc : c ≠ '%') :
    Utility.FormatEventLineLog.loop f (fuel + 1) (done ++ c :: rest) done.length
        (done.length + 1)
      = Utility.FormatEventLineLog.loop f fuel ((done ++ [c]) ++ rest) (done ++ [c]).length
          ((done ++ [c]).length + 1) := by
  have h_lt : done.length < (done ++ c :: rest).length := by simp
  have h_sub : ((done ++ c :: rest).drop done.length).take (done.length + 1 - done.length)
      = [c] := by
    rw [List.drop_left, Nat.add_sub_cancel_left]
    rfl
  have hne : (some c == some '%') = false := by simp [hc]
  rw [Utility.FormatEventLineLog.loop]
  simp only [h_lt, if_true, h_sub, List.length_singleton, Nat.sub_self, List.getElem?_cons_zero,
    hne, Bool.not_false, Bool.and_self]
  simp

theorem FormatLoop_scan (f : WString → WString) (fuel : Nat) (done F rest : WString) (k : Nat)
    (hF : '%' ∉ F) (hk : k ≤ F.length) :
    Utility.FormatEventLineLog.loop f (fuel + 1) (done ++ '%' :: (F ++ '%' :: rest))
        done.length (done.length + 1 + k)
      = Utility.FormatEventLineLog.loop f fuel (done ++ '%' :: (F ++ '%' :: rest))
          done.length (done.length + 1 + k + 1) := by
  have h_lt : done.length < (done ++ '%' :: (F ++ '%' :: rest)).length := by simp
  have h_sub : ((done ++ '%' :: (F ++ '%' :: rest)).drop done.length).take
      (done.length + 1 + k - done.length) = '%' :: F.take k := by
    rw [List.drop_left, show done.length + 1 + k - done.length = k + 1 by omega,
      List.take_succ_cons, List.take_append_of_le_length hk]
  have h_len : ('%' :: F.take k).length = k + 1 := by
    simp [List.length_take, Nat.min_eq_left hk]
  have h_ends : (decide (k + 1 > 1) && (('%' :: F.take k)[k]? == some '%')) = false := by
    cases k with
    | zero => simp
    | succ k0 =>
      have hk0 : k0 < F.length := by omega
      have hget : ('%' :: F.take (k0 + 1))[k0 + 1]? = some F[k0] := by
        rw [List.getElem?_cons_succ, List.getElem?_take_of_lt (by omega),
          List.getElem?_eq_getElem hk0]
      have hne : F[k0] ≠ '%' := fun h => hF (h ▸ List.getElem_mem hk0)
      rw [hget]
      simp [hne]
  rw [Utility.FormatEventLineLog.loop]
  simp only [h_lt, if_true, h_sub, h_len, Nat.add_sub_cancel, List.getElem?_cons_zero, beq_self_eq_true,
    Bool.not_true, Bool.false_and, Bool.true_and]
  rw [Bool.and_comm] at h_ends
  simp only [h_ends]
  rfl

theorem FormatLoop_subst (f : WString → WString) (fuel : Nat) (done F rest : WString) :
    Utility.FormatEventLineLog.loop f (fuel + 1) (done ++ '%' :: (F ++ '%' :: rest))
        done.length (done.length + 1 + (F.length + 1))
      = Utility.FormatEventLineLog.loop f fuel ((done ++ f F) ++ rest) (done ++ f F).length
          ((done ++ f F).length + 1) := by
  have h_lt : done.length < (done ++ '%' :: (F ++ '%' :: rest)).length := by simp
  have h_sub : ((done ++ '%' :: (F ++ '%' :: rest)).drop done.length).take
      (done.length + 1 + (F.length + 1) - done.length) = '%' :: (F ++ ['%']) := by
    rw [List.drop_left, show done.length + 1 + (F.length + 1) - done.length
      = ('%' :: (F ++ ['%'])).length by simp; omega]
    rw [show '%' :: (F ++ '%' :: rest) = ('%' :: (F ++ ['%'])) ++ rest by simp]
    exact List.take_left _ _
  have h_len : ('%' :: (F ++ ['%'])).length = F.length + 2 := by simp
  have h_last : ('%' :: (F ++ ['%']))[F.length + 2 - 1]? = some '%' := by
    rw [show F.length + 2 - 1 = F.length + 1 by omega, List.getElem?_cons_succ,
      List.getElem?_append_right (Nat.le_refl _)]
    simp
  have h_name : (('%' :: (F ++ ['%'])).drop 1).take (F.length + 2 - 2) = F := by
    simp
  have h_rep : wreplace (done ++ '%' :: (F ++ '%' :: rest)) done.length (F.length + 2) (f F)
      = (done ++ f F) ++ rest := by
    unfold wreplace
    rw [List.take_left]
    have : (done ++ '%' :: (F ++ '%' :: rest)).drop (done.length + (F.length + 2)) = rest := by
      rw [show done ++ '%' :: (F ++ '%' :: rest) = (done ++ '%' :: (F ++ ['%'])) ++ rest by simp]
      rw [show done.length + (F.length + 2) = (done ++ '%' :: (F ++ ['%'])).length by simp]
      exact List.drop_left _ _
    rw [this]
  have h_gt : (decide (F.length + 2 > 1)) = true := by simp
  rw [Utility.FormatEventLineLog.loop]
  simp only [h_lt, if_true, h_sub, h_len, h_last, h_name, h_rep, h_gt, List.getElem?_cons_zero,
    beq_self_eq_true, Bool.not_true, Bool.false_and, Bool.and_self]
  simp

/-- A run of literal characters is stepped over, one evaluation of the loop
condition per character. -/
theorem FormatLoop_literals (f : WString → WString) (L : WString) :
    ∀ (fuel : Nat) (done rest : WString), '%' ∉ L →
      Utility.FormatEventLineLog.loop f (fuel + L.length) (done ++ (L ++ rest)) done.length
          (done.length + 1)
        = Utility.FormatEventLineLog.loop f fuel ((done ++ L) ++ rest) (done ++ L).length
            ((done ++ L).length + 1) := by
  induction L with
  | nil => intro fuel done rest _; simp
  | cons c L ih =>
    intro fuel done rest hL
    have hc : c ≠ '%' := fun h => hL (h ▸ List.mem_cons_self _ _)
    have hL2 : '%' ∉ L := fun h => hL (List.mem_cons_of_mem _ h)
    rw [show fuel + (c :: L).length = (fuel + L.length) + 1 by simp; omega]
    rw [List.cons_append, FormatLoop_literal f _ done c (L ++ rest) hc, ih fuel (done ++ [c]) rest hL2]
    simp

/-- From any scanning position inside a token to its substitution. -/
theorem FormatLoop_token_from (f : WString → WString) (done F rest : WString) (hF : '%' ∉ F) :
    ∀ (m k fuel : Nat), k + m = F.length + 1 →
      Utility.FormatEventLineLog.loop f (fuel + (m + 1)) (done ++ '%' :: (F ++ '%' :: rest))
          done.length (done.length + 1 + k)
        = Utility.FormatEventLineLog.loop f fuel ((done ++ f F) ++ rest) (done ++ f F).length
            ((done ++ f F).length + 1) := by
  intro m
  induction m with
  | zero =>
    intro k fuel hk
    have hk2 : k = F.length + 1 := by omega
    subst hk2
    exact FormatLoop_subst f fuel done F rest
  | succ m ih =>
    intro k fuel hk
    rw [show fuel + (m + 1 + 1) = (fuel + (m + 1)) + 1 by omega,
      FormatLoop_scan f _ done F rest k hF (by omega)]
    exact ih (k + 1) fuel (by omega)

/-- A token `%F%` is replaced by the value of `F` within `F.length + 2`
evaluations of the loop condition, and scanning resumes after the value. -/
theorem FormatLoop_token (f : WString → WString) (fuel : Nat) (done F rest : WString)
    (hF : '%' ∉ F) :
    Utility.FormatEventLineLog.loop f (fuel + (F.length + 2)) (done ++ '%' :: (F ++ '%' :: rest))
        done.length (done.length + 1)
      = Utility.FormatEventLineLog.loop f fuel ((done ++ f F) ++ rest) (done ++ f F).length
          ((done ++ f F).length + 1) :=
  FormatLoop_token_from f done F rest hF (F.length + 1) 0 fuel (by omega)

/-- The scanning loop on a template `L0 %F1% L1 .. %Fn% Ln` whose segments
hold no `%`: it ends and yields `L0 v1 L1 .. vn Ln`. -/
theorem FormatLoop_template (f : WString → WString) (tokens : List (WString × WString)) :
    ∀ (fuel : Nat) (done L0 : WString), '%' ∉ L0 →
      (∀ t ∈ tokens, '%' ∉ t.1 ∧ '%' ∉ t.2) →
      (templateOf L0 tokens).length < fuel →
      Utility.FormatEventLineLog.loop f fuel (done ++ templateOf L0 tokens) done.length
          (done.length + 1)
        = some (done ++ expansionOf f L0 tokens) := by
  induction tokens with
  | nil =>
    intro fuel done L0 hL0 _ hfuel
    simp only [templateOf, List.flatMap_nil, List.append_nil, expansionOf] at hfuel ⊢
    obtain ⟨g, rfl⟩ : ∃ g, fuel = (g + 1) + L0.length := ⟨fuel - L0.length - 1, by omega⟩
    have h := FormatLoop_literals f L0 (g + 1) done [] hL0
    simp only [List.append_nil] at h
    rw [h, FormatLoop_end]
  | cons t tokens ih =>
    intro fuel done L0 hL0 htok hfuel
    obtain ⟨F, L1⟩ := t
    have hF := (htok (F, L1) (List.mem_cons_self _ _)).1
    have hL1 := (htok (F, L1) (List.mem_cons_self _ _)).2
    have htail : ∀ t ∈ tokens, '%' ∉ t.1 ∧ '%' ∉ t.2 :=
      fun t ht => htok t (List.mem_cons_of_mem _ ht)
    have hshape : templateOf L0 ((F, L1) :: tokens)
        = L0 ++ ('%' :: (F ++ '%' :: templateOf L1 tokens)) := by
      simp [templateOf]
    have hexp : expansionOf f L0 ((F, L1) :: tokens)
        = L0 ++ (f F ++ expansionOf f L1 tokens) := by
      simp [expansionOf]
    have hlen : (templateOf L0 ((F, L1) :: tokens)).length
        = L0.length + (F.length + 2) + (templateOf L1 tokens).length := by
      rw [hshape]
      simp only [List.length_append, List.length_cons]
      omega
    rw [hlen] at hfuel
    obtain ⟨g, rfl⟩ : ∃ g, fuel = (g + (F.length + 2)) + L0.length :=
      ⟨fuel - L0.length - (F.length + 2), by omega⟩
    rw [hshape, hexp, FormatLoop_literals f L0 _ done _ hL0,
      FormatLoop_token f g (done ++ L0) F _ hF]
    have h := ih g (done ++ L0 ++ f F) L1 hL1 htail (by omega)
    rw [h]
    simp

/-! ## Claims C13 to C15: custom templates -/

theorem find_last_of_eq_none (c : Char) (s : WString) (h : c ∉ s) : find_last_of s c = none := by
  induction s with
  | nil => rfl
  | cons x t ih =>
    have hx : x ≠ c := fun e => h (e ▸ List.mem_cons_self _ _)
    simp only [find_last_of, ih (fun m => h (List.mem_cons_of_mem _ m)), if_neg hx]

theorem find_last_of_append (c : Char) (B S : WString) (h : c ∉ S) :
    find_last_of (B ++ c :: S) c = some B.length := by
  induction B with
  | nil => simp [find_last_of, find_last_of_eq_none c S h]
  | cons x t ih => simp [find_last_of, ih]

theorem IsCustomJsonFormat_no_bar (fuel : Nat) (s : WString) (h : '|' ∉ s) :
    Utility.IsCustomJsonFormat fuel s = some (false, s) := by
  unfold Utility.IsCustomJsonFormat
  rw [find_last_of_eq_none '|' s h]

theorem fieldValue_EventLog (m : WString → WString) :
    Utility.FormatEventLineLog.fieldValue m ['E', 'v', 'e', 'n', 't', 'L', 'o', 'g'] = m := by
  funext name
  unfold Utility.FormatEventLineLog.fieldValue
  rw [if_neg (by decide), if_pos rfl]

/-- On a template without `|`, of the form `L0 %F1% L1 .. %Fn% Ln` with
segments free of `%`, `FormatEventLineLog` for the source type `EventLog`
returns `L0 v1 L1 .. vn Ln`. -/
theorem FormatEventLineLog_template (fuel : Nat) (m : WString → WString) (L0 : WString)
    (tokens : List (WString × WString)) (hbar : '|' ∉ templateOf L0 tokens)
    (hL0 : '%' ∉ L0) (htok : ∀ t ∈ tokens, '%' ∉ t.1 ∧ '%' ∉ t.2)
    (hfuel : (templateOf L0 tokens).length < fuel) :
    Utility.FormatEventLineLog fuel m (templateOf L0 tokens)
        ['E', 'v', 'e', 'n', 't', 'L', 'o', 'g']
      = some (expansionOf m L0 tokens) := by
  have h := FormatLoop_template m tokens fuel [] L0 hL0 htok hfuel
  simp only [List.nil_append, List.length_nil, Nat.zero_add] at h
  unfold Utility.FormatEventLineLog
  rw [IsCustomJsonFormat_no_bar fuel _ hbar]
  simp only [fieldValue_EventLog, h]
  rfl

theorem templateOf_no_bar (L0 : WString) (tokens : List (WString × WString))
    (hL0 : '|' ∉ L0) (htok : ∀ t ∈ tokens, '|' ∉ t.1 ∧ '|' ∉ t.2) :
    '|' ∉ templateOf L0 tokens := by
  unfold templateOf
  simp only [List.mem_append, List.mem_flatMap, List.mem_cons, not_or, not_exists, not_and]
  refine ⟨hL0, fun t ht => ⟨by decide, (htok t ht).1, by decide, (htok t ht).2⟩⟩

/-- The scanning loop on `%a` never ends: the second index grows for ever. -/
theorem FormatLoop_unmatched (f : WString → WString) :
    ∀ (fuel j : Nat), 1 ≤ j → Utility.FormatEventLineLog.loop f fuel ['%', 'a'] 0 j = none := by
  intro fuel
  induction fuel with
  | zero => intro j _; rfl
  | succ fuel ih =>
    intro j hj
    rw [Utility.FormatEventLineLog.loop]
    rcases Nat.lt_or_ge j 2 with h | h
    · have hj1 : j = 1 := by omega
      subst hj1
      simp only [List.length_cons, List.length_nil, List.drop_zero, Nat.sub_zero]
      exact ih 2 (by omega)
    · have htake : (['%', 'a'] : WString).take j = ['%', 'a'] :=
        List.take_of_length_le (by simpa using h)
      simp only [List.length_cons, List.length_nil, List.drop_zero, Nat.sub_zero, htake]
      exact ih (j + 1) (by omega)

/-- C13, counterexample. The template `%a|b%` has the form `L0 %F1% L1` with
empty literal segments and the field name `a|b`. `FormatEventLineLog` cuts
it at the `|`, and the scanning loop then runs on `%a` without ever ending:
no amount of fuel yields a result. -/
theorem template_expansion_counterexample :
    ¬ ∃ fuel out, Utility.FormatEventLineLog fuel
        (fun name => EndpointMonitor.EventFieldsMapping name entrySample)
        (templateOf [] [(['a', '|', 'b'], [])]) ['E', 'v', 'e', 'n', 't', 'L', 'o', 'g']
      = some out := by
  rintro ⟨fuel, out, h⟩
  have hcut : Utility.IsCustomJsonFormat fuel (templateOf [] [(['a', '|', 'b'], [])])
      = some (false, ['%', 'a']) := by rfl
  unfold Utility.FormatEventLineLog at h
  rw [hcut] at h
  simp only [FormatLoop_unmatched _ fuel 1 (Nat.le_refl _)] at h
  exact absurd h (by simp)

/-- C13, amended. Custom template expansion: for every template of the form
`L0 %F1% L1 .. %Fn% Ln` in which neither the literal segments `Li` nor the
field names `Fi` contain `%` or `|`, `FormatEventLineLog` with source type
`EventLog` returns `L0 v1 L1 .. vn Ln`, where `vi` is the value of
`EventFieldsMapping(Fi, record)`; tokens are replaced left to right and a
substituted value is not scanned again, whatever it contains. -/
theorem template_expansion (fuel : Nat) (record : EventLogEntry) (L0 : WString)
    (tokens : List (WString × WString)) (hL0 : '%' ∉ L0 ∧ '|' ∉ L0)
    (htok : ∀ t ∈ tokens, ('%' ∉ t.1 ∧ '|' ∉ t.1) ∧ ('%' ∉ t.2 ∧ '|' ∉ t.2))
    (hfuel : (templateOf L0 tokens).length < fuel) :
    Utility.FormatEventLineLog fuel
        (fun name => EndpointMonitor.EventFieldsMapping name record)
        (templateOf L0 tokens) ['E', 'v', 'e', 'n', 't', 'L', 'o', 'g']
      = some (expansionOf (fun name => EndpointMonitor.EventFieldsMapping name record)
          L0 tokens) :=
  FormatEventLineLog_template fuel _ L0 tokens
    (templateOf_no_bar L0 tokens hL0.2 (fun t ht => ⟨(htok t ht).1.2, (htok t ht).2.2⟩))
    hL0.1 (fun t ht => ⟨(htok t ht).1.1, (htok t ht).2.1⟩) hfuel

/-- Witness of C13 as amended: the template `[%Severity%] %Message%` on a
record whose message is `50%` gives `[Error] 50%`. -/
theorem template_expansion_witness :
    ('%' ∉ ['['] ∧ '|' ∉ ['[']) ∧
    (∀ t ∈ [(['S', 'e', 'v', 'e', 'r', 'i', 't', 'y'], [']', ' ']),
            (['M', 'e', 's', 's', 'a', 'g', 'e'], ([] : WString))],
      ('%' ∉ t.1 ∧ '|' ∉ t.1) ∧ ('%' ∉ t.2 ∧ '|' ∉ t.2)) ∧
    (templateOf ['['] [(['S', 'e', 'v', 'e', 'r', 'i', 't', 'y'], [']', ' ']),
        (['M', 'e', 's', 's', 'a', 'g', 'e'], [])]).length < 30 ∧
    Utility.FormatEventLineLog 30
        (fun name => EndpointMonitor.EventFieldsMapping name entryPercent)
        (templateOf ['['] [(['S', 'e', 'v', 'e', 'r', 'i', 't', 'y'], [']', ' ']),
          (['M', 'e', 's', 's', 'a', 'g', 'e'], [])])
        ['E', 'v', 'e', 'n', 't', 'L', 'o', 'g']
      = some ['[', 'E', 'r', 'r', 'o', 'r', ']', ' ', '5', '0', '%'] :=
  ⟨by decide, by decide, by decide,
    template_expansion 30 entryPercent ['[']
      [(['S', 'e', 'v', 'e', 'r', 'i', 't', 'y'], [']', ' ']),
        (['M', 'e', 's', 's', 'a', 'g', 'e'], [])] (by decide) (by decide) (by decide)⟩

theorem CompareWStrings_iff (a : WString) :
    ∀ b : WString, Utility.CompareWStrings a b = true ↔ a.map towupper = b.map towupper := by
  induction a with
  | nil =>
    intro b
    cases b <;> simp [Utility.CompareWStrings]
  | cons x a ih =>
    intro b
    cases b with
    | nil => simp [Utility.CompareWStrings]
    | cons y b =>
      have h := ih b
      simp only [Utility.CompareWStrings, Bool.and_eq_true, beq_iff_eq] at h
      simp only [Utility.CompareWStrings, List.length_cons, List.zipWith_cons_cons, List.all_cons,
        id, Bool.and_eq_true, beq_iff_eq, List.map_cons, List.cons.injEq, Nat.add_right_cancel_iff]
      constructor
      · rintro ⟨hl, hxy, hall⟩
        exact ⟨hxy, h.mp ⟨hl, hall⟩⟩
      · rintro ⟨hxy, hmap⟩
        have := h.mpr hmap
        exact ⟨this.1, hxy, this.2⟩

theorem templateOf_append (L0 : WString) (before after : List (WString × WString))
    (name L : WString) :
    templateOf L0 (before ++ (name, L) :: after)
      = templateOf L0 before ++ '%' :: (name ++ '%' :: templateOf L after) := by
  simp [templateOf]

theorem wreplace_length (str : WString) (i : Nat) (tok : WString) (h : i < str.length) :
    (wreplace str i 1 tok).length = str.length - 1 + tok.length := by
  unfold wreplace
  simp only [List.length_append, List.length_take, List.length_drop]
  omega

/-- The loop of `SanitizeJson` ends on every string: `str.length - i + 1`
evaluations of its condition are enough. -/
theorem SanitizeJson_loop_terminates :
    ∀ (fuel : Nat) (str : WString) (i : Nat), str.length ≤ fuel + i →
      ∃ out, Utility.SanitizeJson.loop (fuel + 1) str i = some out := by
  intro fuel
  induction fuel with
  | zero =>
    intro str i h
    rw [Utility.SanitizeJson.loop, if_neg (by omega)]
    exact ⟨str, rfl⟩
  | succ fuel ih =>
    intro str i h
    rw [Utility.SanitizeJson.loop]
    by_cases hi : i < str.length
    · have hrep : ∀ tok : WString, tok.length = 2 →
          ∃ out, Utility.SanitizeJson.loop (fuel + 1) (wreplace str i 1 tok) (i + 1 + 1)
            = some out := by
        intro tok htok
        exact ih _ _ (by rw [wreplace_length str i tok hi, htok]; omega)
      have h1 : ∃ out, Utility.SanitizeJson.loop (fuel + 1) str (i + 1) = some out :=
        ih _ _ (by omega)
      have h2 : ∃ out, Utility.SanitizeJson.loop (fuel + 1) str (i + 2) = some out :=
        ih _ _ (by omega)
      simp only [hi, if_true]
      repeat' split
      all_goals first
        | exact h1
        | exact h2
        | exact hrep _ rfl
    · rw [if_neg hi]
      exact ⟨str, rfl⟩

theorem SanitizeJson_terminates (fuel : Nat) (str : WString) (h : str.length < fuel) :
    ∃ out, Utility.SanitizeJson fuel str = some out := by
  obtain ⟨g, rfl⟩ : ∃ g, fuel = g + 1 := ⟨fuel - 1, by omega⟩
  exact SanitizeJson_loop_terminates g str 0 (by omega)

theorem wfind_append (done rest needle : WString) :
    wfind (done ++ rest) needle done.length
      = (findAt needle rest).map (· + done.length) := by
  unfold wfind
  rw [if_pos (by simp), List.drop_left]

theorem findAt_char_cons (q c : Char) (rest : WString) :
    findAt [q] (c :: rest) = if c = q then some 0 else (findAt [q] rest).map (· + 1) := by
  rw [findAt]
  by_cases h : c = q
  · subst h
    simp
  · have h2 : ¬ q = c := fun e => h e.symm
    simp [h, h2]

/-- With a one-character pattern, the loop of `ReplaceAll` replaces every
occurrence from the start position on, one call of `find` per occurrence
and a last one that finds nothing. -/
theorem ReplaceAll_loop_char (q : Char) (To : WString) :
    ∀ (rest done : WString) (fuel : Nat), rest.length < fuel →
      Utility.ReplaceAll.loop fuel (done ++ rest) [q] To done.length
        = some (done ++ rest.flatMap fun c => if c = q then To else [c]) := by
  intro rest
  induction rest with
  | nil =>
    intro done fuel hf
    obtain ⟨g, rfl⟩ : ∃ g, fuel = g + 1 := ⟨fuel - 1, by omega⟩
    rw [Utility.ReplaceAll.loop, wfind_append]
    simp [findAt]
  | cons c rest ih =>
    intro done fuel hf
    simp only [List.length_cons] at hf
    obtain ⟨g, rfl⟩ : ∃ g, fuel = g + 1 := ⟨fuel - 1, by omega⟩
    by_cases hc : c = q
    · rw [Utility.ReplaceAll.loop, wfind_append, findAt_char_cons, if_pos hc]
      simp only [Option.map_some', Nat.zero_add, List.length_singleton]
      have hrep : wreplace (done ++ c :: rest) done.length 1 To = (done ++ To) ++ rest := by
        unfold wreplace
        rw [List.take_left]
        have : (done ++ c :: rest).drop (done.length + 1) = rest := by
          rw [show done ++ c :: rest = (done ++ [c]) ++ rest by simp]
          rw [show done.length + 1 = (done ++ [c]).length by simp]
          exact List.drop_left _ _
        rw [this]
      rw [hrep, show done.length + To.length = (done ++ To).length by simp,
        ih (done ++ To) g (by omega)]
      simp [hc]
    · have hstep : Utility.ReplaceAll.loop (g + 1) (done ++ c :: rest) [q] To done.length
          = Utility.ReplaceAll.loop (g + 1) ((done ++ [c]) ++ rest) [q] To
              (done ++ [c]).length := by
        rw [Utility.ReplaceAll.loop, Utility.ReplaceAll.loop, wfind_append, wfind_append,
          findAt_char_cons, if_neg hc]
        simp only [List.append_assoc, List.singleton_append, Option.map_map, List.length_append,
          List.length_singleton]
        have hfun : ((fun x => x + done.length) ∘ fun x => x + 1)
            = fun x => x + (done.length + 1) := by
          funext x
          simp only [Function.comp]
          omega
        rw [hfun]
      rw [hstep, ih (done ++ [c]) (g + 1) (by omega)]
      simp [hc]

theorem ReplaceAll_quote (fuel : Nat) (s : WString) (h : s.length < fuel) :
    Utility.ReplaceAll fuel s ['\''] ['~', '"'] = some (quoteReplaced s) := by
  have := ReplaceAll_loop_char '\'' ['~', '"'] s [] fuel h
  simpa [Utility.ReplaceAll, quoteReplaced] using this

theorem quoteReplaced_no_bar (S : WString) (h : '|' ∉ S) : '|' ∉ quoteReplaced S := by
  unfold quoteReplaced
  simp only [List.mem_flatMap, not_exists, not_and]
  intro c hc
  by_cases hq : c = '\''
  · rw [if_pos hq]
    decide
  · rw [if_neg hq]
    simp only [List.mem_singleton]
    intro e
    exact h (e ▸ hc)

theorem quoteReplaced_append_bar (B S : WString) :
    quoteReplaced (B ++ '|' :: S) = quoteReplaced B ++ '|' :: quoteReplaced S := by
  unfold quoteReplaced
  rw [List.flatMap_append, List.flatMap_cons]
  rfl

/-- The effect of `IsCustomJsonFormat` on a template `B|S` whose suffix `S`
holds no `|` and reads `JSON` once its spaces are removed, ignoring case:
the flag is set and the template becomes `B` with its single quotes
replaced. -/
theorem IsCustomJsonFormat_marked (fuel : Nat) (B S : WString) (hS : '|' ∉ S)
    (hjson : (S.filter (· != ' ')).map towupper = ['J', 'S', 'O', 'N'])
    (hfuel : (B ++ '|' :: S).length < fuel) :
    Utility.IsCustomJsonFormat fuel (B ++ '|' :: S) = some (true, quoteReplaced B) := by
  have hcmp : Utility.CompareWStrings (S.filter (· != ' ')) ['J', 'S', 'O', 'N'] = true :=
    (CompareWStrings_iff _ _).mpr (by rw [hjson]; decide)
  have hne : (S.filter (· != ' ')).isEmpty = false := by
    have hl := congrArg List.length hjson
    simp only [List.length_map, List.length_cons, List.length_nil] at hl
    cases hf : S.filter (· != ' ') with
    | nil => rw [hf] at hl; simp at hl
    | cons a t => rfl
  have hdrop : (B ++ '|' :: S).drop (B.length + 1) = S := by
    rw [show B ++ '|' :: S = (B ++ ['|']) ++ S by simp]
    rw [show B.length + 1 = (B ++ ['|']).length by simp]
    exact List.drop_left _ _
  unfold Utility.IsCustomJsonFormat
  rw [find_last_of_append '|' B S hS]
  simp only [hdrop, hne, hcmp, Bool.not_false, Bool.and_self, if_true,
    ReplaceAll_quote fuel _ hfuel, quoteReplaced_append_bar,
    find_last_of_append '|' _ _ (quoteReplaced_no_bar S hS), List.take_left]

/-- C15. JSON-marked custom template: for every template `B|S` where `S`
holds no `|` and reads `JSON` once its spaces are removed, ignoring case,
and where `B` with every single quote replaced by tilde and double quote is
a template `L0 %F1% L1 .. %Fn% Ln` (segments free of `%`),
`FormatEventLineLog` returns what `SanitizeJson`, the escaping pass of the
JSON records, makes of the whole expansion `L0 v1 L1 .. vn Ln`, and that pass
ends. -/
theorem json_marked_template (fuel : Nat) (record : EventLogEntry) (B S L0 : WString)
    (tokens : List (WString × WString)) (hS : '|' ∉ S)
    (hjson : (S.filter (· != ' ')).map towupper = ['J', 'S', 'O', 'N'])
    (hform : quoteReplaced B = templateOf L0 tokens)
    (hL0 : '%' ∉ L0) (htok : ∀ t ∈ tokens, '%' ∉ t.1 ∧ '%' ∉ t.2)
    (hfuel : (B ++ '|' :: S).length < fuel ∧ (templateOf L0 tokens).length < fuel
      ∧ (expansionOf (fun n => EndpointMonitor.EventFieldsMapping n record)
          L0 tokens).length < fuel) :
    Utility.FormatEventLineLog fuel (fun n => EndpointMonitor.EventFieldsMapping n record)
        (B ++ '|' :: S) ['E', 'v', 'e', 'n', 't', 'L', 'o', 'g']
      = Utility.SanitizeJson fuel
          (expansionOf (fun n => EndpointMonitor.EventFieldsMapping n record) L0 tokens)
    ∧ ∃ out, Utility.SanitizeJson fuel
          (expansionOf (fun n => EndpointMonitor.EventFieldsMapping n record) L0 tokens)
        = some out := by
  refine ⟨?_, SanitizeJson_terminates fuel _ hfuel.2.2⟩
  have h := FormatLoop_template (fun n => EndpointMonitor.EventFieldsMapping n record)
    tokens fuel [] L0 hL0 htok hfuel.2.1
  simp only [List.nil_append, List.length_nil, Nat.zero_add] at h
  unfold Utility.FormatEventLineLog
  rw [IsCustomJsonFormat_marked fuel B S hS hjson hfuel.1]
  simp only [fieldValue_EventLog, hform, h, if_true]

/-- Witness of C15: the template `'a':'%Message%'|JSON` on a record whose
message is `hi"`; the expansion `~"a~":~"hi"~"` comes back with each of its
double quotes escaped. -/
theorem json_marked_template_witness :
    '|' ∉ ['J', 'S', 'O', 'N'] ∧
    ((['J', 'S', 'O', 'N'] : WString).filter (· != ' ')).map towupper = ['J', 'S', 'O', 'N'] ∧
    quoteReplaced ['\'', 'a', '\'', ':', '\'', '%', 'M', 'e', 's', 's', 'a', 'g', 'e', '%', '\'']
      = templateOf ['~', '"', 'a', '~', '"', ':', '~', '"']
          [(['M', 'e', 's', 's', 'a', 'g', 'e'], ['~', '"'])] ∧
    Utility.FormatEventLineLog 40 (fun n => EndpointMonitor.EventFieldsMapping n entrySample)
        (['\'', 'a', '\'', ':', '\'', '%', 'M', 'e', 's', 's', 'a', 'g', 'e', '%', '\'']
          ++ '|' :: ['J', 'S', 'O', 'N'])
        ['E', 'v', 'e', 'n', 't', 'L', 'o', 'g']
      = some ['~', '\\', '"', 'a', '~', '\\', '"', ':', '~', '\\', '"', 'h', 'i', '\\', '"',
          '~', '\\', '"'] :=
  ⟨by decide, by decide, by decide,
    (json_marked_template 40 entrySample
      ['\'', 'a', '\'', ':', '\'', '%', 'M', 'e', 's', 's', 'a', 'g', 'e', '%', '\'']
      ['J', 'S', 'O', 'N'] ['~', '"', 'a', '~', '"', ':', '~', '"']
      [(['M', 'e', 's', 's', 'a', 'g', 'e'], ['~', '"'])]
      (by decide) (by decide) (by decide) (by decide) (by decide) (by decide)).1.trans
      (by decide)⟩

/-! ## PrintEvent: supporting lemmas -/

theorem toInt32_toNat_le (n : Nat) : (toInt32 n).toNat ≤ n := by
  unfold toInt32
  have h := Nat.mod_le n (2 ^ 32)
  split
  · rw [Int.toNat_ofNat]
    exact h
  · omega

/-- The value of `IsEscaped` at an index depends on the characters before
the index only. -/
theorem IsEscaped_append (done rest : WString) :
    IsEscaped (done ++ rest) done.length = IsEscaped done done.length := by
  unfold IsEscaped
  rw [countBack_append done rest _ (toInt32_toNat_le _)]

/-- One evaluation of the loop condition of `SanitizeJson` at a character:
the loop goes on behind what `sanitizeStep` leaves. -/
theorem loop_step (fuel : Nat) (done : WString) (c : Char) (rest : WString) :
    Utility.SanitizeJson.loop (fuel + 1) (done ++ c :: rest) done.length
      = Utility.SanitizeJson.loop fuel
          ((done ++ (sanitizeStep (IsEscaped done done.length) c rest).1)
            ++ (sanitizeStep (IsEscaped done done.length) c rest).2)
          (done ++ (sanitizeStep (IsEscaped done done.length) c rest).1).length := by
  rw [loop_at, IsEscaped_append]
  unfold sanitizeStep
  have one : (done ++ [c]) ++ rest = done ++ c :: rest := by simp
  have len1 : (done ++ [c]).length = done.length + 1 := by simp
  have len2 : ∀ x y : Char, (done ++ [x, y]).length = done.length + 1 + 1 := by
    intro x y
    simp
  by_cases h1 : c = '"'
  · simp only [if_pos h1]
    cases IsEscaped done done.length
    · simp only [Bool.not_false, if_true, len2]
    · simp only [Bool.not_true, Bool.false_eq_true, if_false, ← h1, one, len1]
  · simp only [if_neg h1]
    by_cases h2 : c = '\\'
    · simp only [if_pos h2]
      by_cases h3 : rest.head? ≠ some '\\'
      · simp only [if_pos h3, len2]
      · simp only [if_neg h3, len2]
        cases rest with
        | nil => simp at h3
        | cons d rest2 =>
          have hd : d = '\\' := by simpa using h3
          subst hd
          subst h2
          simp
    · simp only [if_neg h2]
      by_cases h4 : c = '\n'
      · simp only [if_pos h4]
        cases IsEscaped done done.length
        · simp only [Bool.not_false, if_true, len2]
        · simp only [Bool.not_true, Bool.false_eq_true, if_false, ← h4, one, len1]
      · simp only [if_neg h4]
        by_cases h5 : c = '\r'
        · simp only [if_pos h5]
          cases IsEscaped done done.length
          · simp only [Bool.not_false, if_true, len2]
          · simp only [Bool.not_true, Bool.false_eq_true, if_false, ← h5, one, len1]
        · simp only [if_neg h5]
          by_cases h6 : c = '\t'
          · simp only [if_pos h6]
            cases IsEscaped done done.length
            · simp only [Bool.not_false, if_true, len2]
            · simp only [Bool.not_true, Bool.false_eq_true, if_false, ← h6, one, len1]
          · simp only [if_neg h6, one, len1]

theorem sanitizeStep_length (e : Bool) (c : Char) (rest : WString) :
    (sanitizeStep e c rest).2.length ≤ rest.length := by
  unfold sanitizeStep
  repeat' split
  all_goals simp

theorem sanitizeStep_rest_subset (e : Bool) (c : Char) (rest : WString) (x : Char)
    (hx : x ∈ (sanitizeStep e c rest).2) : x ∈ rest := by
  unfold sanitizeStep at hx
  repeat' split at hx
  all_goals first
    | exact hx
    | exact List.mem_of_mem_tail hx

theorem sanitizeStep_no_nul (e : Bool) (c : Char) (rest : WString) (hc : c ≠ Char.ofNat 0) :
    Char.ofNat 0 ∉ (sanitizeStep e c rest).1 := by
  have hc2 : ¬ Char.ofNat 0 = c := fun h => hc h.symm
  unfold sanitizeStep
  repeat' split
  all_goals first
    | decide
    | simp [hc2]

/-- What follows the visited part does not change a step, unless it starts
with a backslash. -/
theorem sanitizeStep_append (e : Bool) (c : Char) (rest t : WString)
    (ht : t.head? ≠ some '\\') :
    sanitizeStep e c (rest ++ t)
      = ((sanitizeStep e c rest).1, (sanitizeStep e c rest).2 ++ t) := by
  unfold sanitizeStep
  cases rest with
  | nil =>
    simp only [List.nil_append, List.head?_nil, List.tail_nil]
    repeat' split
    all_goals simp_all
  | cons d rest2 =>
    simp only [List.cons_append, List.head?_cons, List.tail_cons]
    repeat' split
    all_goals simp_all

/-- The loop of `SanitizeJson` keeps what is before its index. -/
theorem loop_keeps_done :
    ∀ (n fuel : Nat) (done rest out : WString), rest.length ≤ n →
      Utility.SanitizeJson.loop fuel (done ++ rest) done.length = some out →
      ∃ r, out = done ++ r := by
  intro n
  induction n with
  | zero =>
    intro fuel done rest out hn h
    have hr : rest = [] := List.length_eq_zero.mp (by omega)
    subst hr
    cases fuel with
    | zero => simp [Utility.SanitizeJson.loop] at h
    | succ g =>
      rw [Utility.SanitizeJson.loop] at h
      simp at h
      exact ⟨[], by simp [h]⟩
  | succ n ih =>
    intro fuel done rest out hn h
    cases fuel with
    | zero => simp [Utility.SanitizeJson.loop] at h
    | succ g =>
      cases rest with
      | nil =>
        rw [Utility.SanitizeJson.loop] at h
        simp at h
        exact ⟨[], by simp [h]⟩
      | cons c rest1 =>
        rw [loop_step] at h
        simp only [List.length_cons] at hn
        have hl := sanitizeStep_length (IsEscaped done done.length) c rest1
        obtain ⟨r, hr⟩ := ih g _ _ out (by omega) h
        exact ⟨(sanitizeStep (IsEscaped done done.length) c rest1).1 ++ r,
          by rw [hr, List.append_assoc]⟩

/-- The loop of `SanitizeJson` on a text followed by a NUL and further
characters does to the text what it does to the text alone, and leaves the
NUL behind it. -/
theorem loop_before_nul :
    ∀ (n fuel fuel2 : Nat) (done text junk out1 out2 : WString), text.length ≤ n →
      Char.ofNat 0 ∉ text →
      Utility.SanitizeJson.loop fuel (done ++ text) done.length = some out1 →
      Utility.SanitizeJson.loop fuel2 (done ++ (text ++ Char.ofNat 0 :: junk)) done.length
        = some out2 →
      ∃ esc junk2, out1 = done ++ esc ∧ out2 = done ++ (esc ++ Char.ofNat 0 :: junk2)
        ∧ Char.ofNat 0 ∉ esc := by
  intro n
  induction n with
  | zero =>
    intro fuel fuel2 done text junk out1 out2 hn hnul h1 h2
    have hr : text = [] := List.length_eq_zero.mp (by omega)
    subst hr
    cases fuel with
    | zero => simp [Utility.SanitizeJson.loop] at h1
    | succ g =>
      cases fuel2 with
      | zero => simp [Utility.SanitizeJson.loop] at h2
      | succ g2 =>
        rw [Utility.SanitizeJson.loop] at h1
        simp at h1
        rw [List.nil_append, loop_step] at h2
        have hs : ∀ e, sanitizeStep e (Char.ofNat 0) junk = ([Char.ofNat 0], junk) := by
          intro e
          unfold sanitizeStep
          rw [if_neg (by decide), if_neg (by decide), if_neg (by decide), if_neg (by decide),
            if_neg (by decide)]
        rw [hs] at h2
        obtain ⟨r, hr⟩ := loop_keeps_done junk.length g2 _ _ out2 (Nat.le_refl _) h2
        exact ⟨[], r, by simp [h1], by simp [hr], by simp⟩
  | succ n ih =>
    intro fuel fuel2 done text junk out1 out2 hn hnul h1 h2
    cases fuel with
    | zero => simp [Utility.SanitizeJson.loop] at h1
    | succ g =>
      cases fuel2 with
      | zero => simp [Utility.SanitizeJson.loop] at h2
      | succ g2 =>
        cases text with
        | nil =>
          rw [Utility.SanitizeJson.loop] at h1
          simp at h1
          rw [List.nil_append, loop_step] at h2
          have hs : ∀ e, sanitizeStep e (Char.ofNat 0) junk = ([Char.ofNat 0], junk) := by
            intro e
            unfold sanitizeStep
            rw [if_neg (by decide), if_neg (by decide), if_neg (by decide), if_neg (by decide),
              if_neg (by decide)]
          rw [hs] at h2
          obtain ⟨r, hr⟩ := loop_keeps_done junk.length g2 _ _ out2 (Nat.le_refl _) h2
          exact ⟨[], r, by simp [h1], by simp [hr], by simp⟩
        | cons c rest =>
          simp only [List.length_cons] at hn
          have hc : c ≠ Char.ofNat 0 := fun e => hnul (e ▸ List.mem_cons_self _ _)
          rw [loop_step] at h1
          rw [List.cons_append, loop_step,
            sanitizeStep_append _ c rest (Char.ofNat 0 :: junk) (by simp)] at h2
          have hl := sanitizeStep_length (IsEscaped done done.length) c rest
          have hnul2 : Char.ofNat 0 ∉ (sanitizeStep (IsEscaped done done.length) c rest).2 :=
            fun hx => hnul (List.mem_cons_of_mem _ (sanitizeStep_rest_subset _ _ _ _ hx))
          obtain ⟨esc, junk2, e1, e2, e3⟩ :=
            ih g g2 _ _ junk out1 out2 (by omega) hnul2 h1 h2
          refine ⟨(sanitizeStep (IsEscaped done done.length) c rest).1 ++ esc, junk2, ?_, ?_, ?_⟩
          · rw [e1, List.append_assoc]
          · rw [e2]
            simp only [List.append_assoc]
          · intro hx
            rcases List.mem_append.mp hx with hx | hx
            · exact sanitizeStep_no_nul _ c rest hc hx
            · exact e3 hx

theorem c_str_append_nul (esc junk : WString) (h : Char.ofNat 0 ∉ esc) :
    c_str (esc ++ Char.ofNat 0 :: junk) = esc := by
  unfold c_str
  induction esc with
  | nil => simp
  | cons c esc ih =>
    have hc : c ≠ Char.ofNat 0 := fun e => h (e ▸ List.mem_cons_self _ _)
    have h2 : Char.ofNat 0 ∉ esc := fun hx => h (List.mem_cons_of_mem _ hx)
    simp only [List.cons_append, List.takeWhile_cons]
    simp [hc, ih h2]

theorem c_str_of_no_nul (w : WString) (h : Char.ofNat 0 ∉ w) : c_str w = w := by
  unfold c_str
  induction w with
  | nil => rfl
  | cons c w ih =>
    have hc : c ≠ Char.ofNat 0 := fun e => h (e ▸ List.mem_cons_self _ _)
    have h2 : Char.ofNat 0 ∉ w := fun hx => h (List.mem_cons_of_mem _ hx)
    simp [hc, ih h2]

/-- The message that `PrintEvent` writes: `SanitizeJson` applied to the whole
buffer and read up to the first NUL is `SanitizeJson` applied to the text
before the first NUL of the buffer. -/
theorem SanitizeJson_buffer (fuel : Nat) (text junk esc : WString)
    (hnul : Char.ofNat 0 ∉ text) (h1 : Utility.SanitizeJson fuel text = some esc)
    (hfuel : (text ++ Char.ofNat 0 :: junk).length < fuel) :
    ∃ out, Utility.SanitizeJson fuel (text ++ Char.ofNat 0 :: junk) = some out
      ∧ c_str out = esc := by
  obtain ⟨out, hout⟩ := SanitizeJson_terminates fuel _ hfuel
  refine ⟨out, hout, ?_⟩
  have h := loop_before_nul text.length fuel fuel [] text junk esc out (Nat.le_refl _) hnul
    (by simpa [Utility.SanitizeJson] using h1) (by simpa [Utility.SanitizeJson] using hout)
  obtain ⟨esc2, junk2, e1, e2, e3⟩ := h
  simp only [List.nil_append] at e1 e2
  rw [e2, e1]
  exact c_str_append_nul _ _ e3

theorem Complete_plain (w : WString) (h : PlainText w) : Complete w := by
  induction w with
  | nil => exact Complete_nil
  | cons c w ih =>
    have hc := h c (List.mem_cons_self _ _)
    have := Complete_append [c] w (Complete_char c hc.1 hc.2.1 hc.2.2)
      (ih fun x hx => h x (List.mem_cons_of_mem _ hx))
    simpa using this

/-- A string made of complete tokens, then a double quote: the scan of a
string literal stops at that quote. -/
theorem scanString_closed (w t : WString) (h : Complete w) :
    scanString (w ++ '"' :: t) = some (w, t) := by
  rw [h, scanString.eq_def]
  simp

theorem parseValue_string (k : Nat) (w t : WString) (h : Complete w) :
    parseValue (k + 1) ('"' :: (w ++ '"' :: t)) = some (Json.str w, t) := by
  rw [parseValue]
  simp [scanString_closed w t h]

theorem digitChar_isDigit (m : Nat) (h : m < 10) : (Nat.digitChar m).isDigit = true := by
  interval_cases m <;> decide

theorem digitChar_ne_zero (m : Nat) (h : m < 10) (h0 : m ≠ 0) : Nat.digitChar m ≠ '0' := by
  interval_cases m <;> first | exact absurd rfl h0 | decide

theorem toDigitsCore_digits :
    ∀ (fuel n : Nat) (ds : List Char), n < fuel → (∀ c ∈ ds, c.isDigit = true) →
      (n = 0 → ds = []) →
      ∃ d rest, Nat.toDigitsCore 10 fuel n ds = d :: rest
        ∧ (∀ c ∈ d :: rest, c.isDigit = true) ∧ (d ≠ '0' ∨ rest = []) := by
  intro fuel
  induction fuel with
  | zero => intro n ds h; omega
  | succ fuel ih =>
    intro n ds hn hds h0
    have hd : (Nat.digitChar (n % 10)).isDigit = true :=
      digitChar_isDigit _ (Nat.mod_lt _ (by decide))
    have hall : ∀ c ∈ Nat.digitChar (n % 10) :: ds, c.isDigit = true := by
      intro c hc
      rcases List.mem_cons.mp hc with e | e
      · rw [e]; exact hd
      · exact hds c e
    rw [Nat.toDigitsCore]
    by_cases hq : n / 10 = 0
    · simp only [hq, if_true]
      refine ⟨_, _, rfl, hall, ?_⟩
      by_cases hz : n = 0
      · exact Or.inr (h0 hz)
      · left
        have : n % 10 ≠ 0 := by omega
        exact digitChar_ne_zero _ (Nat.mod_lt _ (by decide)) this
    · simp only [hq, if_false]
      exact ih (n / 10) _ (by omega) hall (fun e => absurd e hq)

/-- The decimal digits of a number: a non-empty run of digits without a
leading zero, the number zero apart. -/
theorem decimal_digits (n : Nat) :
    ∃ d rest, decimal n = d :: rest ∧ (∀ c ∈ d :: rest, c.isDigit = true)
      ∧ (d ≠ '0' ∨ rest = []) := by
  unfold decimal Nat.toDigits
  exact toDigitsCore_digits (n + 1) n [] (by omega) (by simp) (fun _ => rfl)

theorem spanDigits_all (w t : WString) (h : ∀ c ∈ w, c.isDigit = true)
    (ht : ∀ c, t.head? = some c → c.isDigit = false) : spanDigits (w ++ t) = (w, t) := by
  induction w with
  | nil =>
    cases t with
    | nil => rfl
    | cons c t => simp [spanDigits, ht c rfl]
  | cons c w ih =>
    have hc := h c (List.mem_cons_self _ _)
    have := ih fun x hx => h x (List.mem_cons_of_mem _ hx)
    simp [spanDigits, hc, this]

theorem isJsonNumber_digits (d : Char) (rest : WString) (h : ∀ c ∈ d :: rest, c.isDigit = true)
    (hz : d ≠ '0' ∨ rest = []) : isJsonNumber (d :: rest) = true := by
  have hs : spanDigits (d :: rest) = (d :: rest, []) := by
    have := spanDigits_all (d :: rest) [] h (by simp)
    simpa using this
  have hd := h d (List.mem_cons_self _ _)
  have hm : d ≠ '-' := by
    intro e
    rw [e] at hd
    exact absurd hd (by decide)
  unfold isJsonNumber
  split
  · rename_i heq
    exact absurd (List.cons.inj heq).1 hm
  · rcases hz with hz | hz
    · simp [hs, hz]
    · subst hz
      simp [hs]

theorem isNumChar_of_isDigit (c : Char) (h : c.isDigit = true) : isNumChar c = true := by
  simp [isNumChar, h]

theorem takeWhile_digits (w t : WString) (h : ∀ c ∈ w, c.isDigit = true) (ht : Stop t) :
    (w ++ t).takeWhile isNumChar = w ∧ (w ++ t).dropWhile isNumChar = t := by
  have h1 : w.takeWhile isNumChar = w :=
    List.takeWhile_eq_self_iff.mpr fun c hc => isNumChar_of_isDigit c (h c hc)
  have h2 : w.dropWhile isNumChar = [] :=
    List.dropWhile_eq_nil_iff.mpr fun c hc => isNumChar_of_isDigit c (h c hc)
  rw [takeWhile_append_stop w t ht, dropWhile_append_stop w t ht, h1, h2]
  exact ⟨rfl, rfl⟩

/-- The reader takes the decimal digits of a number, followed by a comma,
as a number. -/
theorem parseValue_decimal (k n : Nat) (t : WString) :
    parseValue (k + 1) (decimal n ++ ',' :: t) = some (Json.num (decimal n), ',' :: t) := by
  obtain ⟨d, rest, hdr, hall, hz⟩ := decimal_digits n
  have hstop : Stop (',' :: t) := by
    intro c hc
    simp only [List.head?_cons, Option.some.injEq] at hc
    rw [← hc]
    decide
  have htw := takeWhile_digits (d :: rest) (',' :: t) hall hstop
  have hd := hall d (List.mem_cons_self _ _)
  have hne : ∀ x : Char, x.isDigit = false → d ≠ x := by
    intro x hx e
    rw [e] at hd
    rw [hd] at hx
    exact absurd hx (by decide)
  rw [hdr] at *
  rw [List.cons_append] at htw ⊢
  rw [parseValue]
  simp only [if_neg (hne '[' (by decide)), if_neg (hne '{' (by decide)),
    if_neg (hne '"' (by decide)), if_neg (hne 't' (by decide)), if_neg (hne 'f' (by decide)),
    if_neg (hne 'n' (by decide)), htw.1, htw.2, isJsonNumber_digits d rest hall hz, if_true]

theorem skipWs_decimal (n : Nat) (t : WString) : skipWs (decimal n ++ t) = decimal n ++ t := by
  obtain ⟨d, rest, hdr, hall, _⟩ := decimal_digits n
  have hd := hall d (List.mem_cons_self _ _)
  have hw : isWs d = false := by
    cases hws : isWs d with
    | false => rfl
    | true =>
      simp only [isWs, Bool.or_eq_true, decide_eq_true_eq] at hws
      rcases hws with ((h | h) | h) | h <;> rw [h] at hd <;> exact absurd hd (by decide)
  rw [hdr, List.cons_append, skipWs, hw]
  rfl

/-- A member `"key": value` followed by a comma and further members. -/
theorem parseMembers_more (pv : WString → Option (Json × WString)) (f : Nat)
    (key vt rest : WString) (v : Json) (ms : List (WString × Json)) (r : WString)
    (hk : Complete key) (hvt : skipWs vt = vt) (hv : pv vt = some (v, ',' :: rest))
    (hrest : skipWs rest = rest) (hms : parseMembers pv f rest = some (ms, r)) :
    parseMembers pv (f + 1) ('"' :: (key ++ '"' :: ':' :: ' ' :: vt))
      = some ((key, v) :: ms, r) := by
  rw [parseMembers]
  simp [scanString_closed key _ hk, skipWs, isWs, hvt, hv, hrest, hms]

/-- A member `"key": value` followed by the closing brace. -/
theorem parseMembers_last (pv : WString → Option (Json × WString)) (f : Nat)
    (key vt rest : WString) (v : Json)
    (hk : Complete key) (hvt : skipWs vt = vt) (hv : pv vt = some (v, '}' :: rest)) :
    parseMembers pv (f + 1) ('"' :: (key ++ '"' :: ':' :: ' ' :: vt))
      = some ([(key, v)], rest) := by
  rw [parseMembers]
  simp [scanString_closed key _ hk, skipWs, isWs, hvt, hv]

set_option maxRecDepth 8192 in
theorem FormatString_json (pLogEntry : EventLogEntry) :
    Utility.FormatString EndpointMonitor.jsonLogFmt (EndpointMonitor.formatArgs pLogEntry)
      = some (jsonLineOf (c_str pLogEntry.source) (c_str pLogEntry.eventSource)
          (c_str pLogEntry.eventTime) (c_str pLogEntry.eventChannel)
          (c_str pLogEntry.eventLevel) (decimal (pLogEntry.eventId % 2 ^ 32))
          (c_str pLogEntry.eventMessage)) :=
  rfl

theorem parseValue_object (k : Nat) (t : WString) (ms : List (WString × Json)) (r : WString)
    (h : parseMembers (parseValue k) k ('"' :: t) = some (ms, r)) :
    parseValue (k + 1) ('{' :: '"' :: t) = some (Json.obj ms, r) := by
  rw [parseValue]
  simp [skipWs, isWs, h]

/-- The JSON line of `PrintEvent` is a JSON text when each of the six
strings substituted in it is made of complete tokens of a string body and
the event id is written in decimal. -/
theorem jsonLineOf_parse (j n : Nat) (source eventSource eventTime eventChannel eventLevel
    eventMessage : WString) (h1 : Complete source) (h2 : Complete eventSource)
    (h3 : Complete eventTime) (h4 : Complete eventChannel) (h5 : Complete eventLevel)
    (h6 : Complete eventMessage) :
    parseJson (j + 8) (jsonLineOf source eventSource eventTime eventChannel eventLevel
        (decimal n) eventMessage)
      = some (jsonTreeOf source eventSource eventTime eventChannel eventLevel
          (decimal n) eventMessage) := by
  have m6 := parseMembers_last (parseValue (j + 6)) j ['M', 'e', 's', 's', 'a', 'g', 'e']
    ('"' :: (eventMessage ++ '"' :: ['}', '}'])) ['}'] (Json.str eventMessage)
    (Complete_plain _ (by unfold PlainText; decide)) rfl
    (parseValue_string (j + 5) eventMessage ['}', '}'] h6)
  have m5 := parseMembers_more (parseValue (j + 6)) (j + 1) ['E', 'v', 'e', 'n', 't', 'I', 'd']
    (decimal n ++ ',' :: '"' :: (['M', 'e', 's', 's', 'a', 'g', 'e'] ++ '"' :: ':' :: ' ' :: '"'
      :: (eventMessage ++ '"' :: ['}', '}']))) _ (Json.num (decimal n)) _ _
    (Complete_plain _ (by unfold PlainText; decide)) (skipWs_decimal n _)
    (parseValue_decimal (j + 5) n _) rfl m6
  have m4 := parseMembers_more (parseValue (j + 6)) (j + 2) ['L', 'e', 'v', 'e', 'l']
    ('"' :: (eventLevel ++ '"' :: ',' :: '"' :: (['E', 'v', 'e', 'n', 't', 'I', 'd'] ++ '"' ::
      ':' :: ' ' :: (decimal n ++ ',' :: '"' :: (['M', 'e', 's', 's', 'a', 'g', 'e'] ++ '"' ::
      ':' :: ' ' :: '"' :: (eventMessage ++ '"' :: ['}', '}'])))))) _ (Json.str eventLevel) _ _
    (Complete_plain _ (by unfold PlainText; decide)) rfl
    (parseValue_string (j + 5) eventLevel _ h5) rfl m5
  have m3 := parseMembers_more (parseValue (j + 6)) (j + 3) ['C', 'h', 'a', 'n', 'n', 'e', 'l']
    ('"' :: (eventChannel ++ '"' :: ',' :: '"' :: (['L', 'e', 'v', 'e', 'l'] ++ '"' :: ':' :: ' '
      :: '"' :: (eventLevel ++ '"' :: ',' :: '"' :: (['E', 'v', 'e', 'n', 't', 'I', 'd'] ++ '"'
      :: ':' :: ' ' :: (decimal n ++ ',' :: '"' :: (['M', 'e', 's', 's', 'a', 'g', 'e'] ++ '"' ::
      ':' :: ' ' :: '"' :: (eventMessage ++ '"' :: ['}', '}'])))))))) _ (Json.str eventChannel) _
      _
    (Complete_plain _ (by unfold PlainText; decide)) rfl
    (parseValue_string (j + 5) eventChannel _ h4) rfl m4
  have m2 := parseMembers_more (parseValue (j + 6)) (j + 4) ['T', 'i', 'm', 'e']
    ('"' :: (eventTime ++ '"' :: ',' :: '"' :: (['C', 'h', 'a', 'n', 'n', 'e', 'l'] ++ '"' :: ':'
      :: ' ' :: '"' :: (eventChannel ++ '"' :: ',' :: '"' :: (['L', 'e', 'v', 'e', 'l'] ++ '"' ::
      ':' :: ' ' :: '"' :: (eventLevel ++ '"' :: ',' :: '"' :: (['E', 'v', 'e', 'n', 't', 'I',
      'd'] ++ '"' :: ':' :: ' ' :: (decimal n ++ ',' :: '"' :: (['M', 'e', 's', 's', 'a', 'g',
      'e'] ++ '"' :: ':' :: ' ' :: '"' :: (eventMessage ++ '"' :: ['}', '}'])))))))))) _
      (Json.str eventTime) _ _
    (Complete_plain _ (by unfold PlainText; decide)) rfl
    (parseValue_string (j + 5) eventTime _ h3) rfl m3
  have m1 := parseMembers_more (parseValue (j + 6)) (j + 5) ['E', 'v', 'e', 'n', 't', 'S', 'o', 'u', 'r', 'c', 'e']
    ('"' :: (eventSource ++ '"' :: ',' :: '"' :: (['T', 'i', 'm', 'e'] ++ '"' :: ':' :: ' ' ::
      '"' :: (eventTime ++ '"' :: ',' :: '"' :: (['C', 'h', 'a', 'n', 'n', 'e', 'l'] ++ '"' ::
      ':' :: ' ' :: '"' :: (eventChannel ++ '"' :: ',' :: '"' :: (['L', 'e', 'v', 'e', 'l'] ++
      '"' :: ':' :: ' ' :: '"' :: (eventLevel ++ '"' :: ',' :: '"' :: (['E', 'v', 'e', 'n', 't',
      'I', 'd'] ++ '"' :: ':' :: ' ' :: (decimal n ++ ',' :: '"' :: (['M', 'e', 's', 's', 'a',
      'g', 'e'] ++ '"' :: ':' :: ' ' :: '"' :: (eventMessage ++ '"' :: ['}', '}'])))))))))))) _
      (Json.str eventSource) _ _
    (Complete_plain _ (by unfold PlainText; decide)) rfl
    (parseValue_string (j + 5) eventSource _ h2) rfl m2
  have inner := parseValue_object (j + 6) _ _ _ m1
  have o2 := parseMembers_last (parseValue (j + 7)) (j + 5) ['L', 'o', 'g', 'E', 'n', 't', 'r', 'y'] _ [] _
    (Complete_plain _ (by unfold PlainText; decide)) rfl inner
  have o1 := parseMembers_more (parseValue (j + 7)) (j + 6) ['S', 'o', 'u', 'r', 'c', 'e']
    ('"' :: (source ++ '"' :: ',' :: '"' :: (['L', 'o', 'g', 'E', 'n', 't', 'r', 'y'] ++ '"' ::
      ':' :: ' ' :: '{' :: '"' :: (['E', 'v', 'e', 'n', 't', 'S', 'o', 'u', 'r', 'c', 'e'] ++ '"'
      :: ':' :: ' ' :: '"' :: (eventSource ++ '"' :: ',' :: '"' :: (['T', 'i', 'm', 'e'] ++ '"'
      :: ':' :: ' ' :: '"' :: (eventTime ++ '"' :: ',' :: '"' :: (['C', 'h', 'a', 'n', 'n', 'e',
      'l'] ++ '"' :: ':' :: ' ' :: '"' :: (eventChannel ++ '"' :: ',' :: '"' :: (['L', 'e', 'v',
      'e', 'l'] ++ '"' :: ':' :: ' ' :: '"' :: (eventLevel ++ '"' :: ',' :: '"' :: (['E', 'v',
      'e', 'n', 't', 'I', 'd'] ++ '"' :: ':' :: ' ' :: (decimal n ++ ',' :: '"' :: (['M', 'e',
      's', 's', 'a', 'g', 'e'] ++ '"' :: ':' :: ' ' :: '"' :: (eventMessage ++ '"' :: ['}',
      '}']))))))))))))))) _ (Json.str source) _ _
    (Complete_plain _ (by unfold PlainText; decide)) rfl
    (parseValue_string (j + 6) source _ h1) rfl o2
  have outer := parseValue_object (j + 7) _ _ _ o1
  have hline : parseValue (j + 8) (skipWs (jsonLineOf source eventSource eventTime
      eventChannel eventLevel (decimal n) eventMessage))
      = some (jsonTreeOf source eventSource eventTime eventChannel eventLevel (decimal n)
          eventMessage, []) := outer
  unfold parseJson
  rw [hline]
  rfl

theorem level_name (level : Nat) (h : level < 6) :
    ∃ l, EndpointMonitor.c_LevelToString[level % 2 ^ 8]? = some l
      ∧ EndpointMonitor.c_LevelToString[level]? = some l ∧ PlainText l := by
  interval_cases level <;> exact ⟨_, rfl, rfl, by unfold PlainText; decide⟩

theorem PlainText_no_nul (w : WString) (h : PlainText w) : Char.ofNat 0 ∉ w :=
  fun hx => (h _ hx).2.2 (by decide)

theorem OnlyCrLfTab_no_nul (w : WString) (h : OnlyCrLfTab w) : Char.ofNat 0 ∉ w := by
  intro hx
  rcases h _ hx (by decide) with e | e | e <;> exact absurd e (by decide)

set_option maxRecDepth 8192 in
theorem formattedEvent_quote_sample :
    EndpointMonitor.PrintEvent.formattedEvent 20 [] [] EndpointMonitor.EventFieldsMapping
        ['a', '"', 'b'] ['A', 'p', 'p'] ['1', '2', ':', '0', '0'] 4625 2
        ['h', 'i', Char.ofNat 0]
      = some (jsonLineOf ['E', 'v', 'e', 'n', 't', 'L', 'o', 'g'] ['a', '"', 'b']
          ['1', '2', ':', '0', '0'] ['A', 'p', 'p'] ['E', 'r', 'r', 'o', 'r']
          ['4', '6', '2', '5'] ['h', 'i']) := by
  decide

set_option maxRecDepth 8192 in
theorem jsonLine_quote_sample (F : Nat) :
    parseJson (F + 8) (jsonLineOf ['E', 'v', 'e', 'n', 't', 'L', 'o', 'g'] ['a', '"', 'b']
          ['1', '2', ':', '0', '0'] ['A', 'p', 'p'] ['E', 'r', 'r', 'o', 'r']
          ['4', '6', '2', '5'] ['h', 'i']) = none :=
  rfl

/-! ## Claim C12: the JSON line of an event -/

/-- C12, counterexample. With the log format unset, the provider name `a"b`,
the channel `App`, the time `12:00`, the level 2, the event id 4625 and the
message `hi`, `PrintEvent` builds a line whose `EventSource` member reads
`"a"b"`: the provider name is copied as it is, and the line is not a JSON
text. -/
theorem json_record_counterexample :
    EndpointMonitor.PrintEvent.formattedEvent 20 [] [] EndpointMonitor.EventFieldsMapping
        ['a', '"', 'b'] ['A', 'p', 'p'] ['1', '2', ':', '0', '0'] 4625 2
        ['h', 'i', Char.ofNat 0]
      = some (jsonLineOf ['E', 'v', 'e', 'n', 't', 'L', 'o', 'g'] ['a', '"', 'b']
          ['1', '2', ':', '0', '0'] ['A', 'p', 'p'] ['E', 'r', 'r', 'o', 'r']
          ['4', '6', '2', '5'] ['h', 'i'])
    ∧ ∀ v, ¬ IsJson (jsonLineOf ['E', 'v', 'e', 'n', 't', 'L', 'o', 'g'] ['a', '"', 'b']
          ['1', '2', ':', '0', '0'] ['A', 'p', 'p'] ['E', 'r', 'r', 'o', 'r']
          ['4', '6', '2', '5'] ['h', 'i']) v := by
  refine ⟨formattedEvent_quote_sample, ?_⟩
  rintro v ⟨F, hF⟩
  have h := hF (F + 8) (Nat.le_add_right _ _)
  rw [jsonLine_quote_sample] at h
  exact absurd h (by simp)

/-- C12, as amended. When the log format is neither `Custom` nor `XML`, the
level is one of the six of the table, the provider name, the channel and the
time string hold no double quote, no backslash and no character below
U+0020, and the message (the text of the buffer before its first NUL, fewer
than `2^30` characters) holds no character below U+0020 other than CR, LF
and TAB, `PrintEvent` builds a line that is a JSON text: an object with the
members `Source`, a string, and `LogEntry`, an object whose members are
`EventSource`, `Time`, `Channel` and `Level`, strings holding the provider
name, the time, the channel and the level name, `EventId`, the number in
decimal, and `Message`, a string holding what `SanitizeJson` makes of the
message. -/
theorem json_record_valid (fuel : Nat) (m_logFormat m_customLogFormat : WString)
    (EventFieldsMapping : WString → EventLogEntry → WString)
    (providerName channelName eventTime text junk : WString) (eventId level : Nat)
    (hcustom : Utility.CompareWStrings m_logFormat ['C', 'u', 's', 't', 'o', 'm'] = false)
    (hxml : Utility.CompareWStrings m_logFormat ['X', 'M', 'L'] = false)
    (hlevel : level < 6) (hprovider : PlainText providerName)
    (hchannel : PlainText channelName) (htime : PlainText eventTime)
    (hmsg : OnlyCrLfTab text) (hlen : text.length < 2 ^ 30)
    (hfuel : (text ++ Char.ofNat 0 :: junk).length < fuel) :
    ∃ line eventLevel esc,
      EndpointMonitor.PrintEvent.formattedEvent fuel m_logFormat m_customLogFormat
          EventFieldsMapping providerName channelName eventTime eventId level
          (text ++ Char.ofNat 0 :: junk) = some line
      ∧ EndpointMonitor.c_LevelToString[level]? = some eventLevel
      ∧ Utility.SanitizeJson fuel text = some esc
      ∧ IsJson line (jsonTreeOf ['E', 'v', 'e', 'n', 't', 'L', 'o', 'g'] providerName
          eventTime channelName eventLevel (decimal (eventId % 2 ^ 16)) esc) := by
  obtain ⟨eventLevel, hl1, hl2, hl3⟩ := level_name level hlevel
  have hlt : text.length < fuel := by
    simp only [List.length_append, List.length_cons] at hfuel
    omega
  have h0 : trail [] % 2 = 0 := by decide
  obtain ⟨esc, he1, he2⟩ := loop_complete text.length fuel [] text (Nat.le_refl _) hlt
    Complete_nil h0 (by simp only [List.length_nil]; omega) hmsg
  have hesc : Utility.SanitizeJson fuel text = some esc := he1
  obtain ⟨out, ho1, ho2⟩ := SanitizeJson_buffer fuel text junk esc
    (OnlyCrLfTab_no_nul text hmsg) hesc hfuel
  have hsrc : PlainText ['E', 'v', 'e', 'n', 't', 'L', 'o', 'g'] := by
    unfold PlainText; decide
  have hid : eventId % 2 ^ 16 % 2 ^ 32 = eventId % 2 ^ 16 :=
    Nat.mod_eq_of_lt (Nat.lt_of_lt_of_le (Nat.mod_lt _ (by decide)) (by decide))
  refine ⟨jsonLineOf ['E', 'v', 'e', 'n', 't', 'L', 'o', 'g'] providerName eventTime
    channelName eventLevel (decimal (eventId % 2 ^ 16)) esc, eventLevel, esc, ?_, hl2, hesc, ?_⟩
  · unfold EndpointMonitor.PrintEvent.formattedEvent
    have hmem : Char.ofNat 0 ∈ text ++ Char.ofNat 0 :: junk := by simp
    simp only [hl1, hmem, if_true, hcustom, hxml, ho1, Bool.false_eq_true, if_false,
      FormatString_json, ho2, hid, c_str_of_no_nul _ (PlainText_no_nul _ hprovider),
      c_str_of_no_nul _ (PlainText_no_nul _ hchannel),
      c_str_of_no_nul _ (PlainText_no_nul _ htime),
      c_str_of_no_nul _ (PlainText_no_nul _ hl3),
      c_str_of_no_nul _ (PlainText_no_nul _ hsrc)]
  · refine ⟨8, fun f hf => ?_⟩
    obtain ⟨j, rfl⟩ : ∃ j, f = j + 8 := ⟨f - 8, by omega⟩
    exact jsonLineOf_parse j _ _ _ _ _ _ _ (Complete_plain _ hsrc) (Complete_plain _ hprovider)
      (Complete_plain _ htime) (Complete_plain _ hchannel) (Complete_plain _ hl3) he2

/-- Witness of C12 as amended: the provider `Sec`, the channel `App`, the
time `12:00`, the level 2, the event id 4625 and a buffer that holds the
message `hi"`, a NUL and a stale `z`. -/
theorem json_record_valid_witness :
    ∃ line eventLevel esc,
      EndpointMonitor.PrintEvent.formattedEvent 20 [] [] EndpointMonitor.EventFieldsMapping
          ['S', 'e', 'c'] ['A', 'p', 'p'] ['1', '2', ':', '0', '0'] 4625 2
          (['h', 'i', '"'] ++ Char.ofNat 0 :: ['z']) = some line
      ∧ EndpointMonitor.c_LevelToString[2]? = some eventLevel
      ∧ Utility.SanitizeJson 20 ['h', 'i', '"'] = some esc
      ∧ IsJson line (jsonTreeOf ['E', 'v', 'e', 'n', 't', 'L', 'o', 'g'] ['S', 'e', 'c']
          ['1', '2', ':', '0', '0'] ['A', 'p', 'p'] eventLevel (decimal (4625 % 2 ^ 16)) esc) :=
  json_record_valid 20 [] [] EndpointMonitor.EventFieldsMapping ['S', 'e', 'c'] ['A', 'p', 'p']
    ['1', '2', ':', '0', '0'] ['h', 'i', '"'] ['z'] 4625 2 (by decide) (by decide) (by decide)
    (by unfold PlainText; decide) (by unfold PlainText; decide) (by unfold PlainText; decide)
    (by unfold OnlyCrLfTab; decide) (by decide) (by decide)

/-! ## Claim C21: the stop path -/

/-- C21, counterexample. With both monitors constructed and running,
`OnStop` signals the sender to stop and then sets the stopping event; on
return `g_eventMon` and `g_endpointMon` still hold their monitors: the sender
was signalled while no monitor had been asked to stop. -/
theorem stop_ordering_counterexample :
    MainService.OnStop true serviceMonitoring
      = ({ g_eventMon := true, g_endpointMon := true, senderRunning := false, errorLog := [] },
         [StopAction.WriteEventLogEntry, StopAction.SenderStop, StopAction.SetStoppingEvent,
          StopAction.WaitStoppedEvent]) := by
  decide

/-- C21, amended. In `OnStop`, after the log entry, the first signal is the
stop signal of the sender (`g_sender->Stop()`); the stopping event of the
service is set after it and the stopped event is awaited last, the method
throwing when that wait fails. The method makes no call on a monitor: on
return the sender is marked stopped and every other member, `g_eventMon` and
`g_endpointMon` included, is what it was on entry. -/
theorem stop_signals_sender_only (waitOk : Bool) (s : MainService) :
    (MainService.OnStop waitOk s).2
        = [StopAction.WriteEventLogEntry, StopAction.SenderStop, StopAction.SetStoppingEvent,
            StopAction.WaitStoppedEvent] ++ (if waitOk then [] else [StopAction.ThrowLastError])
    ∧ (MainService.OnStop waitOk s).2.indexOf StopAction.SenderStop = 1
    ∧ (MainService.OnStop waitOk s).2.indexOf StopAction.SetStoppingEvent = 2
    ∧ (MainService.OnStop waitOk s).2.indexOf StopAction.WaitStoppedEvent = 3
    ∧ (MainService.OnStop waitOk s).1 = { s with senderRunning := false }
    ∧ (MainService.OnStop waitOk s).1.senderRunning = false
    ∧ (MainService.OnStop waitOk s).1.g_eventMon = s.g_eventMon
    ∧ (MainService.OnStop waitOk s).1.g_endpointMon = s.g_endpointMon := by
  cases waitOk <;> exact ⟨rfl, rfl, rfl, rfl, rfl, rfl, rfl, rfl⟩

/-! ## Claim C22: teardown of EndpointMonitor -/

/-- C22, evaluated on every constructed monitor. The claim says that the
destructor closes the thread handle and the stop-event handle. For every
monitor that the constructor returns (both handles are not `NULL`) and every
outcome of `SetEvent` and of the wait, the destructor calls `CloseHandle` on
no handle: each call stands under `if (!handle)`, which is false. -/
theorem teardown_closes_no_handle (createEvent createThread : Nat) (m : EndpointMonitor)
    (setEventOk : Bool) (waitResult : WaitResult)
    (h : EndpointMonitor.ctor createEvent createThread = some m) :
    closedHandles (m.dtor setEventOk waitResult) = []
    ∧ m.m_eventMonitorThread ∉ closedHandles (m.dtor setEventOk waitResult)
    ∧ m.m_stopEvent ∉ closedHandles (m.dtor setEventOk waitResult) := by
  unfold EndpointMonitor.ctor at h
  by_cases h1 : createEvent = 0
  · rw [if_pos h1] at h
    exact absurd h (by simp)
  · rw [if_neg h1] at h
    by_cases h2 : createThread = 0
    · rw [if_pos h2] at h
      exact absurd h (by simp)
    · rw [if_neg h2] at h
      have hm : m = { m_stopEvent := createEvent, m_eventMonitorThread := createThread } :=
        (Option.some.inj h).symm
      subst hm
      have hc : closedHandles
          (EndpointMonitor.dtor { m_stopEvent := createEvent, m_eventMonitorThread := createThread }
            setEventOk waitResult) = [] := by
        unfold EndpointMonitor.dtor
        simp only [h1, h2, if_false, List.append_nil]
        cases setEventOk <;> cases waitResult <;> rfl
      rw [hc]
      exact ⟨rfl, List.not_mem_nil _, List.not_mem_nil _⟩

/-- Witness of C22: the monitor with the stop event 420 and the thread 440,
a successful `SetEvent` and a wait that returns `WAIT_OBJECT_0`. -/
theorem teardown_closes_no_handle_witness :
    EndpointMonitor.ctor 420 440 = some ⟨420, 440⟩
    ∧ closedHandles (EndpointMonitor.dtor ⟨420, 440⟩ true WaitResult.WAIT_OBJECT_0) = []
    ∧ 440 ∉ closedHandles (EndpointMonitor.dtor ⟨420, 440⟩ true WaitResult.WAIT_OBJECT_0)
    ∧ 420 ∉ closedHandles (EndpointMonitor.dtor ⟨420, 440⟩ true WaitResult.WAIT_OBJECT_0) :=
  ⟨rfl, teardown_closes_no_handle 420 440 ⟨420, 440⟩ true WaitResult.WAIT_OBJECT_0 rfl⟩

/-! ## Claims C23 to C26: capacity, Peek and Pop -/

/-- C23. Capacity clamp: for every `n` above 50000, `SetMaxSize(n)` has the
effect of `SetMaxSize(50000)`: the stored capacity is 50000, the queue holds
at most 50000 records on return and after every further sequence of calls;
for every `n` up to 50000 the stored capacity is `n`. -/
theorem capacity_clamp (s : EventQueueManager) (n : Nat) :
    (50000 < n →
      s.SetMaxSize n = s.SetMaxSize 50000
      ∧ (s.SetMaxSize n).maxSize_ = 50000
      ∧ (s.SetMaxSize n).queue_.length ≤ 50000
      ∧ ∀ cs s1, runCalls (s.SetMaxSize n) cs = some s1 → s1.queue_.length ≤ 50000)
    ∧ (n ≤ 50000 → (s.SetMaxSize n).maxSize_ = n) := by
  constructor
  · intro hn
    have heq : s.SetMaxSize n = s.SetMaxSize 50000 := by
      unfold EventQueueManager.SetMaxSize limitSize_
      simp only [if_pos hn, if_neg (Nat.lt_irrefl 50000)]
    have hcap : (s.SetMaxSize 50000).maxSize_ = 50000 := by
      unfold EventQueueManager.SetMaxSize limitSize_
      simp only [if_neg (Nat.lt_irrefl 50000)]
    have hlen : (s.SetMaxSize 50000).queue_.length ≤ 50000 := by
      unfold EventQueueManager.SetMaxSize limitSize_
      simp only [if_neg (Nat.lt_irrefl 50000)]
      exact trimLoop_length_le _ _
    rw [heq]
    refine ⟨rfl, hcap, hlen, fun cs s1 h => ?_⟩
    have hw := runCalls_within_limit cs (s.SetMaxSize 50000) s1
      ⟨by rw [hcap]; exact hlen, by rw [hcap]; exact Nat.le_refl _⟩ h
    exact Nat.le_trans hw.1 hw.2
  · intro hn
    unfold EventQueueManager.SetMaxSize limitSize_
    simp only [if_neg (Nat.not_lt.mpr hn)]

/-- Witness of C23: `SetMaxSize(60000)` on a new queue stores 50000, and
`SetMaxSize(7)` stores 7. -/
theorem capacity_clamp_witness :
    (EventQueueManager.ctor.SetMaxSize 60000).maxSize_ = 50000
    ∧ (EventQueueManager.ctor.SetMaxSize 7).maxSize_ = 7 :=
  ⟨((capacity_clamp EventQueueManager.ctor 60000).1 (by decide)).2.1,
    (capacity_clamp EventQueueManager.ctor 7).2 (by decide)⟩

/-- C24. Default capacity: a newly constructed `EventQueueManager` has the
capacity 10000; pushing up to 10000 records into it evicts none, and the
push that follows 10000 pushes evicts the oldest record. -/
theorem default_capacity (rs : List WString) (x : WString) :
    EventQueueManager.ctor.maxSize_ = 10000
    ∧ (rs.length ≤ 10000 → pushAll EventQueueManager.ctor rs = some ⟨rs, 10000⟩)
    ∧ (rs.length = 10000 →
        pushAll EventQueueManager.ctor (rs ++ [x]) = some ⟨rs.drop 1 ++ [x], 10000⟩) := by
  have hp := fun l => pushAll_eq_drop l EventQueueManager.ctor (by decide) (by decide)
  refine ⟨rfl, fun h => ?_, fun h => ?_⟩
  · rw [hp rs]
    have h0 : rs.length - 10000 = 0 := by omega
    simp [EventQueueManager.ctor, h0]
  · rw [hp (rs ++ [x])]
    have h1 : (rs ++ [x]).length - 10000 = 1 := by
      simp only [List.length_append, List.length_singleton]
      omega
    have hne : 1 ≤ rs.length := by omega
    simp only [EventQueueManager.ctor, List.nil_append, h1]
    rw [List.drop_append_of_le_length hne]

/-- Witness of C24 on a small scale: two pushes into a new queue evict
nothing. -/
theorem default_capacity_witness :
    pushAll EventQueueManager.ctor [['a'], ['b']] = some ⟨[['a'], ['b']], 10000⟩ :=
  (default_capacity [['a'], ['b']] []).2.1 (by decide)

/-- C25. Peek is read-only: for every state, after `Peek` the queue and the
capacity are what they were; the call returns the front record of a
non-empty queue and the empty string on an empty queue. -/
theorem peek_read_only (s : EventQueueManager) :
    s.PeekCall.2 = s
    ∧ s.PeekCall.1 = s.Peek
    ∧ (s.queue_ = [] → s.PeekCall.1 = [])
    ∧ (∀ x rest, s.queue_ = x :: rest → s.PeekCall.1 = x) := by
  unfold EventQueueManager.PeekCall EventQueueManager.Peek
  cases hq : s.queue_ with
  | nil => simp
  | cons x rest => simp

/-- C26. Pop: on a non-empty queue `Pop` removes the front record and keeps
the others in their order; on an empty queue it changes nothing; in both
cases the call is defined and the capacity is kept. -/
theorem pop_front_or_nothing (s : EventQueueManager) :
    (∀ x rest, s.queue_ = x :: rest → s.Pop = { s with queue_ := rest })
    ∧ (s.queue_ = [] → s.Pop = s ∧ s.Pop.queue_ = [])
    ∧ QueueCall.run s QueueCall.Pop = some s.Pop
    ∧ s.Pop.maxSize_ = s.maxSize_ := by
  unfold EventQueueManager.Pop
  cases hq : s.queue_ with
  | nil => simp [QueueCall.run, EventQueueManager.Pop, hq]
  | cons x rest => simp [QueueCall.run, EventQueueManager.Pop, hq]

/-! ## Claims C27 to C29: templates once more -/

/-- On a template `L0 % w` with a single `%`, the scanning loop never ends:
it steps over `L0`, stops at the `%` and increments its second index for
ever. -/
theorem FormatLoop_single_percent (f : WString → WString) (L0 w : WString)
    (hL0 : '%' ∉ L0) (hw : '%' ∉ w) :
    ∀ (fuel i j : Nat), (i < L0.length ∧ j = i + 1) ∨ (i = L0.length ∧ i + 1 ≤ j) →
      Utility.FormatEventLineLog.loop f fuel (L0 ++ '%' :: w) i j = none := by
  intro fuel
  induction fuel with
  | zero => intro i j _; rfl
  | succ fuel ih =>
    intro i j hij
    rw [Utility.FormatEventLineLog.loop]
    have hlen : i < (L0 ++ '%' :: w).length := by
      simp only [List.length_append, List.length_cons]
      rcases hij with h | h <;> omega
    rw [if_pos hlen]
    rcases hij with ⟨hi, hj⟩ | ⟨hi, hj⟩
    · -- a character of `L0`
      subst hj
      obtain ⟨c, hc⟩ : ∃ c, L0[i]? = some c := ⟨L0[i], List.getElem?_eq_getElem hi⟩
      have hcm : c ∈ L0 := List.getElem?_mem hc
      have hne : c ≠ '%' := fun e => hL0 (e ▸ hcm)
      have hsub : ((L0 ++ '%' :: w).drop i).take (i + 1 - i) = [c] := by
        have h1 : i + 1 - i = 1 := by omega
        rw [h1]
        have h2 : (L0 ++ '%' :: w)[i]? = some c := by
          rw [List.getElem?_append_left hi]
          exact hc
        cases hd : (L0 ++ '%' :: w).drop i with
        | nil =>
          have := List.drop_eq_nil_iff.mp hd
          omega
        | cons a t =>
          have h3 : (L0 ++ '%' :: w)[i]? = some a := by
            rw [← List.head?_drop, hd]
            rfl
          rw [h2] at h3
          simp [Option.some.inj h3]
      have hb : (some c == some '%') = false := by simp [hne]
      simp only [hsub, List.length_singleton, Nat.sub_self, List.getElem?_cons_zero, hb,
        Bool.not_false, Bool.and_self, if_true]
      apply ih
      rcases Nat.lt_or_ge (i + 1) L0.length with h | h
      · exact Or.inl ⟨h, rfl⟩
      · exact Or.inr ⟨by omega, by omega⟩
    · -- at the `%`
      subst hi
      obtain ⟨k, hk⟩ : ∃ k, j - L0.length = k + 1 := ⟨j - L0.length - 1, by omega⟩
      have hsub : ((L0 ++ '%' :: w).drop L0.length).take (j - L0.length) = '%' :: w.take k := by
        rw [List.drop_left, hk]
        rfl
      have hlast : ∀ x, ('%' :: w.take k)[(w.take k).length]? = some x →
          x = '%' → (w.take k).length = 0 := by
        intro x hx hxe
        cases hl : (w.take k).length with
        | zero => rfl
        | succ n =>
          rw [hl, List.getElem?_cons_succ] at hx
          have hm : x ∈ w := List.mem_of_mem_take (List.getElem?_mem hx)
          exact absurd (hxe ▸ hm) hw
      simp only [hsub, List.length_cons, Nat.add_sub_cancel, List.getElem?_cons_zero,
        beq_self_eq_true, Bool.not_true, Bool.false_and, Bool.true_and, Bool.false_eq_true,
        if_false]
      have hthird : ((('%' :: w.take k)[(w.take k).length]? == some '%')
          && decide ((w.take k).length + 1 > 1)) = false := by
        cases hg : ('%' :: w.take k)[(w.take k).length]? with
        | none => rfl
        | some x =>
          by_cases hx : x = '%'
          · have h0 := hlast x hg hx
            simp [h0]
          · simp [hx]
      rw [hthird]
      simp only [Bool.false_eq_true, if_false]
      exact ih _ _ (Or.inr ⟨rfl, by omega⟩)

/-- C27, evaluated at the failing input. The claim says that the scanning
loop ends on every template, also with an unmatched `%`. On the template
`100%` no amount of fuel yields a result, for every field mapping and source
type: once the first index stands on the `%`, only the second index moves. -/
theorem unmatched_percent_never_returns (fuel : Nat) (EventFieldsMapping : WString → WString)
    (sourceType : WString) :
    Utility.FormatEventLineLog fuel EventFieldsMapping ['1', '0', '0', '%'] sourceType = none := by
  unfold Utility.FormatEventLineLog
  rw [IsCustomJsonFormat_no_bar fuel _ (by decide)]
  have h := FormatLoop_single_percent
    (Utility.FormatEventLineLog.fieldValue EventFieldsMapping sourceType) ['1', '0', '0'] []
    (by decide) (by decide) fuel 0 1 (Or.inl ⟨by decide, rfl⟩)
  have h2 : (['1', '0', '0'] ++ '%' :: ([] : WString)) = ['1', '0', '0', '%'] := rfl
  rw [h2] at h
  simp only [h]

/-- C28, evaluated at the failing input. The claim says that the index into
the six-entry table `c_LevelToString` is within the table for every 8-bit
level. For the level 6 the index is 6, outside the table: the read is
undefined behaviour, whatever the other values of the event are. -/
theorem level_index_out_of_table (fuel : Nat) (m_logFormat m_customLogFormat : WString)
    (EventFieldsMapping : WString → EventLogEntry → WString)
    (providerName channelName eventTime : WString) (eventId : Nat)
    (m_eventMessageBuffer : WString) :
    EndpointMonitor.c_LevelToString.length = 6
    ∧ EndpointMonitor.c_LevelToString[6]? = none
    ∧ EndpointMonitor.PrintEvent.formattedEvent fuel m_logFormat m_customLogFormat
        EventFieldsMapping providerName channelName eventTime eventId 6
        m_eventMessageBuffer = none :=
  ⟨rfl, rfl, rfl⟩

theorem IsCustomJsonFormat_unmarked (fuel : Nat) (B S : WString) (hS : '|' ∉ S)
    (hnot : isJsonMarker S = false) :
    Utility.IsCustomJsonFormat fuel (B ++ '|' :: S) = some (false, B) := by
  have hdrop : (B ++ '|' :: S).drop (B.length + 1) = S := by
    rw [show B ++ '|' :: S = (B ++ ['|']) ++ S by simp]
    rw [show B.length + 1 = (B ++ ['|']).length by simp]
    exact List.drop_left _ _
  unfold isJsonMarker at hnot
  unfold Utility.IsCustomJsonFormat
  rw [find_last_of_append '|' B S hS]
  simp only [hdrop, hnot, Bool.false_eq_true, if_false, List.take_left]

theorem isJsonMarker_iff (S : WString) (h : isJsonMarker S = true) :
    (S.filter (· != ' ')).map towupper = ['J', 'S', 'O', 'N'] := by
  unfold isJsonMarker at h
  simp only [Bool.and_eq_true] at h
  have := (CompareWStrings_iff _ _).mp h.2
  rw [this]
  decide

/-- C29. Pipe truncation: for every template `B|S` in which `S` holds no
`|`, what `FormatEventLineLog` returns is made from `B` alone: when `S` is
not the JSON marker it is the result of the scanning loop on `B` (the
expansion `L0 v1 L1 .. vn Ln` when `B` is `L0 %F1% L1 .. %Fn% Ln`), when `S`
is the marker it is the sanitised result of the loop on `B` with its single
quotes replaced; the `|` and `S` do not reach the output. -/
theorem pipe_truncation (fuel : Nat) (EventFieldsMapping : WString → WString)
    (B S sourceType : WString) (hS : '|' ∉ S) (hfuel : (B ++ '|' :: S).length < fuel) :
    Utility.FormatEventLineLog fuel EventFieldsMapping (B ++ '|' :: S) sourceType
      = (if isJsonMarker S then
          (Utility.FormatEventLineLog.loop
            (Utility.FormatEventLineLog.fieldValue EventFieldsMapping sourceType)
            fuel (quoteReplaced B) 0 1).bind (Utility.SanitizeJson fuel)
        else
          Utility.FormatEventLineLog.loop
            (Utility.FormatEventLineLog.fieldValue EventFieldsMapping sourceType) fuel B 0 1)
    ∧ (isJsonMarker S = false → ∀ (L0 : WString) (tokens : List (WString × WString)),
        B = templateOf L0 tokens → '%' ∉ L0 → (∀ t ∈ tokens, '%' ∉ t.1 ∧ '%' ∉ t.2) →
        Utility.FormatEventLineLog fuel EventFieldsMapping (B ++ '|' :: S) sourceType
          = some (expansionOf
              (Utility.FormatEventLineLog.fieldValue EventFieldsMapping sourceType)
              L0 tokens)) := by
  have hgen : Utility.FormatEventLineLog fuel EventFieldsMapping (B ++ '|' :: S) sourceType
      = (if isJsonMarker S then
          (Utility.FormatEventLineLog.loop
            (Utility.FormatEventLineLog.fieldValue EventFieldsMapping sourceType)
            fuel (quoteReplaced B) 0 1).bind (Utility.SanitizeJson fuel)
        else
          Utility.FormatEventLineLog.loop
            (Utility.FormatEventLineLog.fieldValue EventFieldsMapping sourceType)
            fuel B 0 1) := by
    unfold Utility.FormatEventLineLog
    cases hm : isJsonMarker S with
    | true =>
      rw [IsCustomJsonFormat_marked fuel B S hS (isJsonMarker_iff S hm) hfuel]
      dsimp only
      split
      · rename_i hl
        simp [hl]
      · rename_i v hl
        simp [hl]
    | false =>
      rw [IsCustomJsonFormat_unmarked fuel B S hS hm]
      dsimp only
      split
      · rename_i hl
        simp [hl]
      · rename_i v hl
        simp [hl]
  refine ⟨hgen, fun hm L0 tokens hB hL0 htok => ?_⟩
  rw [hgen, hm]
  have hlen : (templateOf L0 tokens).length < fuel := by
    rw [← hB]
    simp only [List.length_append, List.length_cons] at hfuel
    omega
  have h := FormatLoop_template
    (Utility.FormatEventLineLog.fieldValue EventFieldsMapping sourceType)
    tokens fuel [] L0 hL0 htok hlen
  simp only [List.nil_append, List.length_nil, Nat.zero_add] at h
  rw [hB]
  simpa using h

/-- Witness of C29: the template `%Severity% | %Message%` on the record of
the examples gives `Error` followed by the space that precedes the `|`. -/
theorem pipe_truncation_witness :
    '|' ∉ [' ', '%', 'M', 'e', 's', 's', 'a', 'g', 'e', '%']
    ∧ Utility.FormatEventLineLog 30 (fun n => EndpointMonitor.EventFieldsMapping n entrySample)
        (['%', 'S', 'e', 'v', 'e', 'r', 'i', 't', 'y', '%', ' '] ++ '|' ::
          [' ', '%', 'M', 'e', 's', 's', 'a', 'g', 'e', '%'])
        ['E', 'v', 'e', 'n', 't', 'L', 'o', 'g']
      = some ['E', 'r', 'r', 'o', 'r', ' '] :=
  ⟨by decide,
    ((pipe_truncation 30 (fun n => EndpointMonitor.EventFieldsMapping n entrySample)
      ['%', 'S', 'e', 'v', 'e', 'r', 'i', 't', 'y', '%', ' ']
      [' ', '%', 'M', 'e', 's', 's', 'a', 'g', 'e', '%'] ['E', 'v', 'e', 'n', 't', 'L', 'o', 'g']
      (by decide) (by decide)).2 (by decide) []
      [(['S', 'e', 'v', 'e', 'r', 'i', 't', 'y'], [' '])] (by decide) (by decide)
      (by decide)).trans (by decide)⟩

/-! ## Claim C30: the empty record -/

/-- C30. Empty record in a batch: `AppendJsonToArray` with the empty string
on the batch `[]` returns `true` and leaves the batch `[]`; the flush cycle
of a sender whose queue holds that one record pops it and passes the payload
`[]` to `write2file_`; and the batch built from the empty record followed by
`a` is `[a]`, not `[` + `,a` + `]`. -/
theorem empty_record_vanishes :
    AppendJsonToArray ['[', ']'] [] = (true, ['[', ']'])
    ∧ Sender.RunIteration 3 true senderEmptyRecord
        = some (senderIdle, [SinkCall.write2file_ ['C', ':'] ['[', ']'] false])
    ∧ appendAll ['[', ']'] [[], ['a']] = ['[', 'a', ']']
    ∧ appendAll ['[', ']'] [[], ['a']] ≠ batchOf [[], ['a']] := by
  decide

end XDRAgent
